import Mathlib

/-!
# fst — directory statistics

A shallow embedding of `src/fst.c`: the extension classifier (`is_text_file`,
`is_script_file`), the accumulator step (`process_entry`) and the recursive walker
(`scan_directory`), followed by the properties proved about them.

Conventions of the embedding:

* `unsigned long long` values are natural numbers, every update wrapped with `u64`
  (reduction modulo `2 ^ 64`);
* `time_t` (a signed `long`) is an integer; the code only assigns and compares times;
* a C string is the list of its bytes before the terminating NUL (`CString`);
* the file system is seen through the answers of `readdir`, `lstat` and `opendir`, recorded in
  the tree type `Entry`.
-/

namespace Fst

/-! ## Constants and machine arithmetic -/

/-- A C string: the bytes before the terminating NUL, one `Char` per byte. -/
abbrev CString := List Char

/-- Line 15: `#define MAX_PATH 4096`. -/
def MAX_PATH : Nat := 4096

/-- Line 16: `#define LARGE_FILE_THRESHOLD (100 * 1024 * 1024)`. -/
def LARGE_FILE_THRESHOLD : Nat := 100 * 1024 * 1024

/-- The largest `unsigned long long` (`limits.h`, 64-bit). -/
def ULLONG_MAX : Nat := 2 ^ 64 - 1

/-- The largest `long` (`limits.h`, LP64), also the largest `time_t`. -/
def LONG_MAX : Int := 2 ^ 63 - 1

/-- Wrap-around of `unsigned long long` arithmetic. -/
def u64 (n : Nat) : Nat := n % 2 ^ 64

/-! ## `sys/stat.h` -/

/-- File type mask of `st_mode`. -/
def S_IFMT : Nat := 0o170000
/-- Regular file. -/
def S_IFREG : Nat := 0o100000
/-- Directory. -/
def S_IFDIR : Nat := 0o040000
/-- Symbolic link. -/
def S_IFLNK : Nat := 0o120000
/-- Execute permission, owner. -/
def S_IXUSR : Nat := 0o100
/-- Execute permission, group. -/
def S_IXGRP : Nat := 0o010
/-- Execute permission, others. -/
def S_IXOTH : Nat := 0o001

/-- The macro `S_ISREG(m)`. -/
def S_ISREG (m : Nat) : Bool := m &&& S_IFMT == S_IFREG
/-- The macro `S_ISDIR(m)`. -/
def S_ISDIR (m : Nat) : Bool := m &&& S_IFMT == S_IFDIR
/-- The macro `S_ISLNK(m)`. -/
def S_ISLNK (m : Nat) : Bool := m &&& S_IFMT == S_IFLNK

/-- The fields of `struct stat` read by the program. `st_size` is an `off_t`; `lstat` never
reports a negative size, so it is a natural number (below `2 ^ 63` for a real file).
`st_mtime` is a signed `time_t`. -/
structure stat where
  st_mode : Nat
  st_size : Nat
  st_mtime : Int
deriving DecidableEq

/-! ## Data model (lines 18–55) -/

/-- The aggregate `Stats` (lines 18–44). -/
@[ext]
structure Stats where
  total_size : Nat
  file_count : Nat
  dir_count : Nat
  empty_files : Nat
  non_empty_files : Nat
  empty_dirs : Nat
  non_empty_dirs : Nat
  text_files : Nat
  binary_files : Nat
  script_files : Nat
  large_files : Nat
  min_size : Nat
  max_size : Nat
  total_file_size : Nat
  text_size : Nat
  binary_size : Nat
  sym_links : Nat
  hard_links : Nat
  exec_files : Nat
  recent_files : Nat
  oldest_time : Int
  newest_time : Int
  oldest_file : CString
  newest_file : CString
  dir_path : CString
deriving DecidableEq

/-- The flags `Options` (lines 46–55), C `int`s. -/
structure Options where
  types : Int
  size : Int
  permissions : Int
  dates : Int
  links : Int
  verbose : Int
  human : Int
  all : Int
deriving DecidableEq

/-- The bytes `strncpy(dest, src, n)` copies from `src`: at most `n`. -/
def strncpy (src : CString) (n : Nat) : CString := src.take n

/-- Lines 63–69: `init_stats`. `memset` zeroes every field, then the sentinels are set. -/
def init_stats (path : CString) : Stats :=
  { total_size := 0, file_count := 0, dir_count := 0, empty_files := 0, non_empty_files := 0,
    empty_dirs := 0, non_empty_dirs := 0, text_files := 0, binary_files := 0, script_files := 0,
    large_files := 0,
    min_size := ULLONG_MAX,
    max_size := 0, total_file_size := 0, text_size := 0, binary_size := 0, sym_links := 0,
    hard_links := 0, exec_files := 0, recent_files := 0,
    oldest_time := LONG_MAX,
    newest_time := 0,
    oldest_file := [], newest_file := [],
    dir_path := strncpy path MAX_PATH }

/-! ## Classifier (lines 57–87) -/

/-- Lines 57–59: `text_extensions`. -/
def text_extensions : List CString :=
  [['.', 't', 'x', 't'], ['.', 'c'], ['.', 'h'], ['.', 'c', 'p', 'p'], ['.', 'h', 'p', 'p'],
   ['.', 'j', 'a', 'v', 'a'], ['.', 'p', 'y'], ['.', 's', 'h'], ['.', 'p', 'l'], ['.', 'j', 's'],
   ['.', 'c', 's', 's'], ['.', 'h', 't', 'm', 'l'], ['.', 'x', 'm', 'l'],
   ['.', 'j', 's', 'o', 'n'], ['.', 'm', 'd']]

/-- Lines 60–61: `script_extensions`. -/
def script_extensions : List CString :=
  [['.', 's', 'h'], ['.', 'p', 'y'], ['.', 'p', 'l'], ['.', 'r', 'b'], ['.', 'p', 'h', 'p'],
   ['.', 'j', 's'], ['.', 'l', 'u', 'a']]

/-- The libc function `strrchr(s, c)` for a non-NUL `c`: the suffix of `s` that starts at the
last occurrence of `c`, or `none` (NULL) when `c` does not occur. -/
def strrchr : CString → Char → Option CString
  | [], _ => none
  | x :: xs, c =>
    match strrchr xs c with
    | some t => some t
    | none => if x = c then some (x :: xs) else none

/-- The libc function `tolower` in the C locale (the program never calls `setlocale`), on
byte values. -/
def tolower (c : Nat) : Nat := if 65 ≤ c ∧ c ≤ 90 then c + 32 else c

/-- The libc function `strcasecmp(s1, s2)`: walk both strings comparing lowered bytes, stop at
the first difference or at the terminating NUL; the end of a list is the NUL byte. -/
def strcasecmp : CString → CString → Int
  | [], [] => 0
  | [], c2 :: _ => (tolower 0 : Int) - (tolower c2.toNat : Int)
  | c1 :: _, [] => (tolower c1.toNat : Int) - (tolower 0 : Int)
  | c1 :: p1, c2 :: p2 =>
    let result : Int := (tolower c1.toNat : Int) - (tolower c2.toNat : Int)
    if result ≠ 0 then result
    else if c1.toNat = 0 then result
    else strcasecmp p1 p2

/-- Lines 71–78: `is_text_file`. -/
def is_text_file (filename : CString) : Bool :=
  match strrchr filename '.' with
  | none => false
  | some dot => text_extensions.any (fun ext => strcasecmp dot ext == 0)

/-- Lines 80–87: `is_script_file`. -/
def is_script_file (filename : CString) : Bool :=
  match strrchr filename '.' with
  | none => false
  | some dot => script_extensions.any (fun ext => strcasecmp dot ext == 0)

/-! ## Accumulator step (lines 104–143) -/

/-- Lines 104–143: `process_entry`, statement by statement. `opts` is received and not read. -/
def process_entry (path : CString) (sb : stat) (_opts : Options) (stats : Stats) : Stats :=
  if S_ISREG sb.st_mode then
    let stats := { stats with file_count := u64 (stats.file_count + 1) }
    let stats := { stats with total_size := u64 (stats.total_size + sb.st_size) }
    let stats :=
      if sb.st_size = 0 then { stats with empty_files := u64 (stats.empty_files + 1) }
      else { stats with non_empty_files := u64 (stats.non_empty_files + 1) }
    let stats :=
      if sb.st_size > LARGE_FILE_THRESHOLD then
        { stats with large_files := u64 (stats.large_files + 1) }
      else stats
    let stats :=
      if sb.st_size < stats.min_size then { stats with min_size := sb.st_size } else stats
    let stats :=
      if sb.st_size > stats.max_size then { stats with max_size := sb.st_size } else stats
    let stats :=
      if is_text_file path then
        { stats with text_files := u64 (stats.text_files + 1),
                     text_size := u64 (stats.text_size + sb.st_size) }
      else
        { stats with binary_files := u64 (stats.binary_files + 1),
                     binary_size := u64 (stats.binary_size + sb.st_size) }
    let stats :=
      if is_script_file path then { stats with script_files := u64 (stats.script_files + 1) }
      else stats
    let stats :=
      if sb.st_mode &&& (S_IXUSR ||| S_IXGRP ||| S_IXOTH) ≠ 0 then
        { stats with exec_files := u64 (stats.exec_files + 1) }
      else stats
    let stats :=
      if sb.st_mtime < stats.oldest_time then
        { stats with oldest_time := sb.st_mtime, oldest_file := strncpy path MAX_PATH }
      else stats
    let stats :=
      if sb.st_mtime > stats.newest_time then
        { stats with newest_time := sb.st_mtime, newest_file := strncpy path MAX_PATH }
      else stats
    stats
  else if S_ISDIR sb.st_mode then
    { stats with dir_count := u64 (stats.dir_count + 1) }
  else if S_ISLNK sb.st_mode then
    { stats with sym_links := u64 (stats.sym_links + 1) }
  else stats

/-! ## Walker (lines 145–172) -/

/-- One directory entry as the walker meets it: the name `readdir` yields, the answer of
`lstat` on the path built for it (`none`: the call returned -1) and the answer `opendir` gives
for that path (`none`: NULL, otherwise the entries `readdir` will yield). For a symbolic link
`opendir` describes the link target, since `opendir` follows links and `lstat` does not. -/
inductive Entry where
  | mk (d_name : CString) (lstat : Option stat) (opendir : Option (List Entry))

/-- Line 157: `snprintf(full_path, MAX_PATH, "%s/%s", path, entry->d_name)`, which keeps at
most `MAX_PATH - 1` bytes. -/
def full_path (path d_name : CString) : CString :=
  (path ++ '/' :: d_name).take (MAX_PATH - 1)

mutual
/-- Lines 145–172: `scan_directory`. `dir` is the answer of `opendir(path)`. The diagnostics
written to `stderr` under `opts->verbose` are not part of `Stats`. -/
def scan_directory (path : CString) (dir : Option (List Entry)) (opts : Options)
    (stats : Stats) : Stats :=
  match dir with
  | none => stats
  | some entries => scan_entries path entries opts stats
termination_by structural dir
/-- Lines 153–170: the `while ((entry = readdir(dir)) != NULL)` loop. -/
def scan_entries (path : CString) (entries : List Entry) (opts : Options)
    (stats : Stats) : Stats :=
  match entries with
  | [] => stats
  | entry :: rest => scan_entries path rest opts (scan_entry path entry opts stats)
termination_by structural entries
/-- Lines 154–169: the body of the loop for one entry. -/
def scan_entry (path : CString) (entry : Entry) (opts : Options) (stats : Stats) : Stats :=
  match entry with
  | Entry.mk d_name lstat opendir =>
    if d_name = ['.'] ∨ d_name = ['.', '.'] then stats
    else
      match lstat with
      | none => stats
      | some sb =>
        let stats := process_entry (full_path path d_name) sb opts stats
        if S_ISDIR sb.st_mode then scan_directory (full_path path d_name) opendir opts stats
        else stats
termination_by structural entry
end

/-- Lines 256–257 of `main`: `init_stats(&stats, path); scan_directory(path, &opts, &stats);`,
the full traversal of the tree `root` found at `path`. -/
def main_scan (path : CString) (root : Option (List Entry)) (opts : Options) : Stats :=
  scan_directory path root opts (init_stats path)

/-! ## Specification-side notions -/

/-- Folding `process_entry` over a sequence of entries, each given by the path handed to
`process_entry` and its `lstat` result. -/
def fold_entries (opts : Options) (vs : List (CString × stat)) (stats : Stats) : Stats :=
  vs.foldl (fun st v => process_entry v.1 v.2 opts st) stats

mutual
/-- The entries reachable from a directory without following symbolic links, in traversal
order, each with the path built for it: the entries of every directory that can be opened,
except `.` and `..` and those whose `lstat` fails, descending into directories only. -/
def visits_directory (path : CString) (dir : Option (List Entry)) : List (CString × stat) :=
  match dir with
  | none => []
  | some entries => visits_entries path entries
termination_by structural dir
/-- The entries reachable through a list of directory entries. -/
def visits_entries (path : CString) (entries : List Entry) : List (CString × stat) :=
  match entries with
  | [] => []
  | entry :: rest => visits_entry path entry ++ visits_entries path rest
termination_by structural entries
/-- The entries reachable through one directory entry: itself, then its subtree when it is a
directory. -/
def visits_entry (path : CString) (entry : Entry) : List (CString × stat) :=
  match entry with
  | Entry.mk d_name lstat opendir =>
    if d_name = ['.'] ∨ d_name = ['.', '.'] then []
    else
      match lstat with
      | none => []
      | some sb =>
        (full_path path d_name, sb) ::
          (if S_ISDIR sb.st_mode then visits_directory (full_path path d_name) opendir else [])
termination_by structural entry
end

/-- The regular files among a sequence of entries. -/
def regular_files (vs : List (CString × stat)) : List (CString × stat) :=
  vs.filter (fun v => S_ISREG v.2.st_mode)

/-- The predicate of the counting invariant, read as the C expressions
`file_count == empty_files + non_empty_files` and `file_count == text_files + binary_files`
on `unsigned long long` operands. -/
def count_invariant (s : Stats) : Prop :=
  s.file_count = u64 (s.empty_files + s.non_empty_files) ∧
  s.file_count = u64 (s.text_files + s.binary_files)

/-! ## Sample inputs -/

/-- Options with every flag off. -/
def no_options : Options := ⟨0, 0, 0, 0, 0, 0, 0, 0⟩

/-- A regular file (`rw-r--r--`) of the given size and modification time. -/
def regular (size : Nat) (mtime : Int) : stat := ⟨0o100644, size, mtime⟩

/-- A directory (`rwxr-xr-x`). -/
def directory : stat := ⟨0o040755, 4096, 1000⟩

/-- A symbolic link. -/
def symlink : stat := ⟨0o120777, 6, 1000⟩

/-- The scenario of the specification: `a.txt` (empty) and `b.bin` (200 bytes). -/
def sample_tree : Option (List Entry) :=
  some [Entry.mk ['a', '.', 't', 'x', 't'] (some (regular 0 10)) none,
        Entry.mk ['b', '.', 'b', 'i', 'n'] (some (regular 200 5)) none]

/-! ## The classifier as the specification words it -/

/-- Two bytes that are equal up to ASCII letter case: the same byte, or an upper-case letter
`A`–`Z` (65–90) and its lower-case form (32 higher). -/
def same_letter (a b : Char) : Prop :=
  a.toNat = b.toNat ∨
  (65 ≤ a.toNat ∧ a.toNat ≤ 90 ∧ b.toNat = a.toNat + 32) ∨
  (65 ≤ b.toNat ∧ b.toNat ≤ 90 ∧ a.toNat = b.toNat + 32)

/-- Equality of two strings ignoring ASCII letter case: same length, position by position
the same letter. -/
def eq_ignoring_case (a b : CString) : Prop := List.Forall₂ same_letter a b

/-- The string `ext` is the suffix of `name` that starts at the last `.` of `name`. -/
def is_last_dot_suffix (name ext : CString) : Prop :=
  ∃ pre rest : CString, name = pre ++ '.' :: rest ∧ '.' ∉ rest ∧ ext = '.' :: rest

/-- The name contains a `.` and its suffix from the last `.` equals, ignoring ASCII letter
case, one of the listed extensions. -/
def has_extension_in (exts : List CString) (name : CString) : Prop :=
  ∃ ext : CString, is_last_dot_suffix name ext ∧ ∃ e ∈ exts, eq_ignoring_case ext e

/-- A well-formed C string holds no NUL byte before its terminator. -/
def nul_free (s : CString) : Prop := ∀ c ∈ s, c.toNat ≠ 0

instance (s : CString) : Decidable (nul_free s) := by
  unfold nul_free; infer_instance

/-! ## Trees up to the targets of symbolic links -/

mutual
/-- The same directory with every symbolic link made to dangle: wherever `lstat` reports a
symbolic link, the answer of `opendir` (which describes the link target) is replaced by
`none`. Two trees with the same image differ only in what their symbolic links point to. -/
def cut_links_directory (dir : Option (List Entry)) : Option (List Entry) :=
  match dir with
  | none => none
  | some entries => some (cut_links_entries entries)
termination_by structural dir
/-- The entries of a directory with every symbolic link made to dangle. -/
def cut_links_entries (entries : List Entry) : List Entry :=
  match entries with
  | [] => []
  | entry :: rest => cut_links_entry entry :: cut_links_entries rest
termination_by structural entries
/-- One entry, and the tree below it, with every symbolic link made to dangle. -/
def cut_links_entry (entry : Entry) : Entry :=
  match entry with
  | Entry.mk d_name lstat opendir =>
    match lstat with
    | none => Entry.mk d_name none (cut_links_directory opendir)
    | some sb =>
      if S_ISLNK sb.st_mode then Entry.mk d_name (some sb) none
      else Entry.mk d_name (some sb) (cut_links_directory opendir)
termination_by structural entry
end

/-- A tree with a symbolic link `l` to a directory that holds `x.py`. -/
def link_to_directory_tree : Option (List Entry) :=
  some [Entry.mk ['a', '.', 't', 'x', 't'] (some (regular 0 10)) none,
        Entry.mk ['l'] (some symlink)
          (some [Entry.mk ['x', '.', 'p', 'y'] (some (regular 7 20)) none])]

/-- The same tree with the link `l` dangling. -/
def link_to_nothing_tree : Option (List Entry) :=
  some [Entry.mk ['a', '.', 't', 'x', 't'] (some (regular 0 10)) none,
        Entry.mk ['l'] (some symlink) none]

/-- A tree with one regular file `a` last modified one second before the epoch. -/
def pre_epoch_tree : Option (List Entry) :=
  some [Entry.mk ['a'] (some (regular 7 (-1))) none]

/-- A tree with two regular files `a` and `b`, both last modified at the epoch
(`st_mtime = 0`). -/
def epoch_tree : Option (List Entry) :=
  some [Entry.mk ['a'] (some (regular 7 0)) none, Entry.mk ['b'] (some (regular 9 0)) none]

/-- The example of the specification: files modified at times 10, 5 and 20. -/
def three_times_tree : Option (List Entry) :=
  some [Entry.mk ['a'] (some (regular 1 10)) none, Entry.mk ['b'] (some (regular 2 5)) none,
        Entry.mk ['c'] (some (regular 3 20)) none]

/-- The predicate of the size invariant, read as the C expression
`total_size == text_size + binary_size` on `unsigned long long` operands. -/
def size_invariant (s : Stats) : Prop :=
  s.total_size = u64 (s.text_size + s.binary_size)

/-! ## The walker with its diagnostics -/

/-- A line written to `stderr`: which call failed and on which path (lines 148 and 161; the
text of `strerror(errno)` is left out). -/
inductive Diagnostic where
  | opening (path : CString)
  | stating (path : CString)
deriving DecidableEq

mutual
/-- Lines 145–172 once more, now with the lines written to `stderr`: `scan_directory` reads
`opts->verbose` on its two failure paths. The state is `Stats` together with the
diagnostics written so far. -/
def scan_directory_diag (path : CString) (dir : Option (List Entry)) (opts : Options)
    (st : Stats × List Diagnostic) : Stats × List Diagnostic :=
  match dir with
  | none => if opts.verbose ≠ 0 then (st.1, st.2 ++ [Diagnostic.opening path]) else st
  | some entries => scan_entries_diag path entries opts st
termination_by structural dir
/-- The `readdir` loop, with diagnostics. -/
def scan_entries_diag (path : CString) (entries : List Entry) (opts : Options)
    (st : Stats × List Diagnostic) : Stats × List Diagnostic :=
  match entries with
  | [] => st
  | entry :: rest => scan_entries_diag path rest opts (scan_entry_diag path entry opts st)
termination_by structural entries
/-- The body of the loop, with diagnostics. -/
def scan_entry_diag (path : CString) (entry : Entry) (opts : Options)
    (st : Stats × List Diagnostic) : Stats × List Diagnostic :=
  match entry with
  | Entry.mk d_name lstat opendir =>
    if d_name = ['.'] ∨ d_name = ['.', '.'] then st
    else
      match lstat with
      | none =>
        if opts.verbose ≠ 0 then (st.1, st.2 ++ [Diagnostic.stating (full_path path d_name)])
        else st
      | some sb =>
        let stats := process_entry (full_path path d_name) sb opts st.1
        if S_ISDIR sb.st_mode then
          scan_directory_diag (full_path path d_name) opendir opts (stats, st.2)
        else (stats, st.2)
termination_by structural entry
end

/-- Lines 256–257 of `main`, with the diagnostics of the traversal. -/
def main_scan_diag (path : CString) (root : Option (List Entry)) (opts : Options) :
    Stats × List Diagnostic :=
  scan_directory_diag path root opts (init_stats path, [])

/-- Options with only `verbose` set. -/
def verbose_options : Options := ⟨0, 0, 0, 0, 0, 1, 0, 0⟩

/-! ## Trees without the failures -/

mutual
/-- The same directory without its traversal failures: a directory that cannot be opened
becomes an empty one. -/
def prune_directory (dir : Option (List Entry)) : Option (List Entry) :=
  match dir with
  | none => some []
  | some entries => some (prune_entries entries)
termination_by structural dir
/-- The entries of a directory without those whose `lstat` fails. -/
def prune_entries (entries : List Entry) : List Entry :=
  match entries with
  | [] => []
  | entry :: rest =>
    match prune_entry entry with
    | none => prune_entries rest
    | some kept => kept :: prune_entries rest
termination_by structural entries
/-- One entry: removed (`none`) when its `lstat` fails, kept otherwise, a subdirectory with
its own failures pruned. -/
def prune_entry (entry : Entry) : Option Entry :=
  match entry with
  | Entry.mk d_name lstat opendir =>
    match lstat with
    | none => none
    | some sb =>
      if S_ISDIR sb.st_mode then some (Entry.mk d_name (some sb) (prune_directory opendir))
      else some (Entry.mk d_name (some sb) opendir)
termination_by structural entry
end

/-- A tree with failures: `a.txt` is read, the metadata of `gone` cannot be fetched, the
subdirectory `locked` cannot be opened and the subdirectory `sub` holds `x.py` and an entry
`lost` whose metadata cannot be fetched. -/
def failing_tree : Option (List Entry) :=
  some [Entry.mk ['a', '.', 't', 'x', 't'] (some (regular 0 10)) none,
        Entry.mk ['g', 'o', 'n', 'e'] none none,
        Entry.mk ['l', 'o', 'c', 'k', 'e', 'd'] (some directory) none,
        Entry.mk ['s', 'u', 'b'] (some directory)
          (some [Entry.mk ['x', '.', 'p', 'y'] (some (regular 7 20)) none,
                 Entry.mk ['l', 'o', 's', 't'] none none])]

/-- The tree `failing_tree` with `locked` emptied and `gone` and `lost` removed. -/
def failing_tree_pruned : Option (List Entry) :=
  some [Entry.mk ['a', '.', 't', 'x', 't'] (some (regular 0 10)) none,
        Entry.mk ['l', 'o', 'c', 'k', 'e', 'd'] (some directory) (some []),
        Entry.mk ['s', 'u', 'b'] (some directory)
          (some [Entry.mk ['x', '.', 'p', 'y'] (some (regular 7 20)) none])]

/-! ## Directories and recursive calls -/

/-- The directories among a sequence of entries. -/
def directories (vs : List (CString × stat)) : List (CString × stat) :=
  vs.filter (fun v => S_ISDIR v.2.st_mode)

mutual
/-- Lines 145–172 once more, now recording the recursive calls: the state is `Stats` together
with the paths on which `scan_directory` has called itself so far (line 168), one item per
call, in call order. -/
def scan_directory_calls (path : CString) (dir : Option (List Entry)) (opts : Options)
    (st : Stats × List CString) : Stats × List CString :=
  match dir with
  | none => st
  | some entries => scan_entries_calls path entries opts st
termination_by structural dir
/-- The `readdir` loop, recording the recursive calls. -/
def scan_entries_calls (path : CString) (entries : List Entry) (opts : Options)
    (st : Stats × List CString) : Stats × List CString :=
  match entries with
  | [] => st
  | entry :: rest => scan_entries_calls path rest opts (scan_entry_calls path entry opts st)
termination_by structural entries
/-- The body of the loop, recording the call of line 168 when it is made. -/
def scan_entry_calls (path : CString) (entry : Entry) (opts : Options)
    (st : Stats × List CString) : Stats × List CString :=
  match entry with
  | Entry.mk d_name lstat opendir =>
    if d_name = ['.'] ∨ d_name = ['.', '.'] then st
    else
      match lstat with
      | none => st
      | some sb =>
        let stats := process_entry (full_path path d_name) sb opts st.1
        if S_ISDIR sb.st_mode then
          scan_directory_calls (full_path path d_name) opendir opts
            (stats, st.2 ++ [full_path path d_name])
        else (stats, st.2)
termination_by structural entry
end

/-- Lines 256–257 of `main`, with the recursive calls of the traversal. -/
def main_scan_calls (path : CString) (root : Option (List Entry)) (opts : Options) :
    Stats × List CString :=
  scan_directory_calls path root opts (init_stats path, [])

/-- A tree with a file, a subdirectory `d` holding a file and a subdirectory `e`, and a
symbolic link `l` to a directory. -/
def nested_tree : Option (List Entry) :=
  some [Entry.mk ['a', '.', 't', 'x', 't'] (some (regular 0 10)) none,
        Entry.mk ['d'] (some directory)
          (some [Entry.mk ['x', '.', 'p', 'y'] (some (regular 7 20)) none,
                 Entry.mk ['e'] (some directory) (some [])]),
        Entry.mk ['l'] (some symlink)
          (some [Entry.mk ['f'] (some directory) (some [])])]

/-! ## Order of enumeration -/

/-- The numeric fields of `Stats` (and `dir_path`): the record with the two recorded paths
`oldest_file` and `newest_file` blanked. -/
def numeric_fields (s : Stats) : Stats :=
  { s with oldest_file := [], newest_file := [] }

mutual
/-- The second directory is the first one with the entries of every directory, at every
depth, enumerated in another order: its entries are those of the first, each with its own
subtree reordered, in any order. An unopenable directory stays unopenable. -/
def reorder_directory (dir : Option (List Entry)) (dir' : Option (List Entry)) : Prop :=
  match dir with
  | none => dir' = none
  | some entries =>
    ∃ inner entries' : List Entry,
      dir' = some entries' ∧ reorder_entries entries inner ∧ inner.Perm entries'
termination_by structural dir
/-- Position by position, the entries of the second list are those of the first with
their subtrees reordered. -/
def reorder_entries (entries : List Entry) (entries' : List Entry) : Prop :=
  match entries with
  | [] => entries' = []
  | entry :: rest =>
    ∃ (entry' : Entry) (rest' : List Entry),
      entries' = entry' :: rest' ∧ reorder_entry entry entry' ∧ reorder_entries rest rest'
termination_by structural entries
/-- The second entry is the first one (same name, same `lstat` answer) with its subtree
reordered. -/
def reorder_entry (entry : Entry) (entry' : Entry) : Prop :=
  match entry with
  | Entry.mk d_name lstat opendir =>
    ∃ opendir' : Option (List Entry),
      entry' = Entry.mk d_name lstat opendir' ∧ reorder_directory opendir opendir'
termination_by structural entry
end

/-- Two files `a` and `b` with the same modification time, `a` enumerated first. -/
def tie_tree : Option (List Entry) :=
  some [Entry.mk ['a'] (some (regular 1 5)) none, Entry.mk ['b'] (some (regular 2 5)) none]

/-- The tree `tie_tree` with `b` enumerated first. -/
def tie_tree_swapped : Option (List Entry) :=
  some [Entry.mk ['b'] (some (regular 2 5)) none, Entry.mk ['a'] (some (regular 1 5)) none]

/-! ## Human-readable sizes (lines 89–102) -/

/-- An IEEE binary64 value of the kind `human_readable_size` meets: the dyadic rational
`num / 2 ^ shift`. The function starts from an integer and only divides by 1024, which in
binary floating point is exact (the exponent drops by 10, the value stays at least 1), so
every `double` it holds has this form with no rounding after the first conversion. -/
structure double where
  num : Nat
  shift : Nat
deriving DecidableEq

/-- The number of binary digits of `n`, counted with the given fuel (64 is enough for an
`unsigned long long`). -/
def bit_length : Nat → Nat → Nat
  | 0, _ => 0
  | fuel + 1, n => if n = 0 then 0 else bit_length fuel (n / 2) + 1

/-- Line 93: `double dsize = size;`. The conversion rounds to 53 significant bits, to
nearest, ties to even: below `2 ^ 53` it is exact, above it the low `e` bits (`e` the number
of bits beyond 53) are rounded away. -/
def double_of_u64 (size : Nat) : double :=
  if size < 2 ^ 53 then ⟨size, 0⟩
  else
    let e := bit_length 64 size - 53
    let q := size / 2 ^ e
    let r := size % 2 ^ e
    let q := if 2 * r > 2 ^ e ∨ (2 * r = 2 ^ e ∧ q % 2 = 1) then q + 1 else q
    ⟨q * 2 ^ e, 0⟩

/-- The comparison `dsize >= 1024`. -/
def double.ge_1024 (d : double) : Bool := decide (1024 * 2 ^ d.shift ≤ d.num)

/-- The division `dsize / 1024`, exact. -/
def double.div_1024 (d : double) : double := ⟨d.num, d.shift + 10⟩

/-- Line 91: `const char units[] = "BKMGTPE";`, the bytes before the terminating NUL (which
sits at index 7). -/
def units : CString := ['B', 'K', 'M', 'G', 'T', 'P', 'E']

/-- Lines 94–97: `while (dsize >= 1024 && unit < sizeof(units)-1) { dsize /= 1024; unit++; }`
with `sizeof(units)-1 = 7`. The first argument counts the iterations the guard `unit < 7`
still allows (7 at the call with `unit = 0`); when it reaches 0 the guard is false. -/
def human_loop : Nat → double → Nat → double × Nat
  | 0, dsize, unit => (dsize, unit)
  | left + 1, dsize, unit =>
    if dsize.ge_1024 ∧ unit < 7 then human_loop left dsize.div_1024 (unit + 1)
    else (dsize, unit)

/-- The number of tenths printed by `"%.1f"`: the value times 10, rounded to the nearest
integer, ties to even (the exact value is rounded, as glibc does). -/
def tenths (x : double) : Nat :=
  let q := x.num * 10 / 2 ^ x.shift
  let r := x.num * 10 % 2 ^ x.shift
  if 2 * r > 2 ^ x.shift ∨ (2 * r = 2 ^ x.shift ∧ q % 2 = 1) then q + 1 else q

/-- The output of `"%llu"`: the decimal numeral. -/
def sprintf_llu (n : Nat) : CString := Nat.toDigits 10 n

/-- The output of `"%.1f"` for a non-negative value: integer part, `.`, one decimal. -/
def sprintf_1f (x : double) : CString :=
  sprintf_llu (tenths x / 10) ++ ['.'] ++ [Nat.digitChar (tenths x % 10)]

/-- The output of `"%c"` for `units[unit]`: the unit symbol, or nothing at index 7, where
the byte is the NUL that ends the string. -/
def sprintf_unit (unit : Nat) : CString :=
  match units.get? unit with
  | some c => [c]
  | none => []

/-- Lines 89–102: `human_readable_size`, the string left in `buf`. -/
def human_readable_size (size : Nat) (human : Int) : CString :=
  if human ≠ 0 then
    let r := human_loop 7 (double_of_u64 size) 0
    sprintf_1f r.1 ++ sprintf_unit r.2
  else sprintf_llu size

/-- The number a string of decimal digits denotes. -/
def decimal_value (s : CString) : Nat :=
  s.foldl (fun a c => 10 * a + (c.toNat - 48)) 0

/-- The character is one of `0`–`9`. -/
def is_decimal_digit (c : Char) : Prop := 48 ≤ c.toNat ∧ c.toNat ≤ 57

/-! ## The tree on disk and what the walker is answered

A value of `Entry` also describes a directory tree on disk: every node with its name, its own
metadata and its own content. The walker does not see the nodes: it sees what `lstat` and
`opendir` answer on the path it has built, which names the node only while the path fits the
`MAX_PATH` buffer of `snprintf`. -/

mutual
/-- The nodes of the tree on disk found at `path` that are reachable from its root without
following symbolic links, each node once, with its own path and its own metadata: the nodes
of every directory that can be opened, except `.` and `..` and those whose metadata cannot
be fetched, descending into directories only. -/
def reachable_directory (path : CString) (dir : Option (List Entry)) : List (CString × stat) :=
  match dir with
  | none => []
  | some entries => reachable_entries path entries
termination_by structural dir
/-- The reachable nodes at and below a list of nodes of the directory `path`. -/
def reachable_entries (path : CString) (entries : List Entry) : List (CString × stat) :=
  match entries with
  | [] => []
  | entry :: rest => reachable_entry path entry ++ reachable_entries path rest
termination_by structural entries
/-- The reachable nodes at and below one node of the directory `path`: the node, whose path
is `path/d_name`, then the nodes below it when it is a directory. -/
def reachable_entry (path : CString) (entry : Entry) : List (CString × stat) :=
  match entry with
  | Entry.mk d_name lstat opendir =>
    if d_name = ['.'] ∨ d_name = ['.', '.'] then []
    else
      match lstat with
      | none => []
      | some sb =>
        (path ++ '/' :: d_name, sb) ::
          (if S_ISDIR sb.st_mode then reachable_directory (path ++ '/' :: d_name) opendir
           else [])
termination_by structural entry
end

mutual
/-- Every path the walker builds in the traversal of the tree found at `path` fits the
buffer: `parent/name` has fewer than `MAX_PATH` bytes, so `snprintf` cuts nothing. -/
def paths_fit_directory (path : CString) (dir : Option (List Entry)) : Bool :=
  match dir with
  | none => true
  | some entries => paths_fit_entries path entries
termination_by structural dir
/-- The paths built for a list of nodes and below them fit the buffer. -/
def paths_fit_entries (path : CString) (entries : List Entry) : Bool :=
  match entries with
  | [] => true
  | entry :: rest => paths_fit_entry path entry && paths_fit_entries path rest
termination_by structural entries
/-- The path built for one node fits the buffer, and so do the paths built below it when it
is a directory. -/
def paths_fit_entry (path : CString) (entry : Entry) : Bool :=
  match entry with
  | Entry.mk d_name lstat opendir =>
    if d_name = ['.'] ∨ d_name = ['.', '.'] then true
    else
      decide ((path ++ '/' :: d_name).length < MAX_PATH) &&
        match lstat with
        | none => true
        | some sb =>
          if S_ISDIR sb.st_mode then paths_fit_directory (path ++ '/' :: d_name) opendir
          else true
termination_by structural entry
end

/-- The name of a node. -/
def entry_name (entry : Entry) : CString :=
  match entry with
  | Entry.mk d_name _ _ => d_name

mutual
/-- The names in the tree are file names: within a directory no two nodes share a name, and
no name holds a `/`. -/
def names_ok_directory (dir : Option (List Entry)) : Bool :=
  match dir with
  | none => true
  | some entries => names_ok_entries entries
termination_by structural dir
/-- The names of a list of nodes, and below them, are file names. -/
def names_ok_entries (entries : List Entry) : Bool :=
  match entries with
  | [] => true
  | entry :: rest =>
    names_ok_entry entry &&
      !(rest.any (fun other => decide (entry_name other = entry_name entry))) &&
      names_ok_entries rest
termination_by structural entries
/-- The name of one node holds no `/`, and the names below it are file names. -/
def names_ok_entry (entry : Entry) : Bool :=
  match entry with
  | Entry.mk d_name lstat opendir =>
    decide ('/' ∉ d_name) &&
      (if d_name = ['.'] ∨ d_name = ['.', '.'] then true
       else
        match lstat with
        | none => true
        | some sb => if S_ISDIR sb.st_mode then names_ok_directory opendir else true)
termination_by structural entry
end

/-- The node of the given name in a directory, if there is one. -/
def find_entry (name : CString) : List Entry → Option Entry
  | [] => none
  | entry :: rest => if entry_name entry = name then some entry else find_entry name rest

/-- The bytes of the name that are left when `snprintf` cuts `path/d_name` to
`MAX_PATH - 1` bytes. -/
def cut_name (path d_name : CString) : CString :=
  d_name.take (MAX_PATH - 1 - (path.length + 1))

/-- What `lstat` and `opendir` answer on a built path that `snprintf` has cut, for the entry
`d_name` of the directory read at `path`, whose nodes are `siblings`. The cut path
`path/cut_name` names the sibling called `cut_name`, if there is one: the entry then gets
that sibling's answers. The result is `none` when the cut path leads back into a directory
that holds an entry: the directory being read (nothing of the name is left, or `.` is
left), its parent (`..` is left, outside the tree), or a sibling directory that is not
empty. Every path built inside such a directory is cut to the same path again, so the
walker enters it again at every level of the recursion, for as long as `opendir` succeeds:
no tree of answers over the nodes of the disk describes such a run. -/
def cut_answer (path : CString) (siblings : List Entry) (d_name : CString) : Option Entry :=
  if MAX_PATH - 1 ≤ path.length + 1 ∨ cut_name path d_name = ['.'] ∨
      cut_name path d_name = ['.', '.'] then none
  else
    match find_entry (cut_name path d_name) siblings with
    | none => some (Entry.mk d_name none none)
    | some (Entry.mk _ lstat opendir) =>
      match lstat with
      | none => some (Entry.mk d_name none none)
      | some sb =>
        if S_ISDIR sb.st_mode then
          match opendir with
          | none => some (Entry.mk d_name (some sb) none)
          | some children =>
            if children.all (fun c => decide (entry_name c = ['.'] ∨ entry_name c = ['.', '.']))
            then some (Entry.mk d_name (some sb) (some children))
            else none
        else some (Entry.mk d_name (some sb) opendir)

mutual
/-- What the walker is answered during the traversal of the tree on disk found at `path`:
the tree of the answers of `lstat` and `opendir` on the paths it builds (`none` when no such
tree describes the run, see `cut_answer`). While the built path fits the buffer it names the
node and the answers are the node's own. -/
def answers_directory (path : CString) (dir : Option (List Entry)) :
    Option (Option (List Entry)) :=
  match dir with
  | none => some none
  | some entries =>
    match answers_entries path entries entries with
    | none => none
    | some seen => some (some seen)
termination_by structural dir
/-- The answers for the entries of the directory read at `path`, whose nodes are
`siblings`. -/
def answers_entries (path : CString) (siblings : List Entry) (entries : List Entry) :
    Option (List Entry) :=
  match entries with
  | [] => some []
  | entry :: rest =>
    match answers_entry path siblings entry with
    | none => none
    | some seen =>
      match answers_entries path siblings rest with
      | none => none
      | some seen_rest => some (seen :: seen_rest)
termination_by structural entries
/-- The answers for one entry: the node's own when the built path fits (for a directory,
with the answers for its content), those of `cut_answer` otherwise. `.` and `..` are skipped
by the walker and never asked about. -/
def answers_entry (path : CString) (siblings : List Entry) (entry : Entry) : Option Entry :=
  match entry with
  | Entry.mk d_name lstat opendir =>
    if d_name = ['.'] ∨ d_name = ['.', '.'] then some (Entry.mk d_name lstat opendir)
    else if (path ++ '/' :: d_name).length < MAX_PATH then
      match lstat with
      | none => some (Entry.mk d_name none opendir)
      | some sb =>
        if S_ISDIR sb.st_mode then
          match answers_directory (path ++ '/' :: d_name) opendir with
          | none => none
          | some seen => some (Entry.mk d_name (some sb) seen)
        else some (Entry.mk d_name (some sb) opendir)
    else cut_answer path siblings d_name
termination_by structural entry
end

mutual
/-- Every directory of the tree can be opened: the root, and every directory reachable from
it without following symbolic links. -/
def opens_directory (dir : Option (List Entry)) : Bool :=
  match dir with
  | none => false
  | some entries => opens_entries entries
termination_by structural dir
/-- Every directory at or below a list of nodes can be opened. -/
def opens_entries (entries : List Entry) : Bool :=
  match entries with
  | [] => true
  | entry :: rest => opens_entry entry && opens_entries rest
termination_by structural entries
/-- The node, when it is a directory, can be opened, and so can every directory below it. -/
def opens_entry (entry : Entry) : Bool :=
  match entry with
  | Entry.mk d_name lstat opendir =>
    if d_name = ['.'] ∨ d_name = ['.', '.'] then true
    else
      match lstat with
      | none => true
      | some sb => if S_ISDIR sb.st_mode then opens_directory opendir else true
termination_by structural entry
end

/-- Lines 256–257 of `main` run on the tree on disk found at `path`: the traversal, given the
answers the tree gives to the walker. -/
def main_scan_disk (path : CString) (disk : Option (List Entry)) (opts : Options) :
    Option Stats :=
  match answers_directory path disk with
  | none => none
  | some seen => some (main_scan path seen opts)

/-- The traversal of the tree on disk found at `path`, with its recursive calls. -/
def main_scan_calls_disk (path : CString) (disk : Option (List Entry)) (opts : Options) :
    Option (Stats × List CString) :=
  match answers_directory path disk with
  | none => none
  | some seen => some (main_scan_calls path seen opts)

/-- A parent path of 4090 bytes, `/d/d/…/d` with 2045 components: below it a name of more
than 4 bytes is cut. -/
def long_parent : CString := (List.replicate 2045 ['/', 'd']).flatten

/-- A directory on disk holding the files `ab.p` (3 bytes) and `ab.py` (11 bytes). -/
def cut_files_disk : Option (List Entry) :=
  some [Entry.mk ['a', 'b', '.', 'p'] (some (regular 3 10)) none,
        Entry.mk ['a', 'b', '.', 'p', 'y'] (some (regular 11 20)) none]

/-- What the walker is answered on `cut_files_disk` below `long_parent`: the path built for
`ab.py` is cut to `…/ab.p`, so `lstat` answers with the metadata of `ab.p`. -/
def cut_files_seen : Option (List Entry) :=
  some [Entry.mk ['a', 'b', '.', 'p'] (some (regular 3 10)) none,
        Entry.mk ['a', 'b', '.', 'p', 'y'] (some (regular 3 10)) none]

/-- A directory on disk holding the empty directory `abcd` and the directory `abcdef`, which
holds the directory `x`. -/
def cut_dirs_disk : Option (List Entry) :=
  some [Entry.mk ['a', 'b', 'c', 'd'] (some directory) (some []),
        Entry.mk ['a', 'b', 'c', 'd', 'e', 'f'] (some directory)
          (some [Entry.mk ['x'] (some directory) (some [])])]

/-- What the walker is answered on `cut_dirs_disk` below `long_parent`: the path built for
`abcdef` is cut to `…/abcd`, so `lstat` and `opendir` answer for `abcd`. -/
def cut_dirs_seen : Option (List Entry) :=
  some [Entry.mk ['a', 'b', 'c', 'd'] (some directory) (some []),
        Entry.mk ['a', 'b', 'c', 'd', 'e', 'f'] (some directory) (some [])]

/-! ## The accumulator step in closed form -/

theorem S_ISREG_iff (m : Nat) : S_ISREG m = true ↔ m &&& S_IFMT = S_IFREG := by
  simp [S_ISREG]

theorem S_ISDIR_iff (m : Nat) : S_ISDIR m = true ↔ m &&& S_IFMT = S_IFDIR := by
  simp [S_ISDIR]

theorem S_ISLNK_iff (m : Nat) : S_ISLNK m = true ↔ m &&& S_IFMT = S_IFLNK := by
  simp [S_ISLNK]

theorem S_ISDIR_not_reg {m : Nat} (h : S_ISDIR m = true) : S_ISREG m = false := by
  rw [S_ISDIR_iff] at h
  cases hr : S_ISREG m with
  | false => rfl
  | true =>
    rw [S_ISREG_iff, h] at hr
    exact absurd hr (by decide)

theorem S_ISLNK_not_reg {m : Nat} (h : S_ISLNK m = true) : S_ISREG m = false := by
  rw [S_ISLNK_iff] at h
  cases hr : S_ISREG m with
  | false => rfl
  | true =>
    rw [S_ISREG_iff, h] at hr
    exact absurd hr (by decide)

theorem S_ISLNK_not_dir {m : Nat} (h : S_ISLNK m = true) : S_ISDIR m = false := by
  rw [S_ISLNK_iff] at h
  cases hr : S_ISDIR m with
  | false => rfl
  | true =>
    rw [S_ISDIR_iff, h] at hr
    exact absurd hr (by decide)

/-- A regular file: every statement of the first branch, field by field. -/
theorem process_entry_reg (p : CString) (sb : stat) (o : Options) (s : Stats)
    (h : S_ISREG sb.st_mode = true) :
    process_entry p sb o s =
      { s with
        file_count := u64 (s.file_count + 1)
        total_size := u64 (s.total_size + sb.st_size)
        empty_files := if sb.st_size = 0 then u64 (s.empty_files + 1) else s.empty_files
        non_empty_files :=
          if sb.st_size = 0 then s.non_empty_files else u64 (s.non_empty_files + 1)
        large_files :=
          if sb.st_size > LARGE_FILE_THRESHOLD then u64 (s.large_files + 1) else s.large_files
        min_size := if sb.st_size < s.min_size then sb.st_size else s.min_size
        max_size := if sb.st_size > s.max_size then sb.st_size else s.max_size
        text_files := if is_text_file p then u64 (s.text_files + 1) else s.text_files
        text_size := if is_text_file p then u64 (s.text_size + sb.st_size) else s.text_size
        binary_files := if is_text_file p then s.binary_files else u64 (s.binary_files + 1)
        binary_size :=
          if is_text_file p then s.binary_size else u64 (s.binary_size + sb.st_size)
        script_files := if is_script_file p then u64 (s.script_files + 1) else s.script_files
        exec_files :=
          if sb.st_mode &&& (S_IXUSR ||| S_IXGRP ||| S_IXOTH) ≠ 0 then u64 (s.exec_files + 1)
          else s.exec_files
        oldest_time := if sb.st_mtime < s.oldest_time then sb.st_mtime else s.oldest_time
        oldest_file :=
          if sb.st_mtime < s.oldest_time then strncpy p MAX_PATH else s.oldest_file
        newest_time := if sb.st_mtime > s.newest_time then sb.st_mtime else s.newest_time
        newest_file :=
          if sb.st_mtime > s.newest_time then strncpy p MAX_PATH else s.newest_file } := by
  unfold process_entry
  rw [if_pos h]
  simp only [apply_ite Stats.total_size, apply_ite Stats.file_count, apply_ite Stats.dir_count,
    apply_ite Stats.empty_files, apply_ite Stats.non_empty_files, apply_ite Stats.empty_dirs,
    apply_ite Stats.non_empty_dirs, apply_ite Stats.text_files, apply_ite Stats.binary_files,
    apply_ite Stats.script_files, apply_ite Stats.large_files, apply_ite Stats.min_size,
    apply_ite Stats.max_size, apply_ite Stats.total_file_size, apply_ite Stats.text_size,
    apply_ite Stats.binary_size, apply_ite Stats.sym_links, apply_ite Stats.hard_links,
    apply_ite Stats.exec_files, apply_ite Stats.recent_files, apply_ite Stats.oldest_time,
    apply_ite Stats.newest_time, apply_ite Stats.oldest_file, apply_ite Stats.newest_file,
    apply_ite Stats.dir_path, ite_self]
  apply Stats.ext <;>
  simp only [apply_ite Stats.total_size, apply_ite Stats.file_count, apply_ite Stats.dir_count,
    apply_ite Stats.empty_files, apply_ite Stats.non_empty_files, apply_ite Stats.empty_dirs,
    apply_ite Stats.non_empty_dirs, apply_ite Stats.text_files, apply_ite Stats.binary_files,
    apply_ite Stats.script_files, apply_ite Stats.large_files, apply_ite Stats.min_size,
    apply_ite Stats.max_size, apply_ite Stats.total_file_size, apply_ite Stats.text_size,
    apply_ite Stats.binary_size, apply_ite Stats.sym_links, apply_ite Stats.hard_links,
    apply_ite Stats.exec_files, apply_ite Stats.recent_files, apply_ite Stats.oldest_time,
    apply_ite Stats.newest_time, apply_ite Stats.oldest_file, apply_ite Stats.newest_file,
    apply_ite Stats.dir_path, ite_self]

/-- A directory: only `dir_count` moves. -/
theorem process_entry_dir (p : CString) (sb : stat) (o : Options) (s : Stats)
    (h : S_ISDIR sb.st_mode = true) :
    process_entry p sb o s = { s with dir_count := u64 (s.dir_count + 1) } := by
  unfold process_entry
  rw [if_neg (by simp [S_ISDIR_not_reg h]), if_pos h]

/-- A symbolic link: only `sym_links` moves. -/
theorem process_entry_lnk (p : CString) (sb : stat) (o : Options) (s : Stats)
    (h : S_ISLNK sb.st_mode = true) :
    process_entry p sb o s = { s with sym_links := u64 (s.sym_links + 1) } := by
  unfold process_entry
  rw [if_neg (by simp [S_ISLNK_not_reg h]), if_neg (by simp [S_ISLNK_not_dir h]), if_pos h]

/-- Any other entry type: nothing moves. -/
theorem process_entry_other (p : CString) (sb : stat) (o : Options) (s : Stats)
    (hr : S_ISREG sb.st_mode = false) (hd : S_ISDIR sb.st_mode = false)
    (hl : S_ISLNK sb.st_mode = false) :
    process_entry p sb o s = s := by
  unfold process_entry
  rw [if_neg (by simp [hr]), if_neg (by simp [hd]), if_neg (by simp [hl])]

/-- An entry that is not a regular file leaves every field but `dir_count` and `sym_links`
as it was. -/
theorem process_entry_not_reg (p : CString) (sb : stat) (o : Options) (s : Stats)
    (hr : S_ISREG sb.st_mode = false) :
    process_entry p sb o s =
      { s with
        dir_count := if S_ISDIR sb.st_mode then u64 (s.dir_count + 1) else s.dir_count
        sym_links :=
          if S_ISDIR sb.st_mode = false ∧ S_ISLNK sb.st_mode = true then u64 (s.sym_links + 1)
          else s.sym_links } := by
  cases hd : S_ISDIR sb.st_mode with
  | true => rw [process_entry_dir p sb o s hd]; simp
  | false =>
    cases hl : S_ISLNK sb.st_mode with
    | true => rw [process_entry_lnk p sb o s hl]; simp
    | false => rw [process_entry_other p sb o s hr hd hl]; simp

/-! ## The walker as a fold -/

theorem fold_entries_nil (o : Options) (s : Stats) : fold_entries o [] s = s := rfl

theorem fold_entries_cons (o : Options) (v : CString × stat) (vs : List (CString × stat))
    (s : Stats) :
    fold_entries o (v :: vs) s = fold_entries o vs (process_entry v.1 v.2 o s) := rfl

theorem fold_entries_append (o : Options) (vs ws : List (CString × stat)) (s : Stats) :
    fold_entries o (vs ++ ws) s = fold_entries o ws (fold_entries o vs s) := by
  simp [fold_entries, List.foldl_append]

mutual
/-- The recursive walk is the fold of `process_entry` over the reachable entries. -/
theorem scan_directory_eq_fold (path : CString) :
    (dir : Option (List Entry)) → (o : Options) → (s : Stats) →
      scan_directory path dir o s = fold_entries o (visits_directory path dir) s
  | none, o, s => by simp [scan_directory, visits_directory, fold_entries]
  | some entries, o, s => by
    rw [scan_directory, visits_directory]
    exact scan_entries_eq_fold path entries o s
theorem scan_entries_eq_fold (path : CString) :
    (entries : List Entry) → (o : Options) → (s : Stats) →
      scan_entries path entries o s = fold_entries o (visits_entries path entries) s
  | [], o, s => by simp [scan_entries, visits_entries, fold_entries]
  | entry :: rest, o, s => by
    rw [scan_entries, visits_entries, fold_entries_append,
      scan_entries_eq_fold path rest o, scan_entry_eq_fold path entry o s]
theorem scan_entry_eq_fold (path : CString) :
    (entry : Entry) → (o : Options) → (s : Stats) →
      scan_entry path entry o s = fold_entries o (visits_entry path entry) s
  | Entry.mk d_name lstat opendir, o, s => by
    unfold scan_entry visits_entry
    by_cases hdot : d_name = ['.'] ∨ d_name = ['.', '.']
    · rw [if_pos hdot, if_pos hdot]; rfl
    · rw [if_neg hdot, if_neg hdot]
      cases lstat with
      | none => rfl
      | some sb =>
        by_cases hd : S_ISDIR sb.st_mode = true
        · simp only [hd, if_true, fold_entries_cons]
          exact scan_directory_eq_fold (full_path path d_name) opendir o _
        · simp only [hd, if_false, fold_entries_cons]
          rfl
end

theorem main_scan_eq_fold (path : CString) (root : Option (List Entry)) (o : Options) :
    main_scan path root o = fold_entries o (visits_directory path root) (init_stats path) :=
  scan_directory_eq_fold path root o (init_stats path)

/-! ## Counters and sums along a fold -/

theorem u64_lt (n : Nat) : u64 n < 2 ^ 64 := Nat.mod_lt _ (by norm_num)

theorem u64_of_lt {n : Nat} (h : n < 2 ^ 64) : u64 n = n := Nat.mod_eq_of_lt h

theorem u64_add_u64 (a b : Nat) : u64 (u64 a + b) = u64 (a + b) := by
  unfold u64; omega

/-- A field that a step either adds a weight to (with wrap-around) or leaves alone holds,
after a fold, its start value plus the weights of the selected entries. -/
theorem fold_entries_sum (o : Options) (f : Stats → Nat) (c : CString × stat → Bool)
    (w : CString × stat → Nat)
    (hstep : ∀ p sb s, f (process_entry p sb o s)
      = if c (p, sb) then u64 (f s + w (p, sb)) else f s) :
    ∀ (vs : List (CString × stat)) (s : Stats), f s < 2 ^ 64 →
      f (fold_entries o vs s) = u64 (f s + ((vs.filter c).map w).sum) := by
  intro vs
  induction vs with
  | nil => intro s hs; simp [fold_entries, u64_of_lt hs]
  | cons v vs ih =>
    intro s hs
    rw [fold_entries_cons]
    have hlt : f (process_entry v.1 v.2 o s) < 2 ^ 64 := by
      rw [hstep]; split
      · exact u64_lt _
      · exact hs
    rw [ih _ hlt, hstep]
    by_cases hc : c v = true
    · simp only [hc, if_true, List.filter_cons_of_pos, List.map_cons, List.sum_cons]
      rw [u64_add_u64, Nat.add_assoc]
    · simp only [hc, if_false, Bool.false_eq_true]
      rw [List.filter_cons_of_neg hc]

/-- A counter that a step either increments (with wrap-around) or leaves alone holds, after a
fold, its start value plus the number of selected entries. -/
theorem fold_entries_count (o : Options) (f : Stats → Nat) (c : CString × stat → Bool)
    (hstep : ∀ p sb s, f (process_entry p sb o s) = if c (p, sb) then u64 (f s + 1) else f s) :
    ∀ (vs : List (CString × stat)) (s : Stats), f s < 2 ^ 64 →
      f (fold_entries o vs s) = u64 (f s + (vs.filter c).length) := by
  intro vs s hs
  have h := fold_entries_sum o f c (fun _ => 1) hstep vs s hs
  simpa using h

/-! ## Field-wise steps -/

theorem process_entry_file_count (p : CString) (sb : stat) (o : Options) (s : Stats) :
    (process_entry p sb o s).file_count
      = if S_ISREG sb.st_mode then u64 (s.file_count + 1) else s.file_count := by
  cases h : S_ISREG sb.st_mode with
  | true => rw [process_entry_reg p sb o s h]; simp
  | false => rw [process_entry_not_reg p sb o s h]; simp

theorem process_entry_total_size (p : CString) (sb : stat) (o : Options) (s : Stats) :
    (process_entry p sb o s).total_size
      = if S_ISREG sb.st_mode then u64 (s.total_size + sb.st_size) else s.total_size := by
  cases h : S_ISREG sb.st_mode with
  | true => rw [process_entry_reg p sb o s h]; simp
  | false => rw [process_entry_not_reg p sb o s h]; simp

theorem process_entry_empty_files (p : CString) (sb : stat) (o : Options) (s : Stats) :
    (process_entry p sb o s).empty_files
      = if (S_ISREG sb.st_mode && decide (sb.st_size = 0)) then u64 (s.empty_files + 1)
        else s.empty_files := by
  cases h : S_ISREG sb.st_mode with
  | true => rw [process_entry_reg p sb o s h]; simp
  | false => rw [process_entry_not_reg p sb o s h]; simp

theorem process_entry_non_empty_files (p : CString) (sb : stat) (o : Options) (s : Stats) :
    (process_entry p sb o s).non_empty_files
      = if (S_ISREG sb.st_mode && decide (sb.st_size ≠ 0)) then u64 (s.non_empty_files + 1)
        else s.non_empty_files := by
  cases h : S_ISREG sb.st_mode with
  | true =>
    rw [process_entry_reg p sb o s h]
    by_cases hz : sb.st_size = 0 <;> simp [hz]
  | false => rw [process_entry_not_reg p sb o s h]; simp

theorem process_entry_text_files (p : CString) (sb : stat) (o : Options) (s : Stats) :
    (process_entry p sb o s).text_files
      = if (S_ISREG sb.st_mode && is_text_file p) then u64 (s.text_files + 1)
        else s.text_files := by
  cases h : S_ISREG sb.st_mode with
  | true => rw [process_entry_reg p sb o s h]; simp
  | false => rw [process_entry_not_reg p sb o s h]; simp

theorem process_entry_binary_files (p : CString) (sb : stat) (o : Options) (s : Stats) :
    (process_entry p sb o s).binary_files
      = if (S_ISREG sb.st_mode && !is_text_file p) then u64 (s.binary_files + 1)
        else s.binary_files := by
  cases h : S_ISREG sb.st_mode with
  | true =>
    rw [process_entry_reg p sb o s h]
    cases ht : is_text_file p <;> simp
  | false => rw [process_entry_not_reg p sb o s h]; simp

/-! ## The counting invariant -/

theorem count_invariant_init (path : CString) : count_invariant (init_stats path) := by
  simp [count_invariant, init_stats, u64]

theorem count_invariant_step (p : CString) (sb : stat) (o : Options) (s : Stats)
    (h : count_invariant s) : count_invariant (process_entry p sb o s) := by
  obtain ⟨h1, h2⟩ := h
  unfold count_invariant
  rw [process_entry_file_count, process_entry_empty_files, process_entry_non_empty_files,
    process_entry_text_files, process_entry_binary_files]
  cases hr : S_ISREG sb.st_mode with
  | false => simpa using ⟨h1, h2⟩
  | true =>
    constructor
    · by_cases hz : sb.st_size = 0
      · simp only [hz, Bool.true_and, decide_True, if_true, ne_eq, not_true_eq_false,
          decide_False, Bool.false_eq_true, if_false]
        rw [h1]; unfold u64; omega
      · simp only [hz, Bool.true_and, decide_False, Bool.false_eq_true, if_false, ne_eq,
          not_false_eq_true, decide_True, if_true]
        rw [h1]; unfold u64; omega
    · cases ht : is_text_file p
      · simp only [Bool.true_and, Bool.false_eq_true, if_false, Bool.not_false, if_true]
        rw [h2]; unfold u64; omega
      · simp only [Bool.true_and, if_true, Bool.not_true, Bool.false_eq_true, if_false]
        rw [h2]; unfold u64; omega

theorem count_invariant_fold (o : Options) (vs : List (CString × stat)) :
    ∀ s : Stats, count_invariant s → count_invariant (fold_entries o vs s) := by
  induction vs with
  | nil => intro s h; exact h
  | cons v vs ih =>
    intro s h
    rw [fold_entries_cons]
    exact ih _ (count_invariant_step v.1 v.2 o s h)


theorem filter_split_length {α : Type} (c d e : α → Bool)
    (hde : ∀ a, c a = true → (e a = !d a)) (l : List α) :
    (l.filter (fun a => c a && d a)).length + (l.filter (fun a => c a && e a)).length
      = (l.filter c).length := by
  induction l with
  | nil => rfl
  | cons a l ih =>
    cases hc : c a with
    | false => simpa [List.filter_cons, hc] using ih
    | true =>
      have he := hde a hc
      cases hd : d a with
      | false =>
        rw [hd] at he
        simp [List.filter_cons, hc, hd, he]
        omega
      | true =>
        rw [hd] at he
        simp [List.filter_cons, hc, hd, he]
        omega

/-- A counter that starts at zero holds, after a full traversal, the number of selected
reachable entries modulo `2 ^ 64`. -/
theorem main_scan_count (f : Stats → Nat) (c : CString × stat → Bool) (o : Options)
    (hstep : ∀ p sb s, f (process_entry p sb o s) = if c (p, sb) then u64 (f s + 1) else f s)
    (h0 : ∀ path, f (init_stats path) = 0)
    (path : CString) (root : Option (List Entry)) :
    f (main_scan path root o) = u64 ((visits_directory path root).filter c).length := by
  rw [main_scan_eq_fold, fold_entries_count o f c hstep _ _ (by rw [h0]; norm_num), h0,
    Nat.zero_add]

theorem main_scan_file_count (path : CString) (root : Option (List Entry)) (o : Options) :
    (main_scan path root o).file_count
      = u64 (regular_files (visits_directory path root)).length :=
  main_scan_count Stats.file_count (fun v => S_ISREG v.2.st_mode) o
    (fun p sb s => process_entry_file_count p sb o s) (fun _ => rfl) path root

/-- When fewer than `2 ^ 64` regular files are met no counter wraps, and the two equalities
of the counting invariant hold between the plain numbers. -/
theorem main_scan_counts_exact (path : CString) (root : Option (List Entry)) (o : Options)
    (hn : (regular_files (visits_directory path root)).length < 2 ^ 64) :
    (main_scan path root o).file_count
        = (main_scan path root o).empty_files + (main_scan path root o).non_empty_files ∧
    (main_scan path root o).file_count
        = (main_scan path root o).text_files + (main_scan path root o).binary_files := by
  have hfc := main_scan_file_count path root o
  have he := main_scan_count Stats.empty_files
      (fun v => S_ISREG v.2.st_mode && decide (v.2.st_size = 0)) o
      (fun p sb s => process_entry_empty_files p sb o s) (fun _ => rfl) path root
  have hne := main_scan_count Stats.non_empty_files
      (fun v => S_ISREG v.2.st_mode && decide (v.2.st_size ≠ 0)) o
      (fun p sb s => process_entry_non_empty_files p sb o s) (fun _ => rfl) path root
  have ht := main_scan_count Stats.text_files
      (fun v => S_ISREG v.2.st_mode && is_text_file v.1) o
      (fun p sb s => process_entry_text_files p sb o s) (fun _ => rfl) path root
  have hb := main_scan_count Stats.binary_files
      (fun v => S_ISREG v.2.st_mode && !is_text_file v.1) o
      (fun p sb s => process_entry_binary_files p sb o s) (fun _ => rfl) path root
  have hsplit1 := filter_split_length (fun v : CString × stat => S_ISREG v.2.st_mode)
    (fun v => decide (v.2.st_size = 0)) (fun v => decide (v.2.st_size ≠ 0))
    (fun a _ => by simp) (visits_directory path root)
  have hsplit2 := filter_split_length (fun v : CString × stat => S_ISREG v.2.st_mode)
    (fun v => is_text_file v.1) (fun v => !is_text_file v.1)
    (fun a _ => rfl) (visits_directory path root)
  unfold regular_files at hn hfc
  rw [hfc, he, hne, ht, hb]
  unfold u64
  constructor
  · rw [Nat.mod_eq_of_lt hn, Nat.mod_eq_of_lt (by omega), Nat.mod_eq_of_lt (by omega)]
    exact hsplit1.symm
  · rw [Nat.mod_eq_of_lt hn, Nat.mod_eq_of_lt (by omega), Nat.mod_eq_of_lt (by omega)]
    exact hsplit2.symm

/-! ## C1 -/

/-- C1. The counting invariant `file_count = empty_files + non_empty_files` and
`file_count = text_files + binary_files` (as C expressions on `unsigned long long`) holds
after `init_stats`, is preserved by every `process_entry` step whatever the entry type, and
holds after a full traversal of every tree; when the tree has fewer than `2 ^ 64` regular
files the two equalities also hold without any wrap-around. -/
theorem C1_count_invariant :
    (∀ path : CString, count_invariant (init_stats path)) ∧
    (∀ (path : CString) (sb : stat) (o : Options) (s : Stats),
      count_invariant s → count_invariant (process_entry path sb o s)) ∧
    (∀ (path : CString) (root : Option (List Entry)) (o : Options),
      count_invariant (main_scan path root o)) ∧
    (∀ (path : CString) (root : Option (List Entry)) (o : Options),
      (regular_files (visits_directory path root)).length < 2 ^ 64 →
      (main_scan path root o).file_count
          = (main_scan path root o).empty_files + (main_scan path root o).non_empty_files ∧
      (main_scan path root o).file_count
          = (main_scan path root o).text_files + (main_scan path root o).binary_files) := by
  refine ⟨count_invariant_init, count_invariant_step, ?_, main_scan_counts_exact⟩
  intro path root o
  rw [main_scan_eq_fold]
  exact count_invariant_fold o _ _ (count_invariant_init path)


theorem C1_count_invariant_witness :
    count_invariant (init_stats ['.']) ∧
    count_invariant
      (process_entry ['.', '/', 'a', '.', 't', 'x', 't'] (regular 0 10) no_options
        (init_stats ['.'])) ∧
    (regular_files (visits_directory ['.'] sample_tree)).length < 2 ^ 64 ∧
    (main_scan ['.'] sample_tree no_options).file_count
        = (main_scan ['.'] sample_tree no_options).empty_files
          + (main_scan ['.'] sample_tree no_options).non_empty_files ∧
    (main_scan ['.'] sample_tree no_options).file_count
        = (main_scan ['.'] sample_tree no_options).text_files
          + (main_scan ['.'] sample_tree no_options).binary_files :=
  ⟨C1_count_invariant.1 _,
   C1_count_invariant.2.1 _ _ _ _ (C1_count_invariant.1 _),
   by decide,
   C1_count_invariant.2.2.2 _ _ _ (by decide)⟩


/-! ## Paths that fit the buffer -/

mutual
/-- While every built path fits the buffer the walker is answered with the tree on disk. -/
theorem answers_directory_of_fits (path : CString) :
    (dir : Option (List Entry)) → paths_fit_directory path dir = true →
      answers_directory path dir = some dir
  | none, _ => by rw [answers_directory]
  | some entries, h => by
    rw [paths_fit_directory] at h
    rw [answers_directory, answers_entries_of_fits path entries entries h]
theorem answers_entries_of_fits (path : CString) (siblings : List Entry) :
    (entries : List Entry) → paths_fit_entries path entries = true →
      answers_entries path siblings entries = some entries
  | [], _ => by rw [answers_entries]
  | entry :: rest, h => by
    rw [paths_fit_entries, Bool.and_eq_true] at h
    rw [answers_entries, answers_entry_of_fits path siblings entry h.1,
      answers_entries_of_fits path siblings rest h.2]
theorem answers_entry_of_fits (path : CString) (siblings : List Entry) :
    (entry : Entry) → paths_fit_entry path entry = true →
      answers_entry path siblings entry = some entry
  | Entry.mk d_name lstat opendir, h => by
    unfold paths_fit_entry at h
    unfold answers_entry
    by_cases hdot : d_name = ['.'] ∨ d_name = ['.', '.']
    · rw [if_pos hdot]
    · rw [if_neg hdot] at h ⊢
      rw [Bool.and_eq_true, decide_eq_true_eq] at h
      rw [if_pos h.1]
      cases lstat with
      | none => rfl
      | some sb =>
        by_cases hd : S_ISDIR sb.st_mode = true
        · have h2 := h.2
          simp only [if_pos hd] at h2 ⊢
          rw [answers_directory_of_fits (path ++ '/' :: d_name) opendir h2]
        · simp only [if_neg hd]
end

mutual
/-- While every built path fits the buffer the walker meets the nodes of the tree on disk,
each under its own path. -/
theorem visits_directory_of_fits (path : CString) :
    (dir : Option (List Entry)) → paths_fit_directory path dir = true →
      visits_directory path dir = reachable_directory path dir
  | none, _ => by rw [visits_directory, reachable_directory]
  | some entries, h => by
    rw [paths_fit_directory] at h
    rw [visits_directory, reachable_directory, visits_entries_of_fits path entries h]
theorem visits_entries_of_fits (path : CString) :
    (entries : List Entry) → paths_fit_entries path entries = true →
      visits_entries path entries = reachable_entries path entries
  | [], _ => by rw [visits_entries, reachable_entries]
  | entry :: rest, h => by
    rw [paths_fit_entries, Bool.and_eq_true] at h
    rw [visits_entries, reachable_entries, visits_entry_of_fits path entry h.1,
      visits_entries_of_fits path rest h.2]
theorem visits_entry_of_fits (path : CString) :
    (entry : Entry) → paths_fit_entry path entry = true →
      visits_entry path entry = reachable_entry path entry
  | Entry.mk d_name lstat opendir, h => by
    unfold paths_fit_entry at h
    unfold visits_entry reachable_entry
    by_cases hdot : d_name = ['.'] ∨ d_name = ['.', '.']
    · rw [if_pos hdot, if_pos hdot]
    · rw [if_neg hdot] at h
      rw [if_neg hdot, if_neg hdot]
      rw [Bool.and_eq_true, decide_eq_true_eq] at h
      have hfull : full_path path d_name = path ++ '/' :: d_name := by
        unfold full_path
        exact List.take_of_length_le (by have := h.1; omega)
      cases lstat with
      | none => rfl
      | some sb =>
        by_cases hd : S_ISDIR sb.st_mode = true
        · have h2 := h.2
          simp only [if_pos hd] at h2 ⊢
          rw [hfull, visits_directory_of_fits (path ++ '/' :: d_name) opendir h2]
        · simp only [if_neg hd]
          rw [hfull]
end

theorem main_scan_disk_of_fits (path : CString) (disk : Option (List Entry)) (o : Options)
    (h : paths_fit_directory path disk = true) :
    main_scan_disk path disk o = some (main_scan path disk o) := by
  unfold main_scan_disk
  rw [answers_directory_of_fits path disk h]

/-! ## A parent path that leaves four bytes for the name -/

theorem flatten_replicate_length (k : Nat) :
    (List.replicate k ['/', 'd']).flatten.length = 2 * k := by
  induction k with
  | zero => rfl
  | succ k ih =>
    rw [List.replicate_succ, List.flatten_cons, List.length_append, ih]
    simp only [List.length_cons, List.length_nil]
    omega

theorem long_parent_length : long_parent.length = 4090 := by
  unfold long_parent
  rw [flatten_replicate_length]

theorem long_parent_nul_free : nul_free long_parent := by
  intro c hc
  unfold long_parent at hc
  rw [List.mem_flatten] at hc
  obtain ⟨l, hl, hcl⟩ := hc
  rw [List.eq_of_mem_replicate hl] at hcl
  rcases List.mem_cons.mp hcl with h | h
  · rw [h]; decide
  · rw [List.mem_singleton.mp h]; decide

theorem full_path_long_parent (n : CString) :
    full_path long_parent n = long_parent ++ '/' :: n.take 4 := by
  unfold full_path MAX_PATH
  rw [List.take_append_eq_append_take, long_parent_length,
    List.take_of_length_le (by rw [long_parent_length]; norm_num)]
  rfl

theorem cut_name_long_parent (n : CString) : cut_name long_parent n = n.take 4 := by
  unfold cut_name MAX_PATH
  rw [long_parent_length]

theorem long_parent_fits (n : CString) :
    (long_parent ++ '/' :: n).length < MAX_PATH ↔ n.length < 5 := by
  rw [List.length_append, long_parent_length, List.length_cons]
  unfold MAX_PATH
  omega

theorem answers_cut_files :
    answers_directory long_parent cut_files_disk = some cut_files_seen := by
  simp [answers_directory, answers_entries, answers_entry, cut_answer, find_entry, entry_name,
    cut_name_long_parent, long_parent_fits, long_parent_length, MAX_PATH, cut_files_disk,
    cut_files_seen]

theorem answers_cut_dirs :
    answers_directory long_parent cut_dirs_disk = some cut_dirs_seen := by
  simp [answers_directory, answers_entries, answers_entry, cut_answer, find_entry, entry_name,
    cut_name_long_parent, long_parent_fits, long_parent_length, MAX_PATH, cut_dirs_disk,
    cut_dirs_seen]

/-- A traversal without a tree of answers: below `long_parent` the directory `abcd` holds a
file `x`. The path built for `x` inside `abcd` is cut to the path of `abcd` itself, so
`lstat` answers with a directory and the walker enters `abcd` again, and again meets `x`. -/
theorem answers_reenter_example :
    answers_directory long_parent
      (some [Entry.mk ['a', 'b', 'c', 'd'] (some directory)
        (some [Entry.mk ['x'] (some (regular 1 10)) none])]) = none ∧
    full_path (long_parent ++ '/' :: ['a', 'b', 'c', 'd']) ['x']
      = long_parent ++ '/' :: ['a', 'b', 'c', 'd'] := by
  have hd : S_ISDIR directory.st_mode = true := by decide
  constructor
  · simp [answers_directory, answers_entries, answers_entry, cut_answer, long_parent_fits,
      long_parent_length, MAX_PATH, hd]
  · unfold full_path MAX_PATH
    rw [List.take_append_eq_append_take, List.length_append, long_parent_length,
      List.take_of_length_le (by rw [List.length_append, long_parent_length]; simp)]
    simp

theorem main_scan_total_size (path : CString) (root : Option (List Entry)) (o : Options) :
    (main_scan path root o).total_size
      = u64 (((regular_files (visits_directory path root)).map (fun v => v.2.st_size)).sum) := by
  rw [main_scan_eq_fold,
    fold_entries_sum o Stats.total_size (fun v => S_ISREG v.2.st_mode) (fun v => v.2.st_size)
      (fun p sb s => process_entry_total_size p sb o s) _ _ (by simp [init_stats])]
  simp [init_stats, regular_files]


/-! ## C2 -/

theorem visits_cut_files :
    visits_directory long_parent cut_files_seen
      = [(long_parent ++ '/' :: ['a', 'b', '.', 'p'], regular 3 10),
         (long_parent ++ '/' :: ['a', 'b', '.', 'p'], regular 3 10)] := by
  have hd : S_ISDIR (regular 3 10).st_mode = false := by decide
  simp [visits_directory, visits_entries, visits_entry, cut_files_seen, full_path_long_parent,
    hd]

theorem reachable_cut_files :
    reachable_directory long_parent cut_files_disk
      = [(long_parent ++ '/' :: ['a', 'b', '.', 'p'], regular 3 10),
         (long_parent ++ '/' :: ['a', 'b', '.', 'p', 'y'], regular 11 20)] := by
  have hd : S_ISDIR (regular 3 10).st_mode = false := by decide
  have hd' : S_ISDIR (regular 11 20).st_mode = false := by decide
  simp [reachable_directory, reachable_entries, reachable_entry, cut_files_disk, hd, hd']

/-- C2, as stated, fails. Below a parent path of 4090 bytes a directory holds the regular
files `ab.p` (3 bytes) and `ab.py` (11 bytes). The path built for `ab.py` has 4096 bytes and
`snprintf` cuts it to the path of `ab.p`, so `lstat` answers twice for `ab.p`: the traversal
ends with `total_size = 6`, while the sizes of the regular files of the tree sum to 14. -/
theorem C2_counterexample :
    ¬ (∀ (path : CString) (disk : Option (List Entry)) (o : Options) (s : Stats),
        main_scan_disk path disk o = some s →
        s.total_size
          = u64 (((regular_files (reachable_directory path disk)).map
              (fun v => v.2.st_size)).sum)) ∧
    main_scan_disk long_parent cut_files_disk no_options
      = some (main_scan long_parent cut_files_seen no_options) ∧
    (main_scan long_parent cut_files_seen no_options).total_size = 6 ∧
    u64 (((regular_files (reachable_directory long_parent cut_files_disk)).map
      (fun v => v.2.st_size)).sum) = 14 ∧
    full_path long_parent ['a', 'b', '.', 'p', 'y']
      = long_parent ++ '/' :: ['a', 'b', '.', 'p'] := by
  have hrun : main_scan_disk long_parent cut_files_disk no_options
      = some (main_scan long_parent cut_files_seen no_options) := by
    unfold main_scan_disk
    rw [answers_cut_files]
  have hsix : (main_scan long_parent cut_files_seen no_options).total_size = 6 := by
    rw [main_scan_total_size, visits_cut_files]
    decide
  have hdisk : u64 (((regular_files (reachable_directory long_parent cut_files_disk)).map
      (fun v => v.2.st_size)).sum) = 14 := by
    rw [reachable_cut_files]
    decide
  refine ⟨?_, hrun, hsix, hdisk, full_path_long_parent _⟩
  intro h
  have h1 := h long_parent cut_files_disk no_options _ hrun
  rw [hsix, hdisk] at h1
  exact absurd h1 (by decide)

/-- C2, amended. For every tree on disk whose built paths all fit the `MAX_PATH` buffer, the
traversal returns and `total_size` is the sum, in unsigned 64-bit arithmetic, of the sizes of
the regular files of the tree reachable from the root without following symbolic links. In
every traversal `total_size` is that sum over the entries for which `lstat`, asked on the
built path, answers with a regular file; and an entry that is not a regular file (directory,
symbolic link or other) leaves `total_size` unchanged. -/
theorem C2_total_size :
    (∀ (path : CString) (disk : Option (List Entry)) (o : Options),
      paths_fit_directory path disk = true →
      ∃ s, main_scan_disk path disk o = some s ∧
        s.total_size
          = u64 (((regular_files (reachable_directory path disk)).map
              (fun v => v.2.st_size)).sum)) ∧
    (∀ (path : CString) (seen : Option (List Entry)) (o : Options),
      (main_scan path seen o).total_size
        = u64 (((regular_files (visits_directory path seen)).map
            (fun v => v.2.st_size)).sum)) ∧
    (∀ (path : CString) (sb : stat) (o : Options) (s : Stats),
      S_ISREG sb.st_mode = false → (process_entry path sb o s).total_size = s.total_size) := by
  refine ⟨?_, main_scan_total_size, ?_⟩
  · intro path disk o hfit
    refine ⟨_, main_scan_disk_of_fits path disk o hfit, ?_⟩
    rw [main_scan_total_size, visits_directory_of_fits path disk hfit]
  · intro path sb o s h
    rw [process_entry_total_size, h]
    rfl

set_option maxRecDepth 8000 in
theorem C2_total_size_witness :
    paths_fit_directory ['.'] sample_tree = true ∧
    (∃ s, main_scan_disk ['.'] sample_tree no_options = some s ∧
      s.total_size
        = u64 (((regular_files (reachable_directory ['.'] sample_tree)).map
            (fun v => v.2.st_size)).sum)) ∧
    u64 (((regular_files (reachable_directory ['.'] sample_tree)).map
      (fun v => v.2.st_size)).sum) = 200 ∧
    S_ISREG directory.st_mode = false ∧
    (process_entry ['.', '/', 'd'] directory no_options (init_stats ['.'])).total_size
      = (init_stats ['.']).total_size :=
  ⟨by decide, C2_total_size.1 _ _ _ (by decide), by decide, by decide,
   C2_total_size.2.2 _ _ _ _ (by decide)⟩


/-! ## The classifier -/

theorem strrchr_eq_none (c : Char) : ∀ s : CString, strrchr s c = none ↔ c ∉ s
  | [] => by simp [strrchr]
  | x :: xs => by
    have ih := strrchr_eq_none c xs
    rw [strrchr]
    cases h : strrchr xs c with
    | some t =>
      have : c ∈ xs := by
        by_contra hc
        rw [ih.mpr hc] at h
        exact absurd h (by simp)
      simp [this]
    | none =>
      have hc : c ∉ xs := ih.mp h
      by_cases hx : x = c
      · simp [hx]
      · simp [hx, hc, Ne.symm hx]

theorem strrchr_eq_some (c : Char) :
    ∀ (s t : CString), strrchr s c = some t ↔
      ∃ pre rest : CString, s = pre ++ c :: rest ∧ c ∉ rest ∧ t = c :: rest
  | [], t => by simp [strrchr]
  | x :: xs, t => by
    have ih := strrchr_eq_some c xs
    rw [strrchr]
    cases h : strrchr xs c with
    | some u =>
      obtain ⟨pre, rest, hxs, hrest, hu⟩ := (ih u).mp h
      constructor
      · intro ht
        simp only [Option.some.injEq] at ht
        exact ⟨x :: pre, rest, by simp [hxs], hrest, by rw [← ht, hu]⟩
      · rintro ⟨pre', rest', hs, hrest', ht⟩
        have hmem : c ∈ xs := by rw [hxs]; simp
        cases pre' with
        | nil =>
          simp only [List.nil_append, List.cons.injEq] at hs
          exact absurd (hs.2 ▸ hmem) hrest'
        | cons y ys =>
          simp only [List.cons_append, List.cons.injEq] at hs
          have h2 : strrchr xs c = some t := (ih t).mpr ⟨ys, rest', hs.2, hrest', ht⟩
          rw [h] at h2
          exact h2
    | none =>
      have hc : c ∉ xs := (strrchr_eq_none c xs).mp h
      by_cases hx : x = c
      · simp only [hx, if_true, Option.some.injEq]
        constructor
        · intro ht
          exact ⟨[], xs, rfl, hc, ht.symm⟩
        · rintro ⟨pre', rest', hs, _, ht⟩
          cases pre' with
          | nil =>
            simp only [List.nil_append, List.cons.injEq, true_and] at hs
            rw [ht, hs]
          | cons y ys =>
            simp only [List.cons_append, List.cons.injEq] at hs
            exact absurd (by rw [hs.2]; simp) hc
      · simp only [hx, if_false]
        constructor
        · intro ht; exact absurd ht (by simp)
        · rintro ⟨pre', rest', hs, _, _⟩
          cases pre' with
          | nil =>
            simp only [List.nil_append, List.cons.injEq] at hs
            exact absurd hs.1 hx
          | cons y ys =>
            simp only [List.cons_append, List.cons.injEq] at hs
            exact absurd (by rw [hs.2]; simp) hc

theorem tolower_eq_iff (a b : Char) :
    tolower a.toNat = tolower b.toNat ↔ same_letter a b := by
  unfold tolower same_letter
  split_ifs <;> omega

theorem tolower_eq_zero_iff (n : Nat) : tolower n = 0 ↔ n = 0 := by
  unfold tolower
  by_cases h : 65 ≤ n ∧ n ≤ 90
  · rw [if_pos h]; omega
  · rw [if_neg h]

theorem strcasecmp_eq_zero :
    ∀ (a b : CString), nul_free a → nul_free b →
      (strcasecmp a b = 0 ↔ eq_ignoring_case a b)
  | [], [], _, _ => by simp [strcasecmp, eq_ignoring_case]
  | [], c2 :: p2, _, hb => by
    have h2 : c2.toNat ≠ 0 := hb c2 (by simp)
    have h2' : tolower c2.toNat ≠ 0 := fun h => h2 ((tolower_eq_zero_iff _).mp h)
    have h0 : tolower 0 = 0 := (tolower_eq_zero_iff 0).mpr rfl
    simp only [strcasecmp, eq_ignoring_case, h0]
    constructor
    · intro h; omega
    · intro h; cases h
  | c1 :: p1, [], ha, _ => by
    have h1 : c1.toNat ≠ 0 := ha c1 (by simp)
    have h1' : tolower c1.toNat ≠ 0 := fun h => h1 ((tolower_eq_zero_iff _).mp h)
    have h0 : tolower 0 = 0 := (tolower_eq_zero_iff 0).mpr rfl
    simp only [strcasecmp, eq_ignoring_case, h0]
    constructor
    · intro h; omega
    · intro h; cases h
  | c1 :: p1, c2 :: p2, ha, hb => by
    have h1 : c1.toNat ≠ 0 := ha c1 (by simp)
    have ha' : nul_free p1 := fun c hc => ha c (List.mem_cons_of_mem _ hc)
    have hb' : nul_free p2 := fun c hc => hb c (List.mem_cons_of_mem _ hc)
    have ih := strcasecmp_eq_zero p1 p2 ha' hb'
    have hl := tolower_eq_iff c1 c2
    rw [strcasecmp]
    unfold eq_ignoring_case at ih ⊢
    rw [List.forall₂_cons]
    by_cases hr : (tolower c1.toNat : Int) - (tolower c2.toNat : Int) = 0
    · have hsame : same_letter c1 c2 := hl.mp (by omega)
      simp only [hr, ne_eq, not_true_eq_false, if_false, h1]
      rw [ih]
      exact ⟨fun h => ⟨hsame, h⟩, fun h => h.2⟩
    · have hns : ¬ same_letter c1 c2 := fun h => hr (by rw [hl.mpr h]; omega)
      simp only [ne_eq, hr, not_false_eq_true, if_true]
      exact ⟨fun h => h.elim, fun h => absurd h.1 hns⟩


theorem is_last_dot_suffix_iff (name ext : CString) :
    is_last_dot_suffix name ext ↔ strrchr name '.' = some ext :=
  (strrchr_eq_some '.' name ext).symm

theorem nul_free_of_last_dot_suffix {name ext : CString} (hn : nul_free name)
    (h : is_last_dot_suffix name ext) : nul_free ext := by
  obtain ⟨pre, rest, hname, _, hext⟩ := h
  intro c hc
  apply hn c
  rw [hname, ← hext]
  exact List.mem_append_right _ hc

/-- The body shared by `is_text_file` and `is_script_file`, against the specification. -/
theorem extension_lookup_iff (exts : List CString) (hexts : ∀ e ∈ exts, nul_free e)
    (name : CString) (hn : nul_free name) :
    (match strrchr name '.' with
      | none => false
      | some dot => exts.any (fun ext => strcasecmp dot ext == 0)) = true
      ↔ has_extension_in exts name := by
  cases h : strrchr name '.' with
  | none =>
    simp only [Bool.false_eq_true, false_iff]
    rintro ⟨ext, hext, _⟩
    rw [is_last_dot_suffix_iff, h] at hext
    exact absurd hext (by simp)
  | some dot =>
    have hdot : is_last_dot_suffix name dot := (is_last_dot_suffix_iff name dot).mpr h
    have hnf : nul_free dot := nul_free_of_last_dot_suffix hn hdot
    simp only [List.any_eq_true, beq_iff_eq]
    constructor
    · rintro ⟨e, he, hz⟩
      exact ⟨dot, hdot, e, he, (strcasecmp_eq_zero dot e hnf (hexts e he)).mp hz⟩
    · rintro ⟨ext, hext, e, he, heq⟩
      rw [is_last_dot_suffix_iff, h] at hext
      simp only [Option.some.injEq] at hext
      subst hext
      exact ⟨e, he, (strcasecmp_eq_zero dot e hnf (hexts e he)).mpr heq⟩

theorem text_extensions_nul_free : ∀ e ∈ text_extensions, nul_free e := by decide

theorem script_extensions_nul_free : ∀ e ∈ script_extensions, nul_free e := by decide

theorem is_text_file_iff (name : CString) (hn : nul_free name) :
    is_text_file name = true ↔ has_extension_in text_extensions name :=
  extension_lookup_iff text_extensions text_extensions_nul_free name hn

theorem is_script_file_iff (name : CString) (hn : nul_free name) :
    is_script_file name = true ↔ has_extension_in script_extensions name :=
  extension_lookup_iff script_extensions script_extensions_nul_free name hn

theorem is_text_file_no_dot (name : CString) (h : '.' ∉ name) : is_text_file name = false := by
  unfold is_text_file
  rw [(strrchr_eq_none '.' name).mpr h]

theorem is_script_file_no_dot (name : CString) (h : '.' ∉ name) :
    is_script_file name = false := by
  unfold is_script_file
  rw [(strrchr_eq_none '.' name).mpr h]

/-! ## C3 -/

/-- C3. For every name (a C string, so without an inner NUL byte), `is_text_file` holds
exactly when the name contains a `.` and its suffix from the last `.` equals, ignoring ASCII
letter case, one of the fifteen text extensions; `is_script_file` holds exactly when that
suffix equals, ignoring case, one of the seven script extensions; a name without `.` is
neither text nor script. -/
theorem C3_classifier (name : CString) (hn : nul_free name) :
    (is_text_file name = true ↔
      has_extension_in
        [['.', 't', 'x', 't'], ['.', 'c'], ['.', 'h'], ['.', 'c', 'p', 'p'],
         ['.', 'h', 'p', 'p'], ['.', 'j', 'a', 'v', 'a'], ['.', 'p', 'y'], ['.', 's', 'h'],
         ['.', 'p', 'l'], ['.', 'j', 's'], ['.', 'c', 's', 's'], ['.', 'h', 't', 'm', 'l'],
         ['.', 'x', 'm', 'l'], ['.', 'j', 's', 'o', 'n'], ['.', 'm', 'd']] name) ∧
    (is_script_file name = true ↔
      has_extension_in
        [['.', 's', 'h'], ['.', 'p', 'y'], ['.', 'p', 'l'], ['.', 'r', 'b'],
         ['.', 'p', 'h', 'p'], ['.', 'j', 's'], ['.', 'l', 'u', 'a']] name) ∧
    ('.' ∉ name → is_text_file name = false ∧ is_script_file name = false) :=
  ⟨is_text_file_iff name hn, is_script_file_iff name hn,
   fun h => ⟨is_text_file_no_dot name h, is_script_file_no_dot name h⟩⟩

theorem C3_classifier_witness :
    nul_free ['s', 'c', 'r', 'i', 'p', 't', '.', 'P', 'y'] ∧
    is_text_file ['s', 'c', 'r', 'i', 'p', 't', '.', 'P', 'y'] = true ∧
    has_extension_in text_extensions ['s', 'c', 'r', 'i', 'p', 't', '.', 'P', 'y'] ∧
    has_extension_in script_extensions ['s', 'c', 'r', 'i', 'p', 't', '.', 'P', 'y'] ∧
    nul_free ['M', 'a', 'k', 'e', 'f', 'i', 'l', 'e'] ∧
    is_text_file ['M', 'a', 'k', 'e', 'f', 'i', 'l', 'e'] = false ∧
    is_script_file ['M', 'a', 'k', 'e', 'f', 'i', 'l', 'e'] = false :=
  ⟨by decide, by decide,
   (C3_classifier ['s', 'c', 'r', 'i', 'p', 't', '.', 'P', 'y'] (by decide)).1.mp (by decide),
   (C3_classifier ['s', 'c', 'r', 'i', 'p', 't', '.', 'P', 'y'] (by decide)).2.1.mp (by decide),
   by decide,
   ((C3_classifier ['M', 'a', 'k', 'e', 'f', 'i', 'l', 'e'] (by decide)).2.2 (by decide)).1,
   ((C3_classifier ['M', 'a', 'k', 'e', 'f', 'i', 'l', 'e'] (by decide)).2.2 (by decide)).2⟩

theorem has_extension_in_mono {exts₁ exts₂ : List CString}
    (h : ∀ e ∈ exts₁, e ∈ exts₂) {name : CString} (hx : has_extension_in exts₁ name) :
    has_extension_in exts₂ name := by
  obtain ⟨ext, hext, e, he, heq⟩ := hx
  exact ⟨ext, hext, e, h e he, heq⟩

theorem process_entry_script_files (p : CString) (sb : stat) (o : Options) (s : Stats) :
    (process_entry p sb o s).script_files
      = if (S_ISREG sb.st_mode && is_script_file p) then u64 (s.script_files + 1)
        else s.script_files := by
  cases h : S_ISREG sb.st_mode with
  | true => rw [process_entry_reg p sb o s h]; simp
  | false => rw [process_entry_not_reg p sb o s h]; simp

/-! ## C4 -/

/-- C4. For a regular file, `process_entry` increments exactly one of `text_files` and
`binary_files` by one (in `unsigned long long` arithmetic): `text_files` when `is_text_file`
holds for the path, `binary_files` otherwise, never both; `script_files` is incremented
exactly when `is_script_file` holds. When the extension is `.py`, `.sh`, `.pl` or `.js` in
any letter case, both `text_files` and `script_files` are incremented and `binary_files` is
left unchanged. -/
theorem C4_text_binary_script (path : CString) (sb : stat) (o : Options) (s : Stats)
    (hreg : S_ISREG sb.st_mode = true) :
    ((is_text_file path = true ∧
        (process_entry path sb o s).text_files = u64 (s.text_files + 1) ∧
        (process_entry path sb o s).binary_files = s.binary_files) ∨
     (is_text_file path = false ∧
        (process_entry path sb o s).text_files = s.text_files ∧
        (process_entry path sb o s).binary_files = u64 (s.binary_files + 1))) ∧
    ((process_entry path sb o s).script_files
        = if is_script_file path then u64 (s.script_files + 1) else s.script_files) ∧
    (nul_free path →
      has_extension_in [['.', 'p', 'y'], ['.', 's', 'h'], ['.', 'p', 'l'], ['.', 'j', 's']] path →
        (process_entry path sb o s).text_files = u64 (s.text_files + 1) ∧
        (process_entry path sb o s).script_files = u64 (s.script_files + 1) ∧
        (process_entry path sb o s).binary_files = s.binary_files) := by
  rw [process_entry_text_files, process_entry_binary_files, process_entry_script_files, hreg]
  refine ⟨?_, by simp, ?_⟩
  · cases ht : is_text_file path <;> simp
  · intro hn hx
    have ht : is_text_file path = true :=
      (is_text_file_iff path hn).mpr (has_extension_in_mono (by decide) hx)
    have hs : is_script_file path = true :=
      (is_script_file_iff path hn).mpr (has_extension_in_mono (by decide) hx)
    simp [ht, hs]

theorem C4_text_binary_script_witness :
    S_ISREG (regular 120 10).st_mode = true ∧
    nul_free ['s', 'c', 'r', 'i', 'p', 't', '.', 'p', 'y'] ∧
    has_extension_in [['.', 'p', 'y'], ['.', 's', 'h'], ['.', 'p', 'l'], ['.', 'j', 's']]
      ['s', 'c', 'r', 'i', 'p', 't', '.', 'p', 'y'] ∧
    (process_entry ['s', 'c', 'r', 'i', 'p', 't', '.', 'p', 'y'] (regular 120 10) no_options
        (init_stats ['.'])).text_files = 1 ∧
    (process_entry ['s', 'c', 'r', 'i', 'p', 't', '.', 'p', 'y'] (regular 120 10) no_options
        (init_stats ['.'])).script_files = 1 ∧
    (process_entry ['s', 'c', 'r', 'i', 'p', 't', '.', 'p', 'y'] (regular 120 10) no_options
        (init_stats ['.'])).binary_files = 0 :=
  have hx : has_extension_in [['.', 'p', 'y'], ['.', 's', 'h'], ['.', 'p', 'l'], ['.', 'j', 's']]
      ['s', 'c', 'r', 'i', 'p', 't', '.', 'p', 'y'] :=
    ⟨['.', 'p', 'y'], ⟨['s', 'c', 'r', 'i', 'p', 't'], ['p', 'y'], rfl, by decide, rfl⟩,
     ['.', 'p', 'y'], by decide,
     List.Forall₂.cons (Or.inl rfl) (List.Forall₂.cons (Or.inl rfl)
       (List.Forall₂.cons (Or.inl rfl) List.Forall₂.nil))⟩
  ⟨by decide, by decide, hx,
   (C4_text_binary_script ['s', 'c', 'r', 'i', 'p', 't', '.', 'p', 'y'] (regular 120 10)
      no_options (init_stats ['.']) (by decide)).2.2 (by decide) hx⟩


/-! ## Running minimum and maximum -/

theorem foldl_min_le_init {α : Type} [LinearOrder α] (l : List α) :
    ∀ a : α, l.foldl min a ≤ a := by
  induction l with
  | nil => intro a; exact le_refl a
  | cons x l ih => intro a; exact le_trans (ih (min a x)) (min_le_left a x)

theorem foldl_min_le_of_mem {α : Type} [LinearOrder α] (l : List α) :
    ∀ (a x : α), x ∈ l → l.foldl min a ≤ x := by
  induction l with
  | nil => intro a x hx; cases hx
  | cons y l ih =>
    intro a x hx
    rcases List.mem_cons.mp hx with h | h
    · subst h
      exact le_trans (foldl_min_le_init l (min a x)) (min_le_right a x)
    · exact ih (min a y) x h

theorem foldl_min_eq_or_mem {α : Type} [LinearOrder α] (l : List α) :
    ∀ a : α, l.foldl min a = a ∨ l.foldl min a ∈ l := by
  induction l with
  | nil => intro a; exact Or.inl rfl
  | cons x l ih =>
    intro a
    rcases ih (min a x) with h | h
    · rcases min_choice a x with hm | hm
      · left; rw [List.foldl_cons, h, hm]
      · right; rw [List.foldl_cons, h, hm]; exact List.mem_cons_self x l
    · right; exact List.mem_cons_of_mem x h

theorem le_foldl_max_init {α : Type} [LinearOrder α] (l : List α) :
    ∀ a : α, a ≤ l.foldl max a := by
  induction l with
  | nil => intro a; exact le_refl a
  | cons x l ih => intro a; exact le_trans (le_max_left a x) (ih (max a x))

theorem le_foldl_max_of_mem {α : Type} [LinearOrder α] (l : List α) :
    ∀ (a x : α), x ∈ l → x ≤ l.foldl max a := by
  induction l with
  | nil => intro a x hx; cases hx
  | cons y l ih =>
    intro a x hx
    rcases List.mem_cons.mp hx with h | h
    · subst h
      exact le_trans (le_max_right a x) (le_foldl_max_init l (max a x))
    · exact ih (max a y) x h

theorem foldl_max_eq_or_mem {α : Type} [LinearOrder α] (l : List α) :
    ∀ a : α, l.foldl max a = a ∨ l.foldl max a ∈ l := by
  induction l with
  | nil => intro a; exact Or.inl rfl
  | cons x l ih =>
    intro a
    rcases ih (max a x) with h | h
    · rcases max_choice a x with hm | hm
      · left; rw [List.foldl_cons, h, hm]
      · right; rw [List.foldl_cons, h, hm]; exact List.mem_cons_self x l
    · right; exact List.mem_cons_of_mem x h

theorem ite_lt_eq_min {α : Type} [LinearOrder α] (x m : α) :
    (if x < m then x else m) = min m x := by
  by_cases h : x < m
  · rw [if_pos h, min_eq_right (le_of_lt h)]
  · rw [if_neg h, min_eq_left (not_lt.mp h)]

theorem ite_gt_eq_max {α : Type} [LinearOrder α] (x m : α) :
    (if x > m then x else m) = max m x := by
  by_cases h : x > m
  · rw [if_pos h, max_eq_right (le_of_lt h)]
  · rw [if_neg h, max_eq_left (not_lt.mp h)]

/-- A field that a regular file updates to the running combination `g` of the old value and
its key, and that other entries leave alone, holds after a fold the `foldl` of `g` over the
keys of the regular files. -/
theorem fold_entries_running {α : Type} (o : Options) (f : Stats → α)
    (k : CString × stat → α) (g : α → α → α)
    (hstep : ∀ p sb s, f (process_entry p sb o s)
      = if S_ISREG sb.st_mode then g (f s) (k (p, sb)) else f s) :
    ∀ (vs : List (CString × stat)) (s : Stats),
      f (fold_entries o vs s) = ((regular_files vs).map k).foldl g (f s) := by
  intro vs
  induction vs with
  | nil => intro s; rfl
  | cons v vs ih =>
    intro s
    rw [fold_entries_cons, ih, hstep]
    unfold regular_files
    cases hr : S_ISREG v.2.st_mode with
    | true => rw [List.filter_cons_of_pos (by simpa using hr)]; simp
    | false => rw [List.filter_cons_of_neg (by simp [hr])]; simp

theorem process_entry_min_size (p : CString) (sb : stat) (o : Options) (s : Stats) :
    (process_entry p sb o s).min_size
      = if S_ISREG sb.st_mode then min s.min_size sb.st_size else s.min_size := by
  cases h : S_ISREG sb.st_mode with
  | true => rw [process_entry_reg p sb o s h]; simp [ite_lt_eq_min]
  | false => rw [process_entry_not_reg p sb o s h]; simp

theorem process_entry_max_size (p : CString) (sb : stat) (o : Options) (s : Stats) :
    (process_entry p sb o s).max_size
      = if S_ISREG sb.st_mode then max s.max_size sb.st_size else s.max_size := by
  cases h : S_ISREG sb.st_mode with
  | true => rw [process_entry_reg p sb o s h]; simp [ite_gt_eq_max]
  | false => rw [process_entry_not_reg p sb o s h]; simp

theorem fold_entries_min_size (o : Options) (vs : List (CString × stat)) (s : Stats) :
    (fold_entries o vs s).min_size
      = ((regular_files vs).map (fun v => v.2.st_size)).foldl min s.min_size :=
  fold_entries_running o Stats.min_size (fun v => v.2.st_size) min
    (fun p sb s => process_entry_min_size p sb o s) vs s

theorem fold_entries_max_size (o : Options) (vs : List (CString × stat)) (s : Stats) :
    (fold_entries o vs s).max_size
      = ((regular_files vs).map (fun v => v.2.st_size)).foldl max s.max_size :=
  fold_entries_running o Stats.max_size (fun v => v.2.st_size) max
    (fun p sb s => process_entry_max_size p sb o s) vs s


/-! ## C6 -/

/-- C6. Fold `process_entry` over any sequence of entries into a freshly initialised `Stats`,
the regular files having sizes in the range of `off_t`. If at least one regular file is in
the sequence, `min_size` is the least and `max_size` the greatest of the regular files'
sizes, hence `min_size ≤ max_size`; if none is, `min_size` is still the largest unsigned
64-bit value and `max_size` is still 0. -/
theorem C6_min_max_size (o : Options) (path : CString) (vs : List (CString × stat))
    (hsz : ∀ v ∈ regular_files vs, v.2.st_size < 2 ^ 63) :
    (regular_files vs ≠ [] →
      ((fold_entries o vs (init_stats path)).min_size
          ∈ (regular_files vs).map (fun v => v.2.st_size) ∧
        ∀ x ∈ (regular_files vs).map (fun v => v.2.st_size),
          (fold_entries o vs (init_stats path)).min_size ≤ x) ∧
      ((fold_entries o vs (init_stats path)).max_size
          ∈ (regular_files vs).map (fun v => v.2.st_size) ∧
        ∀ x ∈ (regular_files vs).map (fun v => v.2.st_size),
          x ≤ (fold_entries o vs (init_stats path)).max_size) ∧
      (fold_entries o vs (init_stats path)).min_size
        ≤ (fold_entries o vs (init_stats path)).max_size) ∧
    (regular_files vs = [] →
      (fold_entries o vs (init_stats path)).min_size = 2 ^ 64 - 1 ∧
      (fold_entries o vs (init_stats path)).max_size = 0) := by
  rw [fold_entries_min_size, fold_entries_max_size]
  have hmin0 : (init_stats path).min_size = 2 ^ 64 - 1 := rfl
  have hmax0 : (init_stats path).max_size = 0 := rfl
  rw [hmin0, hmax0]
  constructor
  · intro hne
    obtain ⟨v, hv⟩ := List.exists_mem_of_ne_nil _ hne
    have hvmem : v.2.st_size ∈ (regular_files vs).map (fun v => v.2.st_size) :=
      List.mem_map_of_mem _ hv
    have hlow := foldl_min_le_of_mem ((regular_files vs).map (fun v => v.2.st_size))
      (2 ^ 64 - 1)
    have hhigh := le_foldl_max_of_mem ((regular_files vs).map (fun v => v.2.st_size)) 0
    refine ⟨⟨?_, fun x hx => hlow x hx⟩, ⟨?_, fun x hx => hhigh x hx⟩,
      le_trans (hlow _ hvmem) (hhigh _ hvmem)⟩
    · rcases foldl_min_eq_or_mem ((regular_files vs).map (fun v => v.2.st_size))
        (2 ^ 64 - 1) with h | h
      · have h1 := hlow _ hvmem
        have h2 := hsz v hv
        rw [h] at h1
        omega
      · exact h
    · rcases foldl_max_eq_or_mem ((regular_files vs).map (fun v => v.2.st_size)) 0 with h | h
      · have h1 := hhigh _ hvmem
        rw [h] at h1
        have h0 : v.2.st_size = 0 := Nat.le_zero.mp h1
        rw [h, ← h0]
        exact hvmem
      · exact h
  · intro hnil
    rw [hnil]
    exact ⟨rfl, rfl⟩

set_option maxRecDepth 4000 in
theorem C6_min_max_size_witness :
    (∀ v ∈ regular_files [(['.', '/', 'a', '.', 't', 'x', 't'], regular 0 10),
        (['.', '/', 'b', '.', 'b', 'i', 'n'], regular 200 5)], v.2.st_size < 2 ^ 63) ∧
    (fold_entries no_options [(['.', '/', 'a', '.', 't', 'x', 't'], regular 0 10),
        (['.', '/', 'b', '.', 'b', 'i', 'n'], regular 200 5)] (init_stats ['.'])).min_size = 0 ∧
    (fold_entries no_options [(['.', '/', 'a', '.', 't', 'x', 't'], regular 0 10),
        (['.', '/', 'b', '.', 'b', 'i', 'n'], regular 200 5)] (init_stats ['.'])).max_size = 200 ∧
    (fold_entries no_options [(['.', '/', 'a', '.', 't', 'x', 't'], regular 0 10),
        (['.', '/', 'b', '.', 'b', 'i', 'n'], regular 200 5)] (init_stats ['.'])).min_size
      ≤ (fold_entries no_options [(['.', '/', 'a', '.', 't', 'x', 't'], regular 0 10),
        (['.', '/', 'b', '.', 'b', 'i', 'n'], regular 200 5)] (init_stats ['.'])).max_size ∧
    regular_files [(['.', '/', 'd'], directory)] = [] ∧
    (fold_entries no_options [(['.', '/', 'd'], directory)] (init_stats ['.'])).min_size
        = 2 ^ 64 - 1 ∧
    (fold_entries no_options [(['.', '/', 'd'], directory)] (init_stats ['.'])).max_size = 0 :=
  ⟨by decide, by decide, by decide,
   ((C6_min_max_size no_options ['.'] [(['.', '/', 'a', '.', 't', 'x', 't'], regular 0 10),
        (['.', '/', 'b', '.', 'b', 'i', 'n'], regular 200 5)] (by decide)).1 (by decide)).2.2,
   by decide,
   (C6_min_max_size no_options ['.'] [(['.', '/', 'd'], directory)] (by decide)).2 (by decide)⟩

/-! ## Symbolic links -/

mutual
/-- What a symbolic link points to is never visited. -/
theorem visits_directory_cut_links (path : CString) :
    (dir : Option (List Entry)) →
      visits_directory path (cut_links_directory dir) = visits_directory path dir
  | none => by simp [cut_links_directory]
  | some entries => by
    rw [cut_links_directory, visits_directory, visits_directory]
    exact visits_entries_cut_links path entries
theorem visits_entries_cut_links (path : CString) :
    (entries : List Entry) →
      visits_entries path (cut_links_entries entries) = visits_entries path entries
  | [] => by simp [cut_links_entries]
  | entry :: rest => by
    rw [cut_links_entries, visits_entries, visits_entries,
      visits_entry_cut_links path entry, visits_entries_cut_links path rest]
theorem visits_entry_cut_links (path : CString) :
    (entry : Entry) → visits_entry path (cut_links_entry entry) = visits_entry path entry
  | Entry.mk d_name lstat opendir => by
    unfold cut_links_entry
    cases lstat with
    | none => simp [visits_entry]
    | some sb =>
      by_cases hl : S_ISLNK sb.st_mode = true
      · simp [visits_entry, hl, S_ISLNK_not_dir hl]
      · have ih := visits_directory_cut_links (full_path path d_name) opendir
        simp [visits_entry, hl, ih]
end

/-! ## C7 -/

/-- C7. A symbolic link increments `sym_links` by exactly one and changes no other field of
`Stats`; the walker never recurses into it, so the loop body gives that same result whatever
the link points to; and two trees that differ only in the targets of their symbolic links
yield equal `Stats` after a full traversal. -/
theorem C7_symlink :
    (∀ (path : CString) (sb : stat) (o : Options) (s : Stats), S_ISLNK sb.st_mode = true →
      process_entry path sb o s = { s with sym_links := u64 (s.sym_links + 1) }) ∧
    (∀ (path d_name : CString) (sb : stat) (target : Option (List Entry)) (o : Options)
      (s : Stats), S_ISLNK sb.st_mode = true → ¬ (d_name = ['.'] ∨ d_name = ['.', '.']) →
      scan_entry path (Entry.mk d_name (some sb) target) o s
        = { s with sym_links := u64 (s.sym_links + 1) }) ∧
    (∀ (path : CString) (root₁ root₂ : Option (List Entry)) (o : Options),
      cut_links_directory root₁ = cut_links_directory root₂ →
      main_scan path root₁ o = main_scan path root₂ o) := by
  refine ⟨fun path sb o s h => process_entry_lnk path sb o s h, ?_, ?_⟩
  · intro path d_name sb target o s hl hdot
    unfold scan_entry
    rw [if_neg hdot]
    simp only [S_ISLNK_not_dir hl, Bool.false_eq_true, if_false]
    exact process_entry_lnk _ sb o s hl
  · intro path root₁ root₂ o h
    rw [main_scan_eq_fold, main_scan_eq_fold, ← visits_directory_cut_links path root₁, h,
      visits_directory_cut_links path root₂]

set_option maxRecDepth 4000 in
theorem C7_symlink_witness :
    S_ISLNK symlink.st_mode = true ∧
    process_entry ['.', '/', 'l'] symlink no_options (init_stats ['.'])
      = { init_stats ['.'] with sym_links := 1 } ∧
    ¬ (['l'] = ['.'] ∨ ['l'] = ['.', '.']) ∧
    scan_entry ['.']
        (Entry.mk ['l'] (some symlink)
          (some [Entry.mk ['x', '.', 'p', 'y'] (some (regular 7 20)) none]))
        no_options (init_stats ['.'])
      = { init_stats ['.'] with sym_links := 1 } ∧
    cut_links_directory link_to_directory_tree = cut_links_directory link_to_nothing_tree ∧
    main_scan ['.'] link_to_directory_tree no_options
      = main_scan ['.'] link_to_nothing_tree no_options ∧
    (main_scan ['.'] link_to_directory_tree no_options).sym_links = 1 ∧
    (main_scan ['.'] link_to_directory_tree no_options).file_count = 1 :=
  ⟨by decide, C7_symlink.1 _ _ _ _ (by decide), by decide,
   C7_symlink.2.1 _ _ _ _ _ _ (by decide) (by decide), rfl, C7_symlink.2.2 _ _ _ _ rfl,
   by decide, by decide⟩

/-! ## C8 -/

theorem process_entry_large_files (p : CString) (sb : stat) (o : Options) (s : Stats) :
    (process_entry p sb o s).large_files
      = if (S_ISREG sb.st_mode && decide (sb.st_size > LARGE_FILE_THRESHOLD)) then
          u64 (s.large_files + 1)
        else s.large_files := by
  cases h : S_ISREG sb.st_mode with
  | true => rw [process_entry_reg p sb o s h]; simp
  | false => rw [process_entry_not_reg p sb o s h]; simp

/-- C8. For a regular file, `process_entry` increments `large_files` (by one, in
`unsigned long long` arithmetic) exactly when the size is strictly greater than 104857600
bytes: a file of exactly 104857600 bytes leaves `large_files` unchanged, a file of 104857601
bytes increments it. -/
theorem C8_large_files (path : CString) (sb : stat) (o : Options) (s : Stats)
    (hreg : S_ISREG sb.st_mode = true) :
    ((process_entry path sb o s).large_files
        = if sb.st_size > 104857600 then u64 (s.large_files + 1) else s.large_files) ∧
    (sb.st_size = 104857600 → (process_entry path sb o s).large_files = s.large_files) ∧
    (sb.st_size = 104857601 →
      (process_entry path sb o s).large_files = u64 (s.large_files + 1)) := by
  have hT : LARGE_FILE_THRESHOLD = 104857600 := by decide
  rw [process_entry_large_files, hreg, hT]
  refine ⟨by simp, ?_, ?_⟩
  · intro h; simp [h]
  · intro h; simp [h]

theorem C8_large_files_witness :
    S_ISREG (regular 104857600 10).st_mode = true ∧
    (process_entry ['.', '/', 'f'] (regular 104857600 10) no_options
        (init_stats ['.'])).large_files = 0 ∧
    S_ISREG (regular 104857601 10).st_mode = true ∧
    (process_entry ['.', '/', 'f'] (regular 104857601 10) no_options
        (init_stats ['.'])).large_files = 1 :=
  ⟨by decide,
   (C8_large_files ['.', '/', 'f'] (regular 104857600 10) no_options (init_stats ['.'])
      (by decide)).2.1 rfl,
   by decide,
   (C8_large_files ['.', '/', 'f'] (regular 104857601 10) no_options (init_stats ['.'])
      (by decide)).2.2 rfl⟩

/-! ## C9 -/

theorem process_entry_total_file_size (p : CString) (sb : stat) (o : Options) (s : Stats) :
    (process_entry p sb o s).total_file_size = s.total_file_size := by
  cases h : S_ISREG sb.st_mode with
  | true => rw [process_entry_reg p sb o s h]
  | false => rw [process_entry_not_reg p sb o s h]

theorem fold_entries_total_file_size (o : Options) (vs : List (CString × stat)) :
    ∀ s : Stats, (fold_entries o vs s).total_file_size = s.total_file_size := by
  induction vs with
  | nil => intro s; rfl
  | cons v vs ih =>
    intro s
    rw [fold_entries_cons, ih, process_entry_total_file_size]

set_option maxRecDepth 4000 in
/-- C9, as stated, fails: on the tree holding `a.txt` (empty) and `b.bin` (200 bytes) the
traversal ends with `total_size = 200` and `total_file_size = 0`. -/
theorem C9_counterexample :
    ¬ ((main_scan ['.'] sample_tree no_options).total_size
        = (main_scan ['.'] sample_tree no_options).total_file_size) ∧
    (main_scan ['.'] sample_tree no_options).total_size = 200 ∧
    (main_scan ['.'] sample_tree no_options).total_file_size = 0 := by
  refine ⟨by decide, by decide, by decide⟩

/-- C9, amended. After a full traversal `total_file_size` is 0 (`init_stats` zeroes it and no
step writes it), whatever `lstat` and `opendir` answer, so the two fields are equal exactly
when `total_size` is 0; this holds of every traversal of a tree on disk that returns. For a
tree on disk whose built paths all fit the `MAX_PATH` buffer the traversal returns,
`total_size` is the unsigned 64-bit sum of the sizes of the reachable regular files, and the
two fields are equal exactly when that sum is 0. -/
theorem C9_total_file_size_unused (path : CString) (o : Options) :
    (∀ seen : Option (List Entry),
      (main_scan path seen o).total_file_size = 0 ∧
      ((main_scan path seen o).total_size = (main_scan path seen o).total_file_size ↔
        (main_scan path seen o).total_size = 0)) ∧
    (∀ (disk : Option (List Entry)) (s : Stats), main_scan_disk path disk o = some s →
      s.total_file_size = 0 ∧ (s.total_size = s.total_file_size ↔ s.total_size = 0)) ∧
    (∀ disk : Option (List Entry), paths_fit_directory path disk = true →
      ∃ s, main_scan_disk path disk o = some s ∧
        s.total_file_size = 0 ∧
        s.total_size
          = u64 (((regular_files (reachable_directory path disk)).map
              (fun v => v.2.st_size)).sum) ∧
        (s.total_size = s.total_file_size ↔
          u64 (((regular_files (reachable_directory path disk)).map
            (fun v => v.2.st_size)).sum) = 0)) := by
  have h0 : ∀ seen : Option (List Entry), (main_scan path seen o).total_file_size = 0 := by
    intro seen
    rw [main_scan_eq_fold, fold_entries_total_file_size]
    rfl
  refine ⟨fun seen => ⟨h0 seen, by rw [h0 seen]⟩, ?_, ?_⟩
  · intro disk s hs
    unfold main_scan_disk at hs
    cases ha : answers_directory path disk with
    | none => rw [ha] at hs; exact absurd hs (by simp)
    | some seen =>
      rw [ha] at hs
      have hs' : main_scan path seen o = s := Option.some.inj hs
      rw [← hs']
      exact ⟨h0 seen, by rw [h0 seen]⟩
  · intro disk hfit
    have hsum : (main_scan path disk o).total_size
        = u64 (((regular_files (reachable_directory path disk)).map
            (fun v => v.2.st_size)).sum) := by
      rw [main_scan_total_size, visits_directory_of_fits path disk hfit]
    exact ⟨_, main_scan_disk_of_fits path disk o hfit, h0 disk, hsum, by rw [h0 disk, hsum]⟩

set_option maxRecDepth 8000 in
theorem C9_total_file_size_unused_witness :
    paths_fit_directory ['.'] sample_tree = true ∧
    (∃ s, main_scan_disk ['.'] sample_tree no_options = some s ∧
      s.total_file_size = 0 ∧
      s.total_size
        = u64 (((regular_files (reachable_directory ['.'] sample_tree)).map
            (fun v => v.2.st_size)).sum) ∧
      (s.total_size = s.total_file_size ↔
        u64 (((regular_files (reachable_directory ['.'] sample_tree)).map
          (fun v => v.2.st_size)).sum) = 0)) ∧
    u64 (((regular_files (reachable_directory ['.'] sample_tree)).map
      (fun v => v.2.st_size)).sum) = 200 :=
  ⟨by decide, (C9_total_file_size_unused ['.'] no_options).2.2 sample_tree (by decide),
   by decide⟩

/-! ## Oldest and newest file -/

theorem process_entry_oldest_time (p : CString) (sb : stat) (o : Options) (s : Stats) :
    (process_entry p sb o s).oldest_time
      = if S_ISREG sb.st_mode then min s.oldest_time sb.st_mtime else s.oldest_time := by
  cases h : S_ISREG sb.st_mode with
  | true => rw [process_entry_reg p sb o s h]; simp [ite_lt_eq_min]
  | false => rw [process_entry_not_reg p sb o s h]; simp

theorem process_entry_newest_time (p : CString) (sb : stat) (o : Options) (s : Stats) :
    (process_entry p sb o s).newest_time
      = if S_ISREG sb.st_mode then max s.newest_time sb.st_mtime else s.newest_time := by
  cases h : S_ISREG sb.st_mode with
  | true => rw [process_entry_reg p sb o s h]; simp [ite_gt_eq_max]
  | false => rw [process_entry_not_reg p sb o s h]; simp

theorem process_entry_oldest_file (p : CString) (sb : stat) (o : Options) (s : Stats) :
    (process_entry p sb o s).oldest_file
      = if S_ISREG sb.st_mode = true ∧ sb.st_mtime < s.oldest_time then strncpy p MAX_PATH
        else s.oldest_file := by
  cases h : S_ISREG sb.st_mode with
  | true => rw [process_entry_reg p sb o s h]; simp
  | false => rw [process_entry_not_reg p sb o s h]; simp

theorem process_entry_newest_file (p : CString) (sb : stat) (o : Options) (s : Stats) :
    (process_entry p sb o s).newest_file
      = if S_ISREG sb.st_mode = true ∧ sb.st_mtime > s.newest_time then strncpy p MAX_PATH
        else s.newest_file := by
  cases h : S_ISREG sb.st_mode with
  | true => rw [process_entry_reg p sb o s h]; simp
  | false => rw [process_entry_not_reg p sb o s h]; simp

/-- After a fold `oldest_time` is the least of its start value and the modification times of
the regular files. -/
theorem fold_entries_oldest_time (o : Options) (vs : List (CString × stat)) (s : Stats) :
    (fold_entries o vs s).oldest_time
      = ((regular_files vs).map (fun v => v.2.st_mtime)).foldl min s.oldest_time :=
  fold_entries_running o Stats.oldest_time (fun v => v.2.st_mtime) min
    (fun p sb s => process_entry_oldest_time p sb o s) vs s

/-- After a fold `newest_time` is the greatest of its start value and the modification times
of the regular files. -/
theorem fold_entries_newest_time (o : Options) (vs : List (CString × stat)) (s : Stats) :
    (fold_entries o vs s).newest_time
      = ((regular_files vs).map (fun v => v.2.st_mtime)).foldl max s.newest_time :=
  fold_entries_running o Stats.newest_time (fun v => v.2.st_mtime) max
    (fun p sb s => process_entry_newest_time p sb o s) vs s

/-- Ties and later times never replace the recorded oldest file. -/
theorem fold_entries_oldest_kept (o : Options) (vs : List (CString × stat)) :
    ∀ s : Stats, (∀ u ∈ regular_files vs, s.oldest_time ≤ u.2.st_mtime) →
      (fold_entries o vs s).oldest_time = s.oldest_time ∧
      (fold_entries o vs s).oldest_file = s.oldest_file := by
  induction vs with
  | nil => intro s _; exact ⟨rfl, rfl⟩
  | cons v vs ih =>
    intro s h
    rw [fold_entries_cons]
    have hv : S_ISREG v.2.st_mode = true → s.oldest_time ≤ v.2.st_mtime := fun hr =>
      h v (by unfold regular_files; rw [List.filter_cons_of_pos (by simpa using hr)]; simp)
    have ht : (process_entry v.1 v.2 o s).oldest_time = s.oldest_time := by
      rw [process_entry_oldest_time]
      split
      · next hr => exact min_eq_left (hv hr)
      · rfl
    have hf : (process_entry v.1 v.2 o s).oldest_file = s.oldest_file := by
      rw [process_entry_oldest_file, if_neg]
      rintro ⟨hr, hlt⟩
      exact absurd (hv hr) (not_le.mpr hlt)
    have hrest : ∀ u ∈ regular_files vs,
        (process_entry v.1 v.2 o s).oldest_time ≤ u.2.st_mtime := by
      intro u hu
      rw [ht]
      apply h u
      unfold regular_files at hu ⊢
      rw [List.filter_cons]
      split
      · exact List.mem_cons_of_mem _ hu
      · exact hu
    obtain ⟨h1, h2⟩ := ih _ hrest
    exact ⟨h1.trans ht, h2.trans hf⟩

/-- Ties and earlier times never replace the recorded newest file. -/
theorem fold_entries_newest_kept (o : Options) (vs : List (CString × stat)) :
    ∀ s : Stats, (∀ u ∈ regular_files vs, u.2.st_mtime ≤ s.newest_time) →
      (fold_entries o vs s).newest_time = s.newest_time ∧
      (fold_entries o vs s).newest_file = s.newest_file := by
  induction vs with
  | nil => intro s _; exact ⟨rfl, rfl⟩
  | cons v vs ih =>
    intro s h
    rw [fold_entries_cons]
    have hv : S_ISREG v.2.st_mode = true → v.2.st_mtime ≤ s.newest_time := fun hr =>
      h v (by unfold regular_files; rw [List.filter_cons_of_pos (by simpa using hr)]; simp)
    have ht : (process_entry v.1 v.2 o s).newest_time = s.newest_time := by
      rw [process_entry_newest_time]
      split
      · next hr => exact max_eq_left (hv hr)
      · rfl
    have hf : (process_entry v.1 v.2 o s).newest_file = s.newest_file := by
      rw [process_entry_newest_file, if_neg]
      rintro ⟨hr, hlt⟩
      exact absurd (hv hr) (not_le.mpr hlt)
    have hrest : ∀ u ∈ regular_files vs,
        u.2.st_mtime ≤ (process_entry v.1 v.2 o s).newest_time := by
      intro u hu
      rw [ht]
      apply h u
      unfold regular_files at hu ⊢
      rw [List.filter_cons]
      split
      · exact List.mem_cons_of_mem _ hu
      · exact hu
    obtain ⟨h1, h2⟩ := ih _ hrest
    exact ⟨h1.trans ht, h2.trans hf⟩


theorem lt_foldl_min {α : Type} [LinearOrder α] (l : List α) (a m : α) (ha : m < a)
    (hl : ∀ x ∈ l, m < x) : m < l.foldl min a := by
  rcases foldl_min_eq_or_mem l a with h | h
  · rw [h]; exact ha
  · exact hl _ h

theorem foldl_max_lt {α : Type} [LinearOrder α] (l : List α) (a m : α) (ha : a < m)
    (hl : ∀ x ∈ l, x < m) : l.foldl max a < m := by
  rcases foldl_max_eq_or_mem l a with h | h
  · rw [h]; exact ha
  · exact hl _ h

/-- The first regular file that attains the least modification time is the one recorded as
oldest, provided its time is below the value `oldest_time` starts from. -/
theorem fold_entries_oldest_first (o : Options) (pre post : List (CString × stat))
    (v : CString × stat) (s : Stats) (hr : S_ISREG v.2.st_mode = true)
    (hlt : v.2.st_mtime < s.oldest_time)
    (hpre : ∀ u ∈ regular_files pre, v.2.st_mtime < u.2.st_mtime)
    (hpost : ∀ u ∈ regular_files post, v.2.st_mtime ≤ u.2.st_mtime) :
    (fold_entries o (pre ++ v :: post) s).oldest_time = v.2.st_mtime ∧
    (fold_entries o (pre ++ v :: post) s).oldest_file = strncpy v.1 MAX_PATH := by
  rw [fold_entries_append, fold_entries_cons]
  have h1 : v.2.st_mtime < (fold_entries o pre s).oldest_time := by
    rw [fold_entries_oldest_time]
    apply lt_foldl_min _ _ _ hlt
    intro x hx
    obtain ⟨u, hu, rfl⟩ := List.mem_map.mp hx
    exact hpre u hu
  have h2 : (process_entry v.1 v.2 o (fold_entries o pre s)).oldest_time = v.2.st_mtime := by
    rw [process_entry_oldest_time, if_pos hr]
    exact min_eq_right (le_of_lt h1)
  have h3 : (process_entry v.1 v.2 o (fold_entries o pre s)).oldest_file
      = strncpy v.1 MAX_PATH := by
    rw [process_entry_oldest_file, if_pos ⟨hr, h1⟩]
  obtain ⟨h4, h5⟩ := fold_entries_oldest_kept o post
    (process_entry v.1 v.2 o (fold_entries o pre s)) (by rw [h2]; exact hpost)
  exact ⟨h4.trans h2, h5.trans h3⟩

/-- The first regular file that attains the greatest modification time is the one recorded
as newest, provided its time is above the value `newest_time` starts from. -/
theorem fold_entries_newest_first (o : Options) (pre post : List (CString × stat))
    (v : CString × stat) (s : Stats) (hr : S_ISREG v.2.st_mode = true)
    (hgt : s.newest_time < v.2.st_mtime)
    (hpre : ∀ u ∈ regular_files pre, u.2.st_mtime < v.2.st_mtime)
    (hpost : ∀ u ∈ regular_files post, u.2.st_mtime ≤ v.2.st_mtime) :
    (fold_entries o (pre ++ v :: post) s).newest_time = v.2.st_mtime ∧
    (fold_entries o (pre ++ v :: post) s).newest_file = strncpy v.1 MAX_PATH := by
  rw [fold_entries_append, fold_entries_cons]
  have h1 : (fold_entries o pre s).newest_time < v.2.st_mtime := by
    rw [fold_entries_newest_time]
    apply foldl_max_lt _ _ _ hgt
    intro x hx
    obtain ⟨u, hu, rfl⟩ := List.mem_map.mp hx
    exact hpre u hu
  have h2 : (process_entry v.1 v.2 o (fold_entries o pre s)).newest_time = v.2.st_mtime := by
    rw [process_entry_newest_time, if_pos hr]
    exact max_eq_right (le_of_lt h1)
  have h3 : (process_entry v.1 v.2 o (fold_entries o pre s)).newest_file
      = strncpy v.1 MAX_PATH := by
    rw [process_entry_newest_file, if_pos ⟨hr, h1⟩]
  obtain ⟨h4, h5⟩ := fold_entries_newest_kept o post
    (process_entry v.1 v.2 o (fold_entries o pre s)) (by rw [h2]; exact hpost)
  exact ⟨h4.trans h2, h5.trans h3⟩

/-! ## C5 -/

set_option maxRecDepth 8000 in
/-- C5. The code at the failing input. A tree whose only file `./a` was last modified one
second before the epoch (`st_mtime = -1`) ends with `newest_time = 0`, which is not the
greatest modification time, and with an empty `newest_file`, which is not the path of the
processed file; the oldest side is recorded as expected (`oldest_time = -1`, `./a`). On the
example of the specification (times 10, 5, 20) both extremes and paths are right. -/
theorem C5_newest_starts_at_zero :
    (main_scan ['.'] pre_epoch_tree no_options).newest_time = 0 ∧
    (main_scan ['.'] pre_epoch_tree no_options).newest_file = [] ∧
    (main_scan ['.'] pre_epoch_tree no_options).oldest_time = -1 ∧
    (main_scan ['.'] pre_epoch_tree no_options).oldest_file = ['.', '/', 'a'] ∧
    (main_scan ['.'] three_times_tree no_options).oldest_time = 5 ∧
    (main_scan ['.'] three_times_tree no_options).oldest_file = ['.', '/', 'b'] ∧
    (main_scan ['.'] three_times_tree no_options).newest_time = 20 ∧
    (main_scan ['.'] three_times_tree no_options).newest_file = ['.', '/', 'c'] := by
  refine ⟨by decide, by decide, by decide, by decide, by decide, by decide, by decide,
    by decide⟩

/-! ## C10 -/

set_option maxRecDepth 8000 in
/-- C10. The code at the failing input. In a tree with two files `./a` and `./b` both last
modified at the epoch (`st_mtime = 0`), `./a` is the first file that attains the greatest
modification time, yet `newest_file` is empty after the traversal: the tie with the start
value 0 of `newest_time` keeps `./a` from ever being recorded. The oldest side records
`./a`, the first of the two tied files. -/
theorem C10_tie_with_start_value :
    (main_scan ['.'] epoch_tree no_options).newest_time = 0 ∧
    (main_scan ['.'] epoch_tree no_options).newest_file = [] ∧
    (main_scan ['.'] epoch_tree no_options).oldest_time = 0 ∧
    (main_scan ['.'] epoch_tree no_options).oldest_file = ['.', '/', 'a'] := by
  refine ⟨by decide, by decide, by decide, by decide⟩

/-! ## C11 -/

/-- C11. Fold `process_entry` over any sequence of entries into a freshly initialised
`Stats`: when the sequence holds at least one regular file, `oldest_time ≤ newest_time`
afterwards (both bound the modification time of every regular file); when it holds none,
the two fields keep their start values `LONG_MAX` and 0. -/
theorem C11_oldest_le_newest (o : Options) (path : CString) (vs : List (CString × stat)) :
    (regular_files vs ≠ [] →
      (fold_entries o vs (init_stats path)).oldest_time
        ≤ (fold_entries o vs (init_stats path)).newest_time) ∧
    (∀ v ∈ regular_files vs,
      (fold_entries o vs (init_stats path)).oldest_time ≤ v.2.st_mtime ∧
      v.2.st_mtime ≤ (fold_entries o vs (init_stats path)).newest_time) ∧
    (regular_files vs = [] →
      (fold_entries o vs (init_stats path)).oldest_time = 2 ^ 63 - 1 ∧
      (fold_entries o vs (init_stats path)).newest_time = 0) := by
  rw [fold_entries_oldest_time, fold_entries_newest_time]
  have hb : ∀ v ∈ regular_files vs,
      ((regular_files vs).map (fun v => v.2.st_mtime)).foldl min (init_stats path).oldest_time
        ≤ v.2.st_mtime ∧
      v.2.st_mtime
        ≤ ((regular_files vs).map (fun v => v.2.st_mtime)).foldl max
            (init_stats path).newest_time := by
    intro v hv
    have hm : v.2.st_mtime ∈ (regular_files vs).map (fun v => v.2.st_mtime) :=
      List.mem_map_of_mem _ hv
    exact ⟨foldl_min_le_of_mem _ _ _ hm, le_foldl_max_of_mem _ _ _ hm⟩
  refine ⟨?_, hb, ?_⟩
  · intro hne
    obtain ⟨v, hv⟩ := List.exists_mem_of_ne_nil _ hne
    exact le_trans (hb v hv).1 (hb v hv).2
  · intro hnil
    rw [hnil]
    exact ⟨rfl, rfl⟩

set_option maxRecDepth 4000 in
theorem C11_oldest_le_newest_witness :
    regular_files [(['.', '/', 'd'], directory), (['.', '/', 'd', '/', 'a'], regular 7 (-1))]
      ≠ [] ∧
    (fold_entries no_options
        [(['.', '/', 'd'], directory), (['.', '/', 'd', '/', 'a'], regular 7 (-1))]
        (init_stats ['.'])).oldest_time
      ≤ (fold_entries no_options
        [(['.', '/', 'd'], directory), (['.', '/', 'd', '/', 'a'], regular 7 (-1))]
        (init_stats ['.'])).newest_time ∧
    (fold_entries no_options
        [(['.', '/', 'd'], directory), (['.', '/', 'd', '/', 'a'], regular 7 (-1))]
        (init_stats ['.'])).oldest_time = -1 ∧
    (fold_entries no_options
        [(['.', '/', 'd'], directory), (['.', '/', 'd', '/', 'a'], regular 7 (-1))]
        (init_stats ['.'])).newest_time = 0 ∧
    regular_files [(['.', '/', 'd'], directory)] = [] ∧
    (fold_entries no_options [(['.', '/', 'd'], directory)] (init_stats ['.'])).oldest_time
      = 2 ^ 63 - 1 ∧
    (fold_entries no_options [(['.', '/', 'd'], directory)] (init_stats ['.'])).newest_time
      = 0 :=
  ⟨by decide,
   (C11_oldest_le_newest no_options ['.']
      [(['.', '/', 'd'], directory), (['.', '/', 'd', '/', 'a'], regular 7 (-1))]).1
      (by decide),
   by decide, by decide, by decide,
   (C11_oldest_le_newest no_options ['.'] [(['.', '/', 'd'], directory)]).2.2 (by decide)⟩

/-! ## C14 -/

theorem process_entry_reserved (p : CString) (sb : stat) (o : Options) (s : Stats) :
    (process_entry p sb o s).empty_dirs = s.empty_dirs ∧
    (process_entry p sb o s).non_empty_dirs = s.non_empty_dirs ∧
    (process_entry p sb o s).hard_links = s.hard_links ∧
    (process_entry p sb o s).recent_files = s.recent_files := by
  cases h : S_ISREG sb.st_mode with
  | true => rw [process_entry_reg p sb o s h]; exact ⟨rfl, rfl, rfl, rfl⟩
  | false => rw [process_entry_not_reg p sb o s h]; exact ⟨rfl, rfl, rfl, rfl⟩

theorem fold_entries_reserved (o : Options) (vs : List (CString × stat)) :
    ∀ s : Stats,
      (fold_entries o vs s).empty_dirs = s.empty_dirs ∧
      (fold_entries o vs s).non_empty_dirs = s.non_empty_dirs ∧
      (fold_entries o vs s).hard_links = s.hard_links ∧
      (fold_entries o vs s).recent_files = s.recent_files := by
  induction vs with
  | nil => intro s; exact ⟨rfl, rfl, rfl, rfl⟩
  | cons v vs ih =>
    intro s
    rw [fold_entries_cons]
    obtain ⟨h1, h2, h3, h4⟩ := ih (process_entry v.1 v.2 o s)
    obtain ⟨g1, g2, g3, g4⟩ := process_entry_reserved v.1 v.2 o s
    exact ⟨h1.trans g1, h2.trans g2, h3.trans g3, h4.trans g4⟩

/-- C14. The reserved fields `empty_dirs`, `non_empty_dirs`, `hard_links` and `recent_files`
are 0 after `init_stats`, are left as they were by every `process_entry` step (so they stay
0), and are 0 after the full traversal of every tree. -/
theorem C14_reserved_fields :
    (∀ path : CString,
      (init_stats path).empty_dirs = 0 ∧ (init_stats path).non_empty_dirs = 0 ∧
      (init_stats path).hard_links = 0 ∧ (init_stats path).recent_files = 0) ∧
    (∀ (path : CString) (sb : stat) (o : Options) (s : Stats),
      (process_entry path sb o s).empty_dirs = s.empty_dirs ∧
      (process_entry path sb o s).non_empty_dirs = s.non_empty_dirs ∧
      (process_entry path sb o s).hard_links = s.hard_links ∧
      (process_entry path sb o s).recent_files = s.recent_files) ∧
    (∀ (path : CString) (root : Option (List Entry)) (o : Options),
      (main_scan path root o).empty_dirs = 0 ∧ (main_scan path root o).non_empty_dirs = 0 ∧
      (main_scan path root o).hard_links = 0 ∧ (main_scan path root o).recent_files = 0) := by
  refine ⟨fun _ => ⟨rfl, rfl, rfl, rfl⟩, process_entry_reserved, ?_⟩
  intro path root o
  rw [main_scan_eq_fold]
  exact fold_entries_reserved o _ (init_stats path)

/-! ## C20 -/

theorem process_entry_text_size (p : CString) (sb : stat) (o : Options) (s : Stats) :
    (process_entry p sb o s).text_size
      = if (S_ISREG sb.st_mode && is_text_file p) then u64 (s.text_size + sb.st_size)
        else s.text_size := by
  cases h : S_ISREG sb.st_mode with
  | true => rw [process_entry_reg p sb o s h]; simp
  | false => rw [process_entry_not_reg p sb o s h]; simp

theorem process_entry_binary_size (p : CString) (sb : stat) (o : Options) (s : Stats) :
    (process_entry p sb o s).binary_size
      = if (S_ISREG sb.st_mode && !is_text_file p) then u64 (s.binary_size + sb.st_size)
        else s.binary_size := by
  cases h : S_ISREG sb.st_mode with
  | true =>
    rw [process_entry_reg p sb o s h]
    cases ht : is_text_file p <;> simp
  | false => rw [process_entry_not_reg p sb o s h]; simp

theorem size_invariant_init (path : CString) : size_invariant (init_stats path) := by
  simp [size_invariant, init_stats, u64]

theorem size_invariant_step (p : CString) (sb : stat) (o : Options) (s : Stats)
    (h : size_invariant s) : size_invariant (process_entry p sb o s) := by
  unfold size_invariant at h ⊢
  rw [process_entry_total_size, process_entry_text_size, process_entry_binary_size]
  cases hr : S_ISREG sb.st_mode with
  | false => simpa using h
  | true =>
    cases ht : is_text_file p
    · simp only [Bool.true_and, Bool.false_eq_true, if_false, Bool.not_false, if_true]
      rw [h]; unfold u64; omega
    · simp only [Bool.true_and, if_true, Bool.not_true, Bool.false_eq_true, if_false]
      rw [h]; unfold u64; omega

theorem size_invariant_fold (o : Options) (vs : List (CString × stat)) :
    ∀ s : Stats, size_invariant s → size_invariant (fold_entries o vs s) := by
  induction vs with
  | nil => intro s h; exact h
  | cons v vs ih =>
    intro s h
    rw [fold_entries_cons]
    exact ih _ (size_invariant_step v.1 v.2 o s h)

/-- C20. The size invariant `text_size + binary_size = total_size` (in unsigned 64-bit
arithmetic) holds after `init_stats`, is preserved by every `process_entry` step, and holds
after the full traversal of every tree; a regular file adds its size to `total_size` and to
exactly one of `text_size` and `binary_size`, any other entry to none of the three. -/
theorem C20_size_invariant :
    (∀ path : CString, size_invariant (init_stats path)) ∧
    (∀ (path : CString) (sb : stat) (o : Options) (s : Stats),
      size_invariant s → size_invariant (process_entry path sb o s)) ∧
    (∀ (path : CString) (root : Option (List Entry)) (o : Options),
      size_invariant (main_scan path root o)) ∧
    (∀ (path : CString) (sb : stat) (o : Options) (s : Stats),
      (S_ISREG sb.st_mode = true →
        (process_entry path sb o s).total_size = u64 (s.total_size + sb.st_size) ∧
        (((process_entry path sb o s).text_size = u64 (s.text_size + sb.st_size) ∧
            (process_entry path sb o s).binary_size = s.binary_size) ∨
          ((process_entry path sb o s).text_size = s.text_size ∧
            (process_entry path sb o s).binary_size = u64 (s.binary_size + sb.st_size)))) ∧
      (S_ISREG sb.st_mode = false →
        (process_entry path sb o s).total_size = s.total_size ∧
        (process_entry path sb o s).text_size = s.text_size ∧
        (process_entry path sb o s).binary_size = s.binary_size)) := by
  refine ⟨size_invariant_init, size_invariant_step, ?_, ?_⟩
  · intro path root o
    rw [main_scan_eq_fold]
    exact size_invariant_fold o _ _ (size_invariant_init path)
  · intro path sb o s
    rw [process_entry_total_size, process_entry_text_size, process_entry_binary_size]
    constructor
    · intro hr
      rw [hr]
      cases ht : is_text_file path <;> simp
    · intro hr
      rw [hr]
      simp

theorem C20_size_invariant_witness :
    size_invariant (init_stats ['.']) ∧
    size_invariant
      (process_entry ['.', '/', 'b', '.', 'b', 'i', 'n'] (regular 200 5) no_options
        (init_stats ['.'])) ∧
    S_ISREG (regular 200 5).st_mode = true ∧
    (process_entry ['.', '/', 'b', '.', 'b', 'i', 'n'] (regular 200 5) no_options
        (init_stats ['.'])).total_size = 200 ∧
    S_ISREG directory.st_mode = false ∧
    (process_entry ['.', '/', 'd'] directory no_options (init_stats ['.'])).total_size = 0 :=
  ⟨C20_size_invariant.1 _,
   C20_size_invariant.2.1 _ _ _ _ (C20_size_invariant.1 _),
   by decide,
   ((C20_size_invariant.2.2.2 ['.', '/', 'b', '.', 'b', 'i', 'n'] (regular 200 5) no_options
      (init_stats ['.'])).1 (by decide)).1,
   by decide,
   ((C20_size_invariant.2.2.2 ['.', '/', 'd'] directory no_options
      (init_stats ['.'])).2 (by decide)).1⟩

/-! ## Options and diagnostics -/

theorem process_entry_opts (p : CString) (sb : stat) (o o' : Options) (s : Stats) :
    process_entry p sb o s = process_entry p sb o' s := rfl

theorem fold_entries_opts (o o' : Options) (vs : List (CString × stat)) (s : Stats) :
    fold_entries o vs s = fold_entries o' vs s := rfl

mutual
/-- The `Stats` computed together with the diagnostics are those of `scan_directory`. -/
theorem scan_directory_diag_fst (path : CString) :
    (dir : Option (List Entry)) → (o : Options) → (st : Stats × List Diagnostic) →
      (scan_directory_diag path dir o st).1 = scan_directory path dir o st.1
  | none, o, st => by
    rw [scan_directory_diag, scan_directory]
    by_cases hv : o.verbose ≠ 0
    · rw [if_pos hv]
    · rw [if_neg hv]
  | some entries, o, st => by
    rw [scan_directory_diag, scan_directory]
    exact scan_entries_diag_fst path entries o st
theorem scan_entries_diag_fst (path : CString) :
    (entries : List Entry) → (o : Options) → (st : Stats × List Diagnostic) →
      (scan_entries_diag path entries o st).1 = scan_entries path entries o st.1
  | [], o, st => by rw [scan_entries_diag, scan_entries]
  | entry :: rest, o, st => by
    rw [scan_entries_diag, scan_entries, scan_entries_diag_fst path rest o,
      scan_entry_diag_fst path entry o st]
theorem scan_entry_diag_fst (path : CString) :
    (entry : Entry) → (o : Options) → (st : Stats × List Diagnostic) →
      (scan_entry_diag path entry o st).1 = scan_entry path entry o st.1
  | Entry.mk d_name lstat opendir, o, st => by
    unfold scan_entry_diag scan_entry
    by_cases hdot : d_name = ['.'] ∨ d_name = ['.', '.']
    · rw [if_pos hdot, if_pos hdot]
    · rw [if_neg hdot, if_neg hdot]
      cases lstat with
      | none =>
        by_cases hv : o.verbose ≠ 0
        · simp only [if_pos hv]
        · simp only [if_neg hv]
      | some sb =>
        by_cases hd : S_ISDIR sb.st_mode = true
        · simp only [hd, if_true]
          exact scan_directory_diag_fst (full_path path d_name) opendir o _
        · simp only [if_neg hd]
end

mutual
/-- With `verbose` off nothing is written to `stderr`. -/
theorem scan_directory_diag_quiet (path : CString) :
    (dir : Option (List Entry)) → (o : Options) → (st : Stats × List Diagnostic) →
      o.verbose = 0 → (scan_directory_diag path dir o st).2 = st.2
  | none, o, st, hv => by
    rw [scan_directory_diag, if_neg (by simp [hv])]
  | some entries, o, st, hv => by
    rw [scan_directory_diag]
    exact scan_entries_diag_quiet path entries o st hv
theorem scan_entries_diag_quiet (path : CString) :
    (entries : List Entry) → (o : Options) → (st : Stats × List Diagnostic) →
      o.verbose = 0 → (scan_entries_diag path entries o st).2 = st.2
  | [], o, st, _ => by rw [scan_entries_diag]
  | entry :: rest, o, st, hv => by
    rw [scan_entries_diag, scan_entries_diag_quiet path rest o _ hv,
      scan_entry_diag_quiet path entry o st hv]
theorem scan_entry_diag_quiet (path : CString) :
    (entry : Entry) → (o : Options) → (st : Stats × List Diagnostic) →
      o.verbose = 0 → (scan_entry_diag path entry o st).2 = st.2
  | Entry.mk d_name lstat opendir, o, st, hv => by
    unfold scan_entry_diag
    by_cases hdot : d_name = ['.'] ∨ d_name = ['.', '.']
    · rw [if_pos hdot]
    · rw [if_neg hdot]
      cases lstat with
      | none => simp only [hv, ne_eq, not_true_eq_false, if_false]
      | some sb =>
        by_cases hd : S_ISDIR sb.st_mode = true
        · simp only [hd, if_true]
          exact scan_directory_diag_quiet (full_path path d_name) opendir o _ hv
        · simp only [if_neg hd]
end

theorem scan_directory_opts (path : CString) (dir : Option (List Entry)) (o o' : Options)
    (s : Stats) : scan_directory path dir o s = scan_directory path dir o' s := by
  rw [scan_directory_eq_fold, scan_directory_eq_fold]
  rfl

/-! ## C13 -/

/-- C13. No option flag influences an accumulated field: for any two `Options` values,
`process_entry` gives the same `Stats`, and the full traversal of any tree from `init_stats`
gives the same `Stats`, also in the walker that reads `opts->verbose` to write its
diagnostics. -/
theorem C13_options_independence :
    (∀ (path : CString) (sb : stat) (o o' : Options) (s : Stats),
      process_entry path sb o s = process_entry path sb o' s) ∧
    (∀ (path : CString) (root : Option (List Entry)) (o o' : Options),
      main_scan path root o = main_scan path root o') ∧
    (∀ (path : CString) (root : Option (List Entry)) (o o' : Options),
      (main_scan_diag path root o).1 = (main_scan_diag path root o').1) ∧
    (∀ (path : CString) (root : Option (List Entry)) (o : Options),
      (main_scan_diag path root o).1 = main_scan path root o) := by
  refine ⟨process_entry_opts, ?_, ?_, ?_⟩
  · intro path root o o'
    exact scan_directory_opts path root o o' _
  · intro path root o o'
    unfold main_scan_diag
    rw [scan_directory_diag_fst, scan_directory_diag_fst]
    exact scan_directory_opts path root o o' _
  · intro path root o
    unfold main_scan_diag main_scan
    rw [scan_directory_diag_fst]

/-! ## Traversal failures -/

mutual
/-- Pruning the failures does not change the reachable entries. -/
theorem visits_directory_prune (path : CString) :
    (dir : Option (List Entry)) →
      visits_directory path (prune_directory dir) = visits_directory path dir
  | none => by simp [prune_directory, visits_directory, visits_entries]
  | some entries => by
    rw [prune_directory, visits_directory, visits_directory]
    exact visits_entries_prune path entries
theorem visits_entries_prune (path : CString) :
    (entries : List Entry) →
      visits_entries path (prune_entries entries) = visits_entries path entries
  | [] => by simp [prune_entries]
  | entry :: rest => by
    have ih := visits_entries_prune path rest
    have he := visits_entry_prune path entry
    rw [prune_entries, visits_entries]
    cases hp : prune_entry entry with
    | none => simp only [ih, he.1 hp, List.nil_append]
    | some kept => simp only [visits_entries, ih, he.2 kept hp]
theorem visits_entry_prune (path : CString) :
    (entry : Entry) →
      (prune_entry entry = none → visits_entry path entry = []) ∧
      (∀ kept, prune_entry entry = some kept →
        visits_entry path kept = visits_entry path entry)
  | Entry.mk d_name lstat opendir => by
    unfold prune_entry
    cases lstat with
    | none => simp [visits_entry]
    | some sb =>
      by_cases hd : S_ISDIR sb.st_mode = true
      · have ih := visits_directory_prune (full_path path d_name) opendir
        simp only [hd, if_true, Option.some.injEq]
        refine ⟨fun h => absurd h (by simp), ?_⟩
        intro kept hk
        subst hk
        simp only [visits_entry, hd, if_true, ih]
      · simp only [if_neg hd, Option.some.injEq]
        refine ⟨fun h => absurd h (by simp), ?_⟩
        intro kept hk
        subst hk
        rfl
end

mutual
/-- The traversal of a pruned tree meets no failure: nothing is written to `stderr`, even
with `verbose` on. -/
theorem scan_directory_diag_prune (path : CString) :
    (dir : Option (List Entry)) → (o : Options) → (st : Stats × List Diagnostic) →
      (scan_directory_diag path (prune_directory dir) o st).2 = st.2
  | none, o, st => by simp [prune_directory, scan_directory_diag, scan_entries_diag]
  | some entries, o, st => by
    rw [prune_directory, scan_directory_diag]
    exact scan_entries_diag_prune path entries o st
theorem scan_entries_diag_prune (path : CString) :
    (entries : List Entry) → (o : Options) → (st : Stats × List Diagnostic) →
      (scan_entries_diag path (prune_entries entries) o st).2 = st.2
  | [], o, st => by simp [prune_entries, scan_entries_diag]
  | entry :: rest, o, st => by
    have he := scan_entry_diag_prune path entry o st
    rw [prune_entries]
    cases hp : prune_entry entry with
    | none => exact scan_entries_diag_prune path rest o st
    | some kept =>
      simp only [scan_entries_diag]
      rw [scan_entries_diag_prune path rest o _, he kept hp]
theorem scan_entry_diag_prune (path : CString) :
    (entry : Entry) → (o : Options) → (st : Stats × List Diagnostic) →
      ∀ kept, prune_entry entry = some kept → (scan_entry_diag path kept o st).2 = st.2
  | Entry.mk d_name lstat opendir, o, st => by
    unfold prune_entry
    cases lstat with
    | none => simp
    | some sb =>
      by_cases hd : S_ISDIR sb.st_mode = true
      · simp only [hd, if_true, Option.some.injEq]
        intro kept hk
        subst hk
        unfold scan_entry_diag
        by_cases hdot : d_name = ['.'] ∨ d_name = ['.', '.']
        · rw [if_pos hdot]
        · rw [if_neg hdot]
          simp only [hd, if_true]
          exact scan_directory_diag_prune (full_path path d_name) opendir o _
      · simp only [if_neg hd, Option.some.injEq]
        intro kept hk
        subst hk
        unfold scan_entry_diag
        by_cases hdot : d_name = ['.'] ∨ d_name = ['.', '.']
        · rw [if_pos hdot]
        · rw [if_neg hdot]
          simp only [if_neg hd]
end

/-! ## C12 -/

/-- C12. Traversal failures are local and leave no trace in `Stats`: the traversal of any
tree gives the same `Stats` as the traversal of the tree with every unopenable directory
emptied and every entry whose `lstat` fails removed (`prune_directory`), for any values of
the options on either side, `verbose` included; the pruned tree meets no failure at all,
and with `verbose` off the failing tree writes no diagnostic. -/
theorem C12_failures_are_local (path : CString) (root : Option (List Entry))
    (o o' : Options) :
    main_scan path root o = main_scan path (prune_directory root) o' ∧
    (main_scan_diag path root o).1 = (main_scan_diag path (prune_directory root) o').1 ∧
    (main_scan_diag path (prune_directory root) o').2 = [] ∧
    (o.verbose = 0 → (main_scan_diag path root o).2 = []) := by
  have h1 : main_scan path root o = main_scan path (prune_directory root) o' := by
    rw [main_scan_eq_fold, main_scan_eq_fold, visits_directory_prune]
    rfl
  refine ⟨h1, ?_, ?_, ?_⟩
  · unfold main_scan_diag
    rw [scan_directory_diag_fst, scan_directory_diag_fst]
    exact h1
  · unfold main_scan_diag
    rw [scan_directory_diag_prune]
  · intro hv
    unfold main_scan_diag
    rw [scan_directory_diag_quiet path root o _ hv]

set_option maxRecDepth 8000 in
theorem C12_failures_are_local_witness :
    prune_directory failing_tree = failing_tree_pruned ∧
    main_scan ['.'] failing_tree verbose_options
      = main_scan ['.'] failing_tree_pruned no_options ∧
    (main_scan ['.'] failing_tree verbose_options).dir_count = 2 ∧
    (main_scan ['.'] failing_tree verbose_options).file_count = 2 ∧
    no_options.verbose = 0 ∧
    (main_scan_diag ['.'] failing_tree no_options).2 = [] ∧
    (main_scan_diag ['.'] failing_tree verbose_options).2
      = [Diagnostic.stating ['.', '/', 'g', 'o', 'n', 'e'],
         Diagnostic.opening ['.', '/', 'l', 'o', 'c', 'k', 'e', 'd'],
         Diagnostic.stating ['.', '/', 's', 'u', 'b', '/', 'l', 'o', 's', 't']] :=
  ⟨rfl,
   (C12_failures_are_local ['.'] failing_tree verbose_options no_options).1,
   by decide, by decide, rfl,
   (C12_failures_are_local ['.'] failing_tree no_options no_options).2.2.2 rfl,
   by decide⟩

/-! ## Classification by the full path -/

theorem strrchr_append_of_mem (c : Char) (t : CString) (h : c ∈ t) :
    ∀ s : CString, strrchr (s ++ t) c = strrchr t c
  | [] => rfl
  | x :: s => by
    have ih := strrchr_append_of_mem c t h s
    have hne : strrchr t c ≠ none := fun hn => ((strrchr_eq_none c t).mp hn) h
    rw [List.cons_append, strrchr, ih]
    cases ht : strrchr t c with
    | none => exact absurd ht hne
    | some u => rfl

theorem forall₂_exists_of_mem_left {α β : Type} {R : α → β → Prop} {l₁ : List α}
    {l₂ : List β} (h : List.Forall₂ R l₁ l₂) : ∀ a ∈ l₁, ∃ b ∈ l₂, R a b := by
  induction h with
  | nil => intro a ha; cases ha
  | cons hab _ ih =>
    intro a ha
    rcases List.mem_cons.mp ha with rfl | ha'
    · exact ⟨_, List.mem_cons_self _ _, hab⟩
    · obtain ⟨b, hb, hr⟩ := ih a ha'
      exact ⟨b, List.mem_cons_of_mem _ hb, hr⟩

theorem same_letter_slash (c : Char) (h : same_letter '/' c) : c.toNat = 47 := by
  have h47 : ('/' : Char).toNat = 47 := rfl
  unfold same_letter at h
  rw [h47] at h
  omega

/-- A name whose last `.` comes before a `/` has no listed extension: no extension holds a
`/`. -/
theorem not_has_extension_in_of_slash (exts : List CString)
    (hexts : ∀ e ∈ exts, ∀ c ∈ e, c.toNat ≠ 47) (p n : CString) (hdot : '.' ∉ n) :
    ¬ has_extension_in exts (p ++ '/' :: n) := by
  rintro ⟨ext, ⟨pre, rest, hsplit, _, hext⟩, e, he, heq⟩
  have hmem : '/' ∈ ext := by
    rcases List.append_eq_append_iff.mp hsplit with ⟨a', _, ha'⟩ | ⟨c', _, hc'⟩
    · have : '.' ∈ '/' :: n := by rw [ha']; simp
      rcases List.mem_cons.mp this with h | h
      · exact absurd h (by decide)
      · exact absurd h hdot
    · rw [hext, hc']; simp
  obtain ⟨c, hc, hsame⟩ := forall₂_exists_of_mem_left heq '/' hmem
  exact hexts e he c hc (same_letter_slash c hsame)

theorem text_extensions_no_slash : ∀ e ∈ text_extensions, ∀ c ∈ e, c.toNat ≠ 47 := by
  decide

theorem script_extensions_no_slash : ∀ e ∈ script_extensions, ∀ c ∈ e, c.toNat ≠ 47 := by
  decide

theorem nul_free_join {p n : CString} (hp : nul_free p) (hn : nul_free n) :
    nul_free (p ++ '/' :: n) := by
  intro c hc
  rcases List.mem_append.mp hc with h | h
  · exact hp c h
  · rcases List.mem_cons.mp h with h | h
    · rw [h]; decide
    · exact hn c h

theorem is_text_file_join (p n : CString) (hp : nul_free p) (hn : nul_free n) :
    is_text_file (p ++ '/' :: n) = is_text_file n := by
  by_cases hdot : '.' ∈ n
  · unfold is_text_file
    have h1 : strrchr ('/' :: n) '.' = strrchr n '.' :=
      strrchr_append_of_mem '.' n hdot ['/']
    rw [strrchr_append_of_mem '.' ('/' :: n) (List.mem_cons_of_mem _ hdot) p, h1]
  · rw [is_text_file_no_dot n hdot]
    cases h : is_text_file (p ++ '/' :: n) with
    | false => rfl
    | true =>
      exact absurd ((is_text_file_iff _ (nul_free_join hp hn)).mp h)
        (not_has_extension_in_of_slash _ text_extensions_no_slash p n hdot)

theorem is_script_file_join (p n : CString) (hp : nul_free p) (hn : nul_free n) :
    is_script_file (p ++ '/' :: n) = is_script_file n := by
  by_cases hdot : '.' ∈ n
  · unfold is_script_file
    have h1 : strrchr ('/' :: n) '.' = strrchr n '.' :=
      strrchr_append_of_mem '.' n hdot ['/']
    rw [strrchr_append_of_mem '.' ('/' :: n) (List.mem_cons_of_mem _ hdot) p, h1]
  · rw [is_script_file_no_dot n hdot]
    cases h : is_script_file (p ++ '/' :: n) with
    | false => rfl
    | true =>
      exact absurd ((is_script_file_iff _ (nul_free_join hp hn)).mp h)
        (not_has_extension_in_of_slash _ script_extensions_no_slash p n hdot)

theorem full_path_of_fits (p n : CString) (h : (p ++ '/' :: n).length < MAX_PATH) :
    full_path p n = p ++ '/' :: n := by
  unfold full_path
  exact List.take_of_length_le (by omega)

/-! ## C16 -/

/-- C16, as stated, fails for the path the walker builds. Below a parent path of 4090 bytes
the path built for `ab.py` is cut by `snprintf` to the path of `ab.p`, which has no listed
extension, while the base name `ab.py` is text and script: in the directory holding the
regular files `ab.p` and `ab.py` the traversal counts no text file, no script and two
binary files. -/
theorem C16_counterexample :
    ¬ (∀ p n : CString, nul_free p → nul_free n → '/' ∉ n →
        is_text_file (full_path p n) = is_text_file n ∧
        is_script_file (full_path p n) = is_script_file n) ∧
    full_path long_parent ['a', 'b', '.', 'p', 'y']
      = long_parent ++ '/' :: ['a', 'b', '.', 'p'] ∧
    is_text_file (full_path long_parent ['a', 'b', '.', 'p', 'y']) = false ∧
    is_script_file (full_path long_parent ['a', 'b', '.', 'p', 'y']) = false ∧
    is_text_file ['a', 'b', '.', 'p', 'y'] = true ∧
    is_script_file ['a', 'b', '.', 'p', 'y'] = true ∧
    main_scan_disk long_parent cut_files_disk no_options
      = some (main_scan long_parent cut_files_seen no_options) ∧
    (main_scan long_parent cut_files_seen no_options).text_files = 0 ∧
    (main_scan long_parent cut_files_seen no_options).script_files = 0 ∧
    (main_scan long_parent cut_files_seen no_options).binary_files = 2 := by
  have hcut := full_path_long_parent ['a', 'b', '.', 'p', 'y']
  have hcut' : full_path long_parent ['a', 'b', '.', 'p', 'y']
      = long_parent ++ '/' :: ['a', 'b', '.', 'p'] := hcut
  have ht : is_text_file (long_parent ++ '/' :: ['a', 'b', '.', 'p']) = false := by
    rw [is_text_file_join _ _ long_parent_nul_free (by decide)]
    decide
  have hs : is_script_file (long_parent ++ '/' :: ['a', 'b', '.', 'p']) = false := by
    rw [is_script_file_join _ _ long_parent_nul_free (by decide)]
    decide
  have hrun : main_scan_disk long_parent cut_files_disk no_options
      = some (main_scan long_parent cut_files_seen no_options) := by
    unfold main_scan_disk
    rw [answers_cut_files]
  have hreg : S_ISREG (regular 3 10).st_mode = true := by decide
  refine ⟨?_, hcut', by rw [hcut', ht], by rw [hcut', hs], by decide, by decide, hrun,
    ?_, ?_, ?_⟩
  · intro h
    have h1 := (h long_parent ['a', 'b', '.', 'p', 'y'] long_parent_nul_free (by decide)
      (by decide)).1
    rw [hcut', ht] at h1
    exact absurd h1 (by decide)
  · rw [main_scan_count Stats.text_files (fun v => S_ISREG v.2.st_mode && is_text_file v.1)
      no_options (fun p sb s => process_entry_text_files p sb no_options s) (fun _ => rfl),
      visits_cut_files]
    simp [ht, hreg, u64]
  · rw [main_scan_count Stats.script_files
      (fun v => S_ISREG v.2.st_mode && is_script_file v.1)
      no_options (fun p sb s => process_entry_script_files p sb no_options s) (fun _ => rfl),
      visits_cut_files]
    simp [hs, hreg, u64]
  · rw [main_scan_count Stats.binary_files
      (fun v => S_ISREG v.2.st_mode && !is_text_file v.1)
      no_options (fun p sb s => process_entry_binary_files p sb no_options s) (fun _ => rfl),
      visits_cut_files]
    simp [ht, hreg, u64]

/-- C16, amended. Classifying the path `p/n` gives the same answers as classifying the entry
name `n` alone, for every parent path `p` and entry name `n` (C strings; `n` holds no `/`):
`is_text_file (p/n) = is_text_file n` and `is_script_file (p/n) = is_script_file n`; the
path the walker builds is `p/n` whenever `p/n` fits the `MAX_PATH` buffer of `snprintf`, and
there the walker classifies by the base name; and a name without `.` is classified as
neither text nor script whatever the parent path is. -/
theorem C16_classification_by_base_name (p n : CString) (hp : nul_free p) (hn : nul_free n)
    (_hs : '/' ∉ n) :
    is_text_file (p ++ '/' :: n) = is_text_file n ∧
    is_script_file (p ++ '/' :: n) = is_script_file n ∧
    ((p ++ '/' :: n).length < MAX_PATH →
      is_text_file (full_path p n) = is_text_file n ∧
      is_script_file (full_path p n) = is_script_file n) ∧
    ('.' ∉ n →
      is_text_file (p ++ '/' :: n) = false ∧ is_script_file (p ++ '/' :: n) = false) := by
  have ht := is_text_file_join p n hp hn
  have hs := is_script_file_join p n hp hn
  refine ⟨ht, hs, ?_, ?_⟩
  · intro hfit
    rw [full_path_of_fits p n hfit]
    exact ⟨ht, hs⟩
  · intro hdot
    rw [ht, hs]
    exact ⟨is_text_file_no_dot n hdot, is_script_file_no_dot n hdot⟩

theorem C16_classification_by_base_name_witness :
    nul_free ['s', 'r', 'c', '.', 'p', 'y'] ∧
    nul_free ['M', 'a', 'k', 'e', 'f', 'i', 'l', 'e'] ∧
    '/' ∉ ['M', 'a', 'k', 'e', 'f', 'i', 'l', 'e'] ∧
    '.' ∉ ['M', 'a', 'k', 'e', 'f', 'i', 'l', 'e'] ∧
    (['s', 'r', 'c', '.', 'p', 'y'] ++ '/' :: ['M', 'a', 'k', 'e', 'f', 'i', 'l', 'e']).length
      < MAX_PATH ∧
    is_text_file
      (full_path ['s', 'r', 'c', '.', 'p', 'y'] ['M', 'a', 'k', 'e', 'f', 'i', 'l', 'e'])
      = is_text_file ['M', 'a', 'k', 'e', 'f', 'i', 'l', 'e'] ∧
    is_text_file
      (['s', 'r', 'c', '.', 'p', 'y'] ++ '/' :: ['M', 'a', 'k', 'e', 'f', 'i', 'l', 'e'])
      = false ∧
    is_script_file
      (['s', 'r', 'c', '.', 'p', 'y'] ++ '/' :: ['M', 'a', 'k', 'e', 'f', 'i', 'l', 'e'])
      = false ∧
    is_text_file ['s', 'r', 'c', '.', 'p', 'y'] = true :=
  ⟨by decide, by decide, by decide, by decide, by decide,
   ((C16_classification_by_base_name ['s', 'r', 'c', '.', 'p', 'y']
      ['M', 'a', 'k', 'e', 'f', 'i', 'l', 'e'] (by decide) (by decide) (by decide)).2.2.1
      (by decide)).1,
   ((C16_classification_by_base_name ['s', 'r', 'c', '.', 'p', 'y']
      ['M', 'a', 'k', 'e', 'f', 'i', 'l', 'e'] (by decide) (by decide) (by decide)).2.2.2
      (by decide)).1,
   ((C16_classification_by_base_name ['s', 'r', 'c', '.', 'p', 'y']
      ['M', 'a', 'k', 'e', 'f', 'i', 'l', 'e'] (by decide) (by decide) (by decide)).2.2.2
      (by decide)).2,
   by decide⟩

/-! ## C17 -/

theorem S_ISREG_not_dir {m : Nat} (h : S_ISREG m = true) : S_ISDIR m = false := by
  cases hd : S_ISDIR m with
  | false => rfl
  | true => rw [S_ISDIR_not_reg hd] at h; exact absurd h (by simp)

theorem process_entry_dir_count (p : CString) (sb : stat) (o : Options) (s : Stats) :
    (process_entry p sb o s).dir_count
      = if S_ISDIR sb.st_mode then u64 (s.dir_count + 1) else s.dir_count := by
  cases h : S_ISREG sb.st_mode with
  | true => rw [process_entry_reg p sb o s h, S_ISREG_not_dir h]; simp
  | false => rw [process_entry_not_reg p sb o s h]

mutual
/-- The walker that records its recursive calls computes the `Stats` of `scan_directory`,
and it calls itself on the directories it meets, once for each and in the order in which it
meets them. -/
theorem scan_directory_calls_eq (path : CString) (o : Options) :
    (dir : Option (List Entry)) → (st : Stats × List CString) →
      scan_directory_calls path dir o st
        = (scan_directory path dir o st.1,
           st.2 ++ (directories (visits_directory path dir)).map (fun v => v.1))
  | none, st => by
    rw [scan_directory_calls, scan_directory, visits_directory]
    simp [directories]
  | some entries, st => by
    rw [scan_directory_calls, scan_directory, visits_directory]
    exact scan_entries_calls_eq path o entries st
theorem scan_entries_calls_eq (path : CString) (o : Options) :
    (entries : List Entry) → (st : Stats × List CString) →
      scan_entries_calls path entries o st
        = (scan_entries path entries o st.1,
           st.2 ++ (directories (visits_entries path entries)).map (fun v => v.1))
  | [], st => by
    rw [scan_entries_calls, scan_entries, visits_entries]
    simp [directories]
  | entry :: rest, st => by
    rw [scan_entries_calls, scan_entries, visits_entries, scan_entry_calls_eq path o entry st,
      scan_entries_calls_eq path o rest _]
    simp [directories]
theorem scan_entry_calls_eq (path : CString) (o : Options) :
    (entry : Entry) → (st : Stats × List CString) →
      scan_entry_calls path entry o st
        = (scan_entry path entry o st.1,
           st.2 ++ (directories (visits_entry path entry)).map (fun v => v.1))
  | Entry.mk d_name lstat opendir, st => by
    unfold scan_entry_calls scan_entry visits_entry
    by_cases hdot : d_name = ['.'] ∨ d_name = ['.', '.']
    · rw [if_pos hdot, if_pos hdot, if_pos hdot]
      simp [directories]
    · rw [if_neg hdot, if_neg hdot, if_neg hdot]
      cases lstat with
      | none => simp [directories]
      | some sb =>
        by_cases hd : S_ISDIR sb.st_mode = true
        · simp only [hd, if_true]
          rw [scan_directory_calls_eq (full_path path d_name) o opendir _]
          simp [directories, hd]
        · simp [directories, hd]
end

theorem main_scan_calls_eq (path : CString) (root : Option (List Entry)) (o : Options) :
    main_scan_calls path root o
      = (main_scan path root o,
         (directories (visits_directory path root)).map (fun v => v.1)) := by
  unfold main_scan_calls main_scan
  rw [scan_directory_calls_eq]
  simp

/-- Two names without `/`, each followed by nothing or by a `/`, that give the same string
are the same name. -/
theorem name_eq_of_append_eq : ∀ (n₁ n₂ r₁ r₂ : CString), '/' ∉ n₁ → '/' ∉ n₂ →
    (r₁ = [] ∨ ∃ t, r₁ = '/' :: t) → (r₂ = [] ∨ ∃ t, r₂ = '/' :: t) →
    n₁ ++ r₁ = n₂ ++ r₂ → n₁ = n₂
  | [], [], _, _, _, _, _, _, _ => rfl
  | [], y :: n₂, r₁, r₂, _, h₂, hr₁, _, h => by
    rcases hr₁ with hr | ⟨t, hr⟩
    · rw [hr] at h; exact absurd h (by simp)
    · rw [hr] at h
      simp only [List.nil_append, List.cons_append, List.cons.injEq] at h
      exact absurd (h.1 ▸ List.mem_cons_self _ _) h₂
  | x :: n₁, [], r₁, r₂, h₁, _, _, hr₂, h => by
    rcases hr₂ with hr | ⟨t, hr⟩
    · rw [hr] at h; exact absurd h (by simp)
    · rw [hr] at h
      simp only [List.nil_append, List.cons_append, List.cons.injEq] at h
      exact absurd (h.1 ▸ List.mem_cons_self _ _) h₁
  | x :: n₁, y :: n₂, r₁, r₂, h₁, h₂, hr₁, hr₂, h => by
    simp only [List.cons_append, List.cons.injEq] at h
    have ih := name_eq_of_append_eq n₁ n₂ r₁ r₂
      (fun hm => h₁ (List.mem_cons_of_mem _ hm)) (fun hm => h₂ (List.mem_cons_of_mem _ hm))
      hr₁ hr₂ h.2
    rw [h.1, ih]

mutual
/-- The path of a node reachable at or below an entry of the directory `path` is
`path/name`, followed by nothing or by a `/`. -/
theorem reachable_directory_below (path : CString) :
    (dir : Option (List Entry)) → ∀ v ∈ reachable_directory path dir,
      ∃ r, v.1 = path ++ '/' :: r
  | none, v, hv => by
    rw [reachable_directory] at hv
    exact absurd hv (List.not_mem_nil _)
  | some entries, v, hv => by
    rw [reachable_directory] at hv
    obtain ⟨e, _, r, hr, _⟩ := reachable_entries_below path entries v hv
    exact ⟨_, hr⟩
theorem reachable_entries_below (path : CString) :
    (entries : List Entry) → ∀ v ∈ reachable_entries path entries,
      ∃ e ∈ entries, ∃ r, v.1 = path ++ '/' :: (entry_name e ++ r) ∧
        (r = [] ∨ ∃ t, r = '/' :: t)
  | [], v, hv => by
    rw [reachable_entries] at hv
    exact absurd hv (List.not_mem_nil _)
  | entry :: rest, v, hv => by
    rw [reachable_entries] at hv
    rcases List.mem_append.mp hv with h | h
    · exact ⟨entry, List.mem_cons_self _ _, reachable_entry_below path entry v h⟩
    · obtain ⟨e, he, hr⟩ := reachable_entries_below path rest v h
      exact ⟨e, List.mem_cons_of_mem _ he, hr⟩
theorem reachable_entry_below (path : CString) :
    (entry : Entry) → ∀ v ∈ reachable_entry path entry,
      ∃ r, v.1 = path ++ '/' :: (entry_name entry ++ r) ∧ (r = [] ∨ ∃ t, r = '/' :: t)
  | Entry.mk d_name lstat opendir, v, hv => by
    unfold reachable_entry at hv
    by_cases hdot : d_name = ['.'] ∨ d_name = ['.', '.']
    · rw [if_pos hdot] at hv
      exact absurd hv (List.not_mem_nil _)
    · rw [if_neg hdot] at hv
      cases lstat with
      | none => exact absurd hv (List.not_mem_nil _)
      | some sb =>
        simp only at hv
        rcases List.mem_cons.mp hv with h | h
        · exact ⟨[], by rw [h]; simp [entry_name], Or.inl rfl⟩
        · by_cases hd : S_ISDIR sb.st_mode = true
          · rw [if_pos hd] at h
            obtain ⟨r, hr⟩ := reachable_directory_below (path ++ '/' :: d_name) opendir v h
            exact ⟨'/' :: r, by rw [hr]; simp [entry_name], Or.inr ⟨r, rfl⟩⟩
          · rw [if_neg hd] at h
            exact absurd h (List.not_mem_nil _)
end

theorem names_ok_entry_no_slash (entry : Entry) (h : names_ok_entry entry = true) :
    '/' ∉ entry_name entry := by
  cases entry with
  | mk d_name lstat opendir =>
    unfold names_ok_entry at h
    rw [Bool.and_eq_true, decide_eq_true_eq] at h
    exact h.1

theorem names_ok_entries_no_slash :
    ∀ entries : List Entry, names_ok_entries entries = true →
      ∀ e ∈ entries, '/' ∉ entry_name e
  | [], _, e, he => absurd he (List.not_mem_nil _)
  | entry :: rest, h, e, he => by
    rw [names_ok_entries, Bool.and_eq_true, Bool.and_eq_true] at h
    rcases List.mem_cons.mp he with h1 | h1
    · rw [h1]; exact names_ok_entry_no_slash entry h.1.1
    · exact names_ok_entries_no_slash rest h.2 e h1

mutual
/-- In a tree whose names are file names no two reachable nodes have the same path. -/
theorem reachable_directory_nodup (path : CString) :
    (dir : Option (List Entry)) → names_ok_directory dir = true →
      ((reachable_directory path dir).map (fun v => v.1)).Nodup
  | none, _ => by
    rw [reachable_directory]
    exact List.nodup_nil
  | some entries, h => by
    rw [names_ok_directory] at h
    rw [reachable_directory]
    exact reachable_entries_nodup path entries h
theorem reachable_entries_nodup (path : CString) :
    (entries : List Entry) → names_ok_entries entries = true →
      ((reachable_entries path entries).map (fun v => v.1)).Nodup
  | [], _ => by
    rw [reachable_entries]
    exact List.nodup_nil
  | entry :: rest, h => by
    have hall := names_ok_entries_no_slash (entry :: rest) h
    rw [names_ok_entries, Bool.and_eq_true, Bool.and_eq_true] at h
    rw [reachable_entries, List.map_append, List.nodup_append]
    refine ⟨reachable_entry_nodup path entry h.1.1, reachable_entries_nodup path rest h.2, ?_⟩
    intro q hq1 hq2
    obtain ⟨v1, hv1, rfl⟩ := List.mem_map.mp hq1
    obtain ⟨v2, hv2, heq⟩ := List.mem_map.mp hq2
    obtain ⟨r1, hr1, hs1⟩ := reachable_entry_below path entry v1 hv1
    obtain ⟨e, he, r2, hr2, hs2⟩ := reachable_entries_below path rest v2 hv2
    have hpath : entry_name e ++ r2 = entry_name entry ++ r1 := by
      have h3 : path ++ '/' :: (entry_name e ++ r2) = path ++ '/' :: (entry_name entry ++ r1) := by
        rw [← hr1, ← hr2]; exact heq
      have h4 := List.append_cancel_left h3
      exact (List.cons.inj h4).2
    have hname : entry_name e = entry_name entry :=
      name_eq_of_append_eq _ _ _ _ (hall e (List.mem_cons_of_mem _ he))
        (hall entry (List.mem_cons_self _ _)) hs2 hs1 hpath
    have hany : rest.any (fun other => decide (entry_name other = entry_name entry)) = true :=
      List.any_eq_true.mpr ⟨e, he, by simp [hname]⟩
    have hnot := h.1.2
    rw [hany] at hnot
    exact absurd hnot (by simp)
theorem reachable_entry_nodup (path : CString) :
    (entry : Entry) → names_ok_entry entry = true →
      ((reachable_entry path entry).map (fun v => v.1)).Nodup
  | Entry.mk d_name lstat opendir, h => by
    unfold names_ok_entry at h
    unfold reachable_entry
    by_cases hdot : d_name = ['.'] ∨ d_name = ['.', '.']
    · rw [if_pos hdot]
      exact List.nodup_nil
    · rw [if_neg hdot] at h ⊢
      cases lstat with
      | none => exact List.nodup_nil
      | some sb =>
        by_cases hd : S_ISDIR sb.st_mode = true
        · simp only [if_pos hd, Bool.and_eq_true] at h ⊢
          rw [List.map_cons, List.nodup_cons]
          refine ⟨?_, reachable_directory_nodup (path ++ '/' :: d_name) opendir h.2⟩
          intro hmem
          obtain ⟨v, hv, heq⟩ := List.mem_map.mp hmem
          obtain ⟨r, hr⟩ := reachable_directory_below (path ++ '/' :: d_name) opendir v hv
          have hlen := congrArg List.length (hr.symm.trans heq)
          simp only [List.length_append, List.length_cons] at hlen
          omega
        · simp only [if_neg hd, List.map_cons, List.map_nil]
          exact List.nodup_singleton _
end

theorem visits_cut_dirs :
    visits_directory long_parent cut_dirs_seen
      = [(long_parent ++ '/' :: ['a', 'b', 'c', 'd'], directory),
         (long_parent ++ '/' :: ['a', 'b', 'c', 'd'], directory)] := by
  have hd : S_ISDIR directory.st_mode = true := by decide
  simp [visits_directory, visits_entries, visits_entry, cut_dirs_seen, full_path_long_parent,
    hd]

theorem reachable_cut_dirs :
    reachable_directory long_parent cut_dirs_disk
      = [(long_parent ++ '/' :: ['a', 'b', 'c', 'd'], directory),
         (long_parent ++ '/' :: ['a', 'b', 'c', 'd', 'e', 'f'], directory),
         (long_parent ++ '/' :: ['a', 'b', 'c', 'd', 'e', 'f'] ++ '/' :: ['x'], directory)] := by
  have hd : S_ISDIR directory.st_mode = true := by decide
  simp [reachable_directory, reachable_entries, reachable_entry, cut_dirs_disk, hd]

set_option maxRecDepth 8000 in
/-- C17, as stated, fails. Below a parent path of 4090 bytes a directory holds the empty
directory `abcd` and the directory `abcdef`, which holds the directory `x`; every directory
can be opened. The path built for `abcdef` has 4097 bytes and `snprintf` cuts it to the path
of `abcd`, so `lstat` and `opendir` answer twice for `abcd`: the traversal ends with
`dir_count = 2` while three directories lie below the root, and it calls itself twice on
`abcd` and never on `abcdef` or on `x`. -/
theorem C17_counterexample :
    opens_directory cut_dirs_disk = true ∧
    names_ok_directory cut_dirs_disk = true ∧
    main_scan_calls_disk long_parent cut_dirs_disk no_options
      = some (main_scan_calls long_parent cut_dirs_seen no_options) ∧
    (main_scan_calls long_parent cut_dirs_seen no_options).1
      = main_scan long_parent cut_dirs_seen no_options ∧
    (main_scan long_parent cut_dirs_seen no_options).dir_count = 2 ∧
    (directories (reachable_directory long_parent cut_dirs_disk)).length = 3 ∧
    (main_scan_calls long_parent cut_dirs_seen no_options).2
      = [long_parent ++ '/' :: ['a', 'b', 'c', 'd'],
         long_parent ++ '/' :: ['a', 'b', 'c', 'd']] ∧
    (directories (reachable_directory long_parent cut_dirs_disk)).map (fun v => v.1)
      = [long_parent ++ '/' :: ['a', 'b', 'c', 'd'],
         long_parent ++ '/' :: ['a', 'b', 'c', 'd', 'e', 'f'],
         long_parent ++ '/' :: ['a', 'b', 'c', 'd', 'e', 'f'] ++ '/' :: ['x']] ∧
    ¬ (main_scan_calls long_parent cut_dirs_seen no_options).2.Nodup := by
  have hd : S_ISDIR directory.st_mode = true := by decide
  have hrun : main_scan_calls_disk long_parent cut_dirs_disk no_options
      = some (main_scan_calls long_parent cut_dirs_seen no_options) := by
    unfold main_scan_calls_disk
    rw [answers_cut_dirs]
  have hcalls : (main_scan_calls long_parent cut_dirs_seen no_options).2
      = [long_parent ++ '/' :: ['a', 'b', 'c', 'd'],
         long_parent ++ '/' :: ['a', 'b', 'c', 'd']] := by
    rw [main_scan_calls_eq, visits_cut_dirs]
    simp [directories, hd]
  refine ⟨by decide, by decide, hrun, by rw [main_scan_calls_eq], ?_, ?_, hcalls, ?_, ?_⟩
  · rw [main_scan_count Stats.dir_count (fun v => S_ISDIR v.2.st_mode) no_options
      (fun p sb s => process_entry_dir_count p sb no_options s) (fun _ => rfl),
      visits_cut_dirs]
    simp [hd, u64]
  · rw [reachable_cut_dirs]
    simp [directories, hd]
  · rw [reachable_cut_dirs]
    simp [directories, hd]
  · rw [hcalls]
    simp

/-- C17, amended. For every tree on disk whose built paths all fit the `MAX_PATH` buffer,
the traversal returns and `dir_count` is the number (modulo `2 ^ 64`, and exactly when below
`2 ^ 64`) of directories strictly below the root that are reachable without following
symbolic links, the root itself not being an entry; the recursive calls of `scan_directory`
are made on the paths of exactly these directories, in the order in which they are met; and
when the names of the tree are file names (no `/`, no two alike in one directory) these
paths are pairwise distinct, so every such directory is recursed into exactly once. This
holds whether or not every directory can be opened. -/
theorem C17_dir_count (path : CString) (disk : Option (List Entry)) (o : Options)
    (hfit : paths_fit_directory path disk = true) :
    ∃ st, main_scan_calls_disk path disk o = some st ∧
      main_scan_disk path disk o = some st.1 ∧
      st.1 = main_scan path disk o ∧
      st.1.dir_count = u64 (directories (reachable_directory path disk)).length ∧
      ((directories (reachable_directory path disk)).length < 2 ^ 64 →
        st.1.dir_count = (directories (reachable_directory path disk)).length) ∧
      st.2 = (directories (reachable_directory path disk)).map (fun v => v.1) ∧
      st.2.length = (directories (reachable_directory path disk)).length ∧
      (names_ok_directory disk = true →
        ((reachable_directory path disk).map (fun v => v.1)).Nodup ∧
        st.2.Nodup ∧
        ∀ v ∈ directories (reachable_directory path disk),
          st.2.countP (fun q => decide (q = v.1)) = 1) := by
  have hans := answers_directory_of_fits path disk hfit
  have hvis := visits_directory_of_fits path disk hfit
  have hcount := main_scan_count Stats.dir_count (fun v => S_ISDIR v.2.st_mode) o
    (fun p sb s => process_entry_dir_count p sb o s) (fun _ => rfl) path disk
  rw [hvis] at hcount
  have hcalls := main_scan_calls_eq path disk o
  rw [hvis] at hcalls
  refine ⟨main_scan_calls path disk o, ?_, ?_, ?_, ?_, ?_, ?_, ?_, ?_⟩
  · unfold main_scan_calls_disk
    rw [hans]
  · rw [main_scan_disk_of_fits path disk o hfit, hcalls]
  · rw [hcalls]
  · rw [hcalls]
    exact hcount
  · intro hlt
    rw [hcalls]
    exact hcount.trans (u64_of_lt hlt)
  · rw [hcalls]
  · rw [hcalls, List.length_map]
  · intro hnames
    have hall := reachable_directory_nodup path disk hnames
    have hdirs : ((directories (reachable_directory path disk)).map (fun v => v.1)).Nodup :=
      List.Nodup.sublist ((List.filter_sublist _).map _) hall
    rw [hcalls]
    refine ⟨hall, hdirs, ?_⟩
    intro v hv
    have hone := List.count_eq_one_of_mem hdirs (List.mem_map_of_mem _ hv)
    exact hone

set_option maxRecDepth 8000 in
theorem C17_dir_count_witness :
    paths_fit_directory ['.'] nested_tree = true ∧
    names_ok_directory nested_tree = true ∧
    (directories (reachable_directory ['.'] nested_tree)).length < 2 ^ 64 ∧
    (directories (reachable_directory ['.'] nested_tree)).map (fun v => v.1)
      = [['.', '/', 'd'], ['.', '/', 'd', '/', 'e']] ∧
    ∃ st, main_scan_calls_disk ['.'] nested_tree no_options = some st ∧
      main_scan_disk ['.'] nested_tree no_options = some st.1 ∧
      st.1.dir_count = (directories (reachable_directory ['.'] nested_tree)).length ∧
      st.2 = (directories (reachable_directory ['.'] nested_tree)).map (fun v => v.1) ∧
      st.2.Nodup ∧
      ∀ v ∈ directories (reachable_directory ['.'] nested_tree),
        st.2.countP (fun q => decide (q = v.1)) = 1 :=
  ⟨by decide, by decide, by decide, by decide,
   (C17_dir_count ['.'] nested_tree no_options (by decide)).elim
     (fun st h =>
       ⟨st, h.1, h.2.1, h.2.2.2.2.1 (by decide), h.2.2.2.2.2.1,
        (h.2.2.2.2.2.2.2 (by decide)).2.1, (h.2.2.2.2.2.2.2 (by decide)).2.2⟩)⟩

/-! ## Order independence of the numeric fields -/

theorem numeric_fields_step_congr (p : CString) (sb : stat) (o : Options) (a b : Stats)
    (h : numeric_fields a = numeric_fields b) :
    numeric_fields (process_entry p sb o a) = numeric_fields (process_entry p sb o b) := by
  cases a
  cases b
  simp only [numeric_fields, Stats.mk.injEq] at h
  obtain ⟨h1, h2, h3, h4, h5, h6, h7, h8, h9, h10, h11, h12, h13, h14, h15, h16, h17, h18,
    h19, h20, h21, h22, _, _, h25⟩ := h
  subst h1 h2 h3 h4 h5 h6 h7 h8 h9 h10 h11 h12 h13 h14 h15 h16 h17 h18 h19 h20 h21 h22 h25
  cases hr : S_ISREG sb.st_mode with
  | true =>
    rw [process_entry_reg p sb o _ hr, process_entry_reg p sb o _ hr]
    simp only [numeric_fields]
  | false =>
    rw [process_entry_not_reg p sb o _ hr, process_entry_not_reg p sb o _ hr]
    simp only [numeric_fields]

theorem numeric_fields_fold_congr (o : Options) (vs : List (CString × stat)) :
    ∀ a b : Stats, numeric_fields a = numeric_fields b →
      numeric_fields (fold_entries o vs a) = numeric_fields (fold_entries o vs b) := by
  induction vs with
  | nil => intro a b h; exact h
  | cons v vs ih =>
    intro a b h
    rw [fold_entries_cons, fold_entries_cons]
    exact ih _ _ (numeric_fields_step_congr v.1 v.2 o a b h)


/-- Two steps commute on the numeric fields. -/
theorem numeric_fields_step_comm (p q : CString) (sb tb : stat) (o : Options) (s : Stats) :
    numeric_fields (process_entry q tb o (process_entry p sb o s))
      = numeric_fields (process_entry p sb o (process_entry q tb o s)) := by
  cases hr : S_ISREG sb.st_mode <;> cases ht : S_ISREG tb.st_mode
  · rw [process_entry_not_reg p sb o _ hr, process_entry_not_reg q tb o _ ht,
      process_entry_not_reg q tb o _ ht, process_entry_not_reg p sb o _ hr]
    apply Stats.ext <;> simp only [numeric_fields] <;> (try split_ifs) <;> rfl
  · rw [process_entry_not_reg p sb o _ hr, process_entry_reg q tb o _ ht,
      process_entry_reg q tb o _ ht, process_entry_not_reg p sb o _ hr]
  · rw [process_entry_reg p sb o _ hr, process_entry_not_reg q tb o _ ht,
      process_entry_not_reg q tb o _ ht, process_entry_reg p sb o _ hr]
  · rw [process_entry_reg p sb o _ hr, process_entry_reg q tb o _ ht,
      process_entry_reg q tb o _ ht, process_entry_reg p sb o _ hr]
    apply Stats.ext <;> simp only [numeric_fields] <;> (try split_ifs) <;>
      first | rfl | omega | (unfold u64; omega)


/-- The numeric fields after a fold depend only on which entries are folded, not on their
order. -/
theorem numeric_fields_fold_perm (o : Options) {vs ws : List (CString × stat)}
    (h : vs.Perm ws) :
    ∀ s : Stats, numeric_fields (fold_entries o vs s) = numeric_fields (fold_entries o ws s) := by
  induction h with
  | nil => intro s; rfl
  | cons v _ ih => intro s; rw [fold_entries_cons, fold_entries_cons]; exact ih _
  | swap v w l =>
    intro s
    rw [fold_entries_cons, fold_entries_cons, fold_entries_cons, fold_entries_cons]
    exact numeric_fields_fold_congr o l _ _ (numeric_fields_step_comm _ _ _ _ o s)
  | trans _ _ ih₁ ih₂ => intro s; exact (ih₁ s).trans (ih₂ s)

theorem regular_files_perm {vs ws : List (CString × stat)} (h : vs.Perm ws) :
    (regular_files vs).Perm (regular_files ws) :=
  List.Perm.filter _ h

theorem mem_regular_files {u : CString × stat} {l : List (CString × stat)} :
    u ∈ regular_files l ↔ u ∈ l ∧ S_ISREG u.2.st_mode = true := by
  unfold regular_files
  exact List.mem_filter

/-- In a sequence with a regular file, the first regular file that attains the least
modification time splits the sequence: strictly later times before it, no earlier time
after it. -/
theorem exists_first_oldest (l : List (CString × stat)) (hne : regular_files l ≠ []) :
    ∃ (pre : List (CString × stat)) (v : CString × stat) (post : List (CString × stat)),
      l = pre ++ v :: post ∧ S_ISREG v.2.st_mode = true ∧
      (∀ u ∈ regular_files pre, v.2.st_mtime < u.2.st_mtime) ∧
      (∀ u ∈ regular_files post, v.2.st_mtime ≤ u.2.st_mtime) := by
  induction l with
  | nil => exact absurd rfl hne
  | cons x l ih =>
    by_cases hl : regular_files l = []
    · obtain ⟨w, hw⟩ := List.exists_mem_of_ne_nil _ hne
      obtain ⟨hwm, hwr⟩ := mem_regular_files.mp hw
      have hx : S_ISREG x.2.st_mode = true := by
        rcases List.mem_cons.mp hwm with h | h
        · rw [← h]; exact hwr
        · have : w ∈ regular_files l := mem_regular_files.mpr ⟨h, hwr⟩
          rw [hl] at this
          cases this
      refine ⟨[], x, l, rfl, hx, ?_, ?_⟩
      · intro u hu
        cases hu
      · intro u hu
        rw [hl] at hu
        cases hu
    · obtain ⟨pre, v, post, hsplit, hv, hpre, hpost⟩ := ih hl
      by_cases hx : S_ISREG x.2.st_mode = true ∧ x.2.st_mtime ≤ v.2.st_mtime
      · refine ⟨[], x, l, rfl, hx.1, ?_, ?_⟩
        · intro u hu
          cases hu
        · intro u hu
          obtain ⟨hum, hur⟩ := mem_regular_files.mp hu
          rw [hsplit] at hum
          rcases List.mem_append.mp hum with h | h
          · exact le_trans hx.2 (le_of_lt (hpre u (mem_regular_files.mpr ⟨h, hur⟩)))
          · rcases List.mem_cons.mp h with h | h
            · rw [h]; exact hx.2
            · exact le_trans hx.2 (hpost u (mem_regular_files.mpr ⟨h, hur⟩))
      · refine ⟨x :: pre, v, post, by rw [hsplit]; rfl, hv, ?_, hpost⟩
        intro u hu
        obtain ⟨hum, hur⟩ := mem_regular_files.mp hu
        rcases List.mem_cons.mp hum with h | h
        · by_contra hlt
          rw [h] at hur hlt
          exact hx ⟨hur, not_lt.mp hlt⟩
        · exact hpre u (mem_regular_files.mpr ⟨h, hur⟩)

/-- The dual of `exists_first_oldest` for the greatest modification time. -/
theorem exists_first_newest (l : List (CString × stat)) (hne : regular_files l ≠ []) :
    ∃ (pre : List (CString × stat)) (v : CString × stat) (post : List (CString × stat)),
      l = pre ++ v :: post ∧ S_ISREG v.2.st_mode = true ∧
      (∀ u ∈ regular_files pre, u.2.st_mtime < v.2.st_mtime) ∧
      (∀ u ∈ regular_files post, u.2.st_mtime ≤ v.2.st_mtime) := by
  induction l with
  | nil => exact absurd rfl hne
  | cons x l ih =>
    by_cases hl : regular_files l = []
    · obtain ⟨w, hw⟩ := List.exists_mem_of_ne_nil _ hne
      obtain ⟨hwm, hwr⟩ := mem_regular_files.mp hw
      have hx : S_ISREG x.2.st_mode = true := by
        rcases List.mem_cons.mp hwm with h | h
        · rw [← h]; exact hwr
        · have : w ∈ regular_files l := mem_regular_files.mpr ⟨h, hwr⟩
          rw [hl] at this
          cases this
      refine ⟨[], x, l, rfl, hx, ?_, ?_⟩
      · intro u hu
        cases hu
      · intro u hu
        rw [hl] at hu
        cases hu
    · obtain ⟨pre, v, post, hsplit, hv, hpre, hpost⟩ := ih hl
      by_cases hx : S_ISREG x.2.st_mode = true ∧ v.2.st_mtime ≤ x.2.st_mtime
      · refine ⟨[], x, l, rfl, hx.1, ?_, ?_⟩
        · intro u hu
          cases hu
        · intro u hu
          obtain ⟨hum, hur⟩ := mem_regular_files.mp hu
          rw [hsplit] at hum
          rcases List.mem_append.mp hum with h | h
          · exact le_trans (le_of_lt (hpre u (mem_regular_files.mpr ⟨h, hur⟩))) hx.2
          · rcases List.mem_cons.mp h with h | h
            · rw [h]; exact hx.2
            · exact le_trans (hpost u (mem_regular_files.mpr ⟨h, hur⟩)) hx.2
      · refine ⟨x :: pre, v, post, by rw [hsplit]; rfl, hv, ?_, hpost⟩
        intro u hu
        obtain ⟨hum, hur⟩ := mem_regular_files.mp hu
        rcases List.mem_cons.mp hum with h | h
        · by_contra hlt
          rw [h] at hur hlt
          exact hx ⟨hur, not_lt.mp hlt⟩
        · exact hpre u (mem_regular_files.mpr ⟨h, hur⟩)


/-- The recorded oldest file does not depend on the order of the entries when no two regular
files with different paths tie on the least modification time. -/
theorem fold_entries_oldest_file_perm (o : Options) {vs ws : List (CString × stat)}
    (h : vs.Perm ws) (s : Stats)
    (hno : ∀ u ∈ regular_files vs, ∀ v ∈ regular_files vs,
      (∀ w ∈ regular_files vs, u.2.st_mtime ≤ w.2.st_mtime) →
      v.2.st_mtime = u.2.st_mtime → u.1 = v.1) :
    (fold_entries o vs s).oldest_file = (fold_entries o ws s).oldest_file := by
  have hmem : ∀ u, u ∈ regular_files vs ↔ u ∈ regular_files ws := fun u =>
    (regular_files_perm h).mem_iff
  by_cases hall : ∀ u ∈ regular_files vs, s.oldest_time ≤ u.2.st_mtime
  · rw [(fold_entries_oldest_kept o vs s hall).2,
      (fold_entries_oldest_kept o ws s (fun u hu => hall u ((hmem u).mpr hu))).2]
  · push_neg at hall
    obtain ⟨u₀, hu₀, hlt₀⟩ := hall
    have hne : regular_files vs ≠ [] := List.ne_nil_of_mem hu₀
    have hne' : regular_files ws ≠ [] := List.ne_nil_of_mem ((hmem u₀).mp hu₀)
    obtain ⟨pre, v, post, hsplit, hv, hpre, hpost⟩ := exists_first_oldest vs hne
    obtain ⟨pre', v', post', hsplit', hv', hpre', hpost'⟩ := exists_first_oldest ws hne'
    have hvmem : v ∈ regular_files vs :=
      mem_regular_files.mpr ⟨by rw [hsplit]; simp, hv⟩
    have hvmem' : v' ∈ regular_files ws :=
      mem_regular_files.mpr ⟨by rw [hsplit']; simp, hv'⟩
    have hmin : ∀ w ∈ regular_files vs, v.2.st_mtime ≤ w.2.st_mtime := by
      intro w hw
      obtain ⟨hwm, hwr⟩ := mem_regular_files.mp hw
      rw [hsplit] at hwm
      rcases List.mem_append.mp hwm with hh | hh
      · exact le_of_lt (hpre w (mem_regular_files.mpr ⟨hh, hwr⟩))
      · rcases List.mem_cons.mp hh with hh | hh
        · rw [hh]
        · exact hpost w (mem_regular_files.mpr ⟨hh, hwr⟩)
    have hmin' : ∀ w ∈ regular_files ws, v'.2.st_mtime ≤ w.2.st_mtime := by
      intro w hw
      obtain ⟨hwm, hwr⟩ := mem_regular_files.mp hw
      rw [hsplit'] at hwm
      rcases List.mem_append.mp hwm with hh | hh
      · exact le_of_lt (hpre' w (mem_regular_files.mpr ⟨hh, hwr⟩))
      · rcases List.mem_cons.mp hh with hh | hh
        · rw [hh]
        · exact hpost' w (mem_regular_files.mpr ⟨hh, hwr⟩)
    have heq : v'.2.st_mtime = v.2.st_mtime :=
      le_antisymm (hmin' v ((hmem v).mp hvmem)) (hmin v' ((hmem v').mpr hvmem'))
    have hlt : v.2.st_mtime < s.oldest_time := lt_of_le_of_lt (hmin u₀ hu₀) hlt₀
    have hpath : v.1 = v'.1 := hno v hvmem v' ((hmem v').mpr hvmem') hmin heq
    have h1 := (fold_entries_oldest_first o pre post v s hv hlt hpre hpost).2
    have h2 := (fold_entries_oldest_first o pre' post' v' s hv' (by rw [heq]; exact hlt)
      hpre' hpost').2
    rw [hsplit, hsplit', h1, h2, hpath]

/-- The recorded newest file does not depend on the order of the entries when no two regular
files with different paths tie on the greatest modification time. -/
theorem fold_entries_newest_file_perm (o : Options) {vs ws : List (CString × stat)}
    (h : vs.Perm ws) (s : Stats)
    (hno : ∀ u ∈ regular_files vs, ∀ v ∈ regular_files vs,
      (∀ w ∈ regular_files vs, w.2.st_mtime ≤ u.2.st_mtime) →
      v.2.st_mtime = u.2.st_mtime → u.1 = v.1) :
    (fold_entries o vs s).newest_file = (fold_entries o ws s).newest_file := by
  have hmem : ∀ u, u ∈ regular_files vs ↔ u ∈ regular_files ws := fun u =>
    (regular_files_perm h).mem_iff
  by_cases hall : ∀ u ∈ regular_files vs, u.2.st_mtime ≤ s.newest_time
  · rw [(fold_entries_newest_kept o vs s hall).2,
      (fold_entries_newest_kept o ws s (fun u hu => hall u ((hmem u).mpr hu))).2]
  · push_neg at hall
    obtain ⟨u₀, hu₀, hlt₀⟩ := hall
    have hne : regular_files vs ≠ [] := List.ne_nil_of_mem hu₀
    have hne' : regular_files ws ≠ [] := List.ne_nil_of_mem ((hmem u₀).mp hu₀)
    obtain ⟨pre, v, post, hsplit, hv, hpre, hpost⟩ := exists_first_newest vs hne
    obtain ⟨pre', v', post', hsplit', hv', hpre', hpost'⟩ := exists_first_newest ws hne'
    have hvmem : v ∈ regular_files vs :=
      mem_regular_files.mpr ⟨by rw [hsplit]; simp, hv⟩
    have hvmem' : v' ∈ regular_files ws :=
      mem_regular_files.mpr ⟨by rw [hsplit']; simp, hv'⟩
    have hmax : ∀ w ∈ regular_files vs, w.2.st_mtime ≤ v.2.st_mtime := by
      intro w hw
      obtain ⟨hwm, hwr⟩ := mem_regular_files.mp hw
      rw [hsplit] at hwm
      rcases List.mem_append.mp hwm with hh | hh
      · exact le_of_lt (hpre w (mem_regular_files.mpr ⟨hh, hwr⟩))
      · rcases List.mem_cons.mp hh with hh | hh
        · rw [hh]
        · exact hpost w (mem_regular_files.mpr ⟨hh, hwr⟩)
    have hmax' : ∀ w ∈ regular_files ws, w.2.st_mtime ≤ v'.2.st_mtime := by
      intro w hw
      obtain ⟨hwm, hwr⟩ := mem_regular_files.mp hw
      rw [hsplit'] at hwm
      rcases List.mem_append.mp hwm with hh | hh
      · exact le_of_lt (hpre' w (mem_regular_files.mpr ⟨hh, hwr⟩))
      · rcases List.mem_cons.mp hh with hh | hh
        · rw [hh]
        · exact hpost' w (mem_regular_files.mpr ⟨hh, hwr⟩)
    have heq : v'.2.st_mtime = v.2.st_mtime :=
      le_antisymm (hmax v' ((hmem v').mpr hvmem')) (hmax' v ((hmem v).mp hvmem))
    have hlt : s.newest_time < v.2.st_mtime := lt_of_lt_of_le hlt₀ (hmax u₀ hu₀)
    have hpath : v.1 = v'.1 := hno v hvmem v' ((hmem v').mpr hvmem') hmax heq
    have h1 := (fold_entries_newest_first o pre post v s hv hlt hpre hpost).2
    have h2 := (fold_entries_newest_first o pre' post' v' s hv' (by rw [heq]; exact hlt)
      hpre' hpost').2
    rw [hsplit, hsplit', h1, h2, hpath]


theorem visits_entries_cons (path : CString) (entry : Entry) (rest : List Entry) :
    visits_entries path (entry :: rest)
      = visits_entry path entry ++ visits_entries path rest := by
  rw [visits_entries]

theorem visits_entries_perm (path : CString) {es es' : List Entry} (h : es.Perm es') :
    (visits_entries path es).Perm (visits_entries path es') := by
  induction h with
  | nil => exact List.Perm.refl _
  | cons e _ ih =>
    rw [visits_entries_cons, visits_entries_cons]
    exact List.Perm.append_left _ ih
  | swap a b l =>
    rw [visits_entries_cons, visits_entries_cons, visits_entries_cons, visits_entries_cons,
      ← List.append_assoc, ← List.append_assoc]
    exact List.Perm.append_right _ List.perm_append_comm
  | trans _ _ ih₁ ih₂ => exact ih₁.trans ih₂

mutual
/-- Reordering the entries of the directories permutes the reachable entries, each keeping
its path and its `lstat` answer. -/
theorem visits_directory_reorder (path : CString) :
    (dir dir' : Option (List Entry)) → reorder_directory dir dir' →
      (visits_directory path dir).Perm (visits_directory path dir')
  | none, dir', h => by
    simp only [reorder_directory] at h
    rw [h]
  | some entries, dir', h => by
    simp only [reorder_directory] at h
    obtain ⟨inner, entries', hd, hin, hperm⟩ := h
    rw [hd, visits_directory, visits_directory]
    exact (visits_entries_reorder path entries inner hin).trans
      (visits_entries_perm path hperm)
theorem visits_entries_reorder (path : CString) :
    (entries entries' : List Entry) → reorder_entries entries entries' →
      (visits_entries path entries).Perm (visits_entries path entries')
  | [], entries', h => by
    simp only [reorder_entries] at h
    rw [h]
  | entry :: rest, entries', h => by
    simp only [reorder_entries] at h
    obtain ⟨entry', rest', hd, he, hr⟩ := h
    rw [hd, visits_entries_cons, visits_entries_cons]
    exact List.Perm.append (visits_entry_reorder path entry entry' he)
      (visits_entries_reorder path rest rest' hr)
theorem visits_entry_reorder (path : CString) :
    (entry entry' : Entry) → reorder_entry entry entry' →
      (visits_entry path entry).Perm (visits_entry path entry')
  | Entry.mk d_name lstat opendir, entry', h => by
    simp only [reorder_entry] at h
    obtain ⟨opendir', hd, ho⟩ := h
    rw [hd]
    unfold visits_entry
    by_cases hdot : d_name = ['.'] ∨ d_name = ['.', '.']
    · rw [if_pos hdot, if_pos hdot]
    · rw [if_neg hdot, if_neg hdot]
      cases lstat with
      | none => exact List.Perm.refl _
      | some sb =>
        by_cases hdir : S_ISDIR sb.st_mode = true
        · simp only [hdir, if_true]
          exact List.Perm.cons _
            (visits_directory_reorder (full_path path d_name) opendir opendir' ho)
        · simp only [if_neg hdir]
          exact List.Perm.refl _
end

mutual
/-- Keeping every order is a reordering. -/
theorem reorder_directory_refl : (dir : Option (List Entry)) → reorder_directory dir dir
  | none => by simp only [reorder_directory]
  | some entries => by
    simp only [reorder_directory]
    exact ⟨entries, entries, rfl, reorder_entries_refl entries, List.Perm.refl _⟩
theorem reorder_entries_refl : (entries : List Entry) → reorder_entries entries entries
  | [] => by simp only [reorder_entries]
  | entry :: rest => by
    simp only [reorder_entries]
    exact ⟨entry, rest, rfl, reorder_entry_refl entry, reorder_entries_refl rest⟩
theorem reorder_entry_refl : (entry : Entry) → reorder_entry entry entry
  | Entry.mk d_name lstat opendir => by
    simp only [reorder_entry]
    exact ⟨opendir, rfl, reorder_directory_refl opendir⟩
end

/-- Enumerating the entries of the root in another order is a reordering. -/
theorem reorder_directory_of_perm {entries entries' : List Entry}
    (h : entries.Perm entries') : reorder_directory (some entries) (some entries') := by
  simp only [reorder_directory]
  exact ⟨entries, entries', rfl, reorder_entries_refl entries, h⟩

/-! ## C19 -/

/-- C19. Order independence. When the entries of the directories of a tree are enumerated
in another order (at any depth), the full traversal ends with the same value in every field
of `Stats` other than the two recorded paths: all counters, `total_size`, `text_size`,
`binary_size`, `min_size`, `max_size`, `oldest_time`, `newest_time`. The recorded path
`oldest_file` can differ only when two regular files with different paths tie on the least
modification time, and `newest_file` only when two tie on the greatest. -/
theorem C19_order_independence (path : CString) (root root' : Option (List Entry))
    (o : Options) (h : reorder_directory root root') :
    numeric_fields (main_scan path root o) = numeric_fields (main_scan path root' o) ∧
    ((main_scan path root o).oldest_file ≠ (main_scan path root' o).oldest_file →
      ∃ u ∈ regular_files (visits_directory path root),
        ∃ v ∈ regular_files (visits_directory path root),
          u.1 ≠ v.1 ∧ v.2.st_mtime = u.2.st_mtime ∧
          ∀ w ∈ regular_files (visits_directory path root), u.2.st_mtime ≤ w.2.st_mtime) ∧
    ((main_scan path root o).newest_file ≠ (main_scan path root' o).newest_file →
      ∃ u ∈ regular_files (visits_directory path root),
        ∃ v ∈ regular_files (visits_directory path root),
          u.1 ≠ v.1 ∧ v.2.st_mtime = u.2.st_mtime ∧
          ∀ w ∈ regular_files (visits_directory path root), w.2.st_mtime ≤ u.2.st_mtime) := by
  have hperm := visits_directory_reorder path root root' h
  rw [main_scan_eq_fold, main_scan_eq_fold]
  refine ⟨numeric_fields_fold_perm o hperm _, ?_, ?_⟩
  · intro hne
    by_contra hno
    apply hne
    apply fold_entries_oldest_file_perm o hperm
    intro u hu v hv hmin heq
    by_contra hpath
    exact hno ⟨u, hu, v, hv, hpath, heq, hmin⟩
  · intro hne
    by_contra hno
    apply hne
    apply fold_entries_newest_file_perm o hperm
    intro u hu v hv hmax heq
    by_contra hpath
    exact hno ⟨u, hu, v, hv, hpath, heq, hmax⟩

set_option maxRecDepth 8000 in
theorem C19_order_independence_witness :
    reorder_directory tie_tree tie_tree_swapped ∧
    numeric_fields (main_scan ['.'] tie_tree no_options)
      = numeric_fields (main_scan ['.'] tie_tree_swapped no_options) ∧
    (main_scan ['.'] tie_tree no_options).oldest_file = ['.', '/', 'a'] ∧
    (main_scan ['.'] tie_tree_swapped no_options).oldest_file = ['.', '/', 'b'] ∧
    (main_scan ['.'] tie_tree no_options).oldest_file
      ≠ (main_scan ['.'] tie_tree_swapped no_options).oldest_file ∧
    (∃ u ∈ regular_files (visits_directory ['.'] tie_tree),
      ∃ v ∈ regular_files (visits_directory ['.'] tie_tree),
        u.1 ≠ v.1 ∧ v.2.st_mtime = u.2.st_mtime ∧
        ∀ w ∈ regular_files (visits_directory ['.'] tie_tree),
          u.2.st_mtime ≤ w.2.st_mtime) :=
  ⟨reorder_directory_of_perm (List.Perm.swap _ _ _),
   (C19_order_independence ['.'] tie_tree tie_tree_swapped no_options
      (reorder_directory_of_perm (List.Perm.swap _ _ _))).1,
   by decide, by decide, by decide,
   (C19_order_independence ['.'] tie_tree tie_tree_swapped no_options
      (reorder_directory_of_perm (List.Perm.swap _ _ _))).2.1 (by decide)⟩

/-! ## Human-readable sizes -/

theorem bit_length_le : ∀ fuel n : Nat, bit_length fuel n ≤ fuel
  | 0, _ => Nat.le_refl 0
  | fuel + 1, n => by
    rw [bit_length]
    split
    · exact Nat.zero_le _
    · exact Nat.succ_le_succ (bit_length_le fuel (n / 2))

theorem double_of_u64_shift (size : Nat) : (double_of_u64 size).shift = 0 := by
  unfold double_of_u64
  split <;> rfl

/-- Below `2 ^ 53` the conversion to `double` is exact. -/
theorem double_of_u64_exact (size : Nat) (h : size < 2 ^ 53) :
    double_of_u64 size = ⟨size, 0⟩ := by
  unfold double_of_u64
  rw [if_pos h]

/-- The conversion moves the value by at most `2 ^ 11`: the last bit kept weighs at most
that much for an `unsigned long long`. -/
theorem double_of_u64_le (size : Nat) : (double_of_u64 size).num ≤ size + 2 ^ 11 := by
  unfold double_of_u64
  by_cases h : size < 2 ^ 53
  · rw [if_pos h]
    exact Nat.le_add_right _ _
  · rw [if_neg h]
    have he : bit_length 64 size - 53 ≤ 11 := by
      have := bit_length_le 64 size
      omega
    have hpow : 2 ^ (bit_length 64 size - 53) ≤ 2 ^ 11 :=
      Nat.pow_le_pow_right (by norm_num) he
    have hq : size / 2 ^ (bit_length 64 size - 53) * 2 ^ (bit_length 64 size - 53) ≤ size :=
      Nat.div_mul_le_self _ _
    simp only []
    split
    · rw [Nat.add_mul, Nat.one_mul]
      omega
    · omega

theorem double_of_u64_lt (size : Nat) (h : size < 2 ^ 64) :
    (double_of_u64 size).num < 1024 ^ 7 := by
  have := double_of_u64_le size
  have h7 : (1024 : Nat) ^ 7 = 2 ^ 70 := by norm_num
  rw [h7]
  have h1 : (2 : Nat) ^ 64 + 2 ^ 11 < 2 ^ 70 := by norm_num
  omega

/-- What the loop does: it divides `k` times, each time because the value was at least
1024 and the guard `unit < 7` held, and it stops with `unit` raised by `k`; if it stops
before using up the iterations the guard allows, its condition is false there. -/
theorem human_loop_spec :
    ∀ (left : Nat) (d : double) (u : Nat),
      ∃ k, k ≤ left ∧
        human_loop left d u = (⟨d.num, d.shift + 10 * k⟩, u + k) ∧
        (∀ j < k, 1024 * 2 ^ (d.shift + 10 * j) ≤ d.num ∧ u + j < 7) ∧
        (k < left → ¬ (1024 * 2 ^ (d.shift + 10 * k) ≤ d.num ∧ u + k < 7))
  | 0, d, u => ⟨0, Nat.le_refl 0, rfl, fun j hj => absurd hj (Nat.not_lt_zero j),
      fun h => absurd h (Nat.lt_irrefl 0)⟩
  | left + 1, d, u => by
    by_cases hg : d.ge_1024 = true ∧ u < 7
    · obtain ⟨k, hk, hres, hall, hexit⟩ := human_loop_spec left d.div_1024 (u + 1)
      refine ⟨k + 1, Nat.succ_le_succ hk, ?_, ?_, ?_⟩
      · rw [human_loop, if_pos hg, hres]
        simp only [double.div_1024, Prod.mk.injEq, double.mk.injEq, true_and]
        constructor <;> omega
      · intro j hj
        cases j with
        | zero =>
          have h1 := hg.1
          simp only [double.ge_1024, decide_eq_true_eq] at h1
          exact ⟨by simpa using h1, by simpa using hg.2⟩
        | succ j =>
          obtain ⟨h1, h2⟩ := hall j (by omega)
          simp only [double.div_1024] at h1
          refine ⟨?_, by omega⟩
          have : d.shift + 10 * (j + 1) = d.shift + 10 + 10 * j := by omega
          rw [this]
          exact h1
      · intro hlt
        have h1 := hexit (by omega)
        simp only [double.div_1024] at h1
        have e1 : d.shift + 10 * (k + 1) = d.shift + 10 + 10 * k := by omega
        have e2 : u + (k + 1) = u + 1 + k := by omega
        rw [e1, e2]
        exact h1
    · refine ⟨0, Nat.zero_le _, ?_, fun j hj => absurd hj (Nat.not_lt_zero j), ?_⟩
      · rw [human_loop, if_neg hg]
        cases d
        rfl
      · intro _
        simp only [double.ge_1024, decide_eq_true_eq] at hg
        simpa using hg

/-- For an `unsigned long long` the loop of `human_readable_size` divides `k ≤ 6` times,
`k` being the first exponent with `value < 1024 ^ (k + 1)`: it stops because the value has
dropped below 1024, never because of the guard `unit < 7`. -/
theorem human_loop_u64 (size : Nat) (h : size < 2 ^ 64) :
    ∃ k, k ≤ 6 ∧
      human_loop 7 (double_of_u64 size) 0 = (⟨(double_of_u64 size).num, 10 * k⟩, k) ∧
      (∀ j < k, 1024 ^ (j + 1) ≤ (double_of_u64 size).num) ∧
      (double_of_u64 size).num < 1024 ^ (k + 1) := by
  obtain ⟨k, hk, hres, hall, hexit⟩ := human_loop_spec 7 (double_of_u64 size) 0
  have hlt := double_of_u64_lt size h
  have hpow : ∀ j : Nat, 1024 * 2 ^ (0 + 10 * j) = 1024 ^ (j + 1) := by
    intro j
    have h10 : (2 : Nat) ^ 10 = 1024 := by norm_num
    rw [Nat.zero_add, Nat.pow_mul, h10, Nat.pow_succ, Nat.mul_comm]
  rw [double_of_u64_shift] at hres hall hexit
  have hk6 : k ≤ 6 := by
    by_contra hgt
    have h7 : k = 7 := by omega
    have := (hall 6 (by omega)).1
    rw [hpow] at this
    omega
  refine ⟨k, hk6, ?_, ?_, ?_⟩
  · rw [hres, Nat.zero_add, Nat.zero_add]
  · intro j hj
    have := (hall j hj).1
    rw [hpow] at this
    exact this
  · have h1 := hexit (by omega)
    rw [hpow] at h1
    by_contra hge
    exact h1 ⟨not_lt.mp hge, by omega⟩

theorem sprintf_unit_of_le (k : Nat) (hk : k ≤ 6) :
    ∃ c, sprintf_unit k = [c] ∧ units.get? k = some c ∧ c ∈ units := by
  interval_cases k <;> exact ⟨_, rfl, rfl, by decide⟩


theorem digitChar_toNat (k : Nat) (hk : k < 10) : (Nat.digitChar k).toNat = 48 + k := by
  interval_cases k <;> rfl

theorem decimal_value_append_singleton (ds : CString) (d : Char) :
    decimal_value (ds ++ [d]) = 10 * decimal_value ds + (d.toNat - 48) := by
  simp [decimal_value, List.foldl_append]

/-- The digits produced for `n` denote `n`, are decimal digits, and do not start with `0`
unless `n = 0`. -/
theorem toDigitsCore_spec :
    ∀ (fuel n : Nat) (acc : List Char), n < fuel →
      ∃ ds : List Char, Nat.toDigitsCore 10 fuel n acc = ds ++ acc ∧
        decimal_value ds = n ∧ (∀ c ∈ ds, is_decimal_digit c) ∧ ds ≠ [] ∧
        (n ≠ 0 → ds.head? ≠ some '0')
  | 0, n, _, h => absurd h (Nat.not_lt_zero n)
  | fuel + 1, n, acc, h => by
    have hd := digitChar_toNat (n % 10) (Nat.mod_lt _ (by norm_num))
    have hdig : is_decimal_digit (Nat.digitChar (n % 10)) := by
      unfold is_decimal_digit
      have := Nat.mod_lt n (show 0 < 10 by norm_num)
      omega
    simp only [Nat.toDigitsCore]
    by_cases h0 : n / 10 = 0
    · rw [if_pos h0]
      refine ⟨[Nat.digitChar (n % 10)], rfl, ?_, ?_, by simp, ?_⟩
      · simp only [decimal_value, List.foldl_cons, List.foldl_nil]
        omega
      · intro c hc
        rw [List.mem_singleton.mp hc]
        exact hdig
      · intro hn heq
        simp only [List.head?_cons, Option.some.injEq] at heq
        rw [heq] at hd
        have h48 : ('0' : Char).toNat = 48 := rfl
        omega
    · rw [if_neg h0]
      obtain ⟨ds, hds, hval, hall, hne, hhead⟩ :=
        toDigitsCore_spec fuel (n / 10) (Nat.digitChar (n % 10) :: acc) (by omega)
      refine ⟨ds ++ [Nat.digitChar (n % 10)], by rw [hds]; simp, ?_, ?_, by simp, ?_⟩
      · rw [decimal_value_append_singleton, hval]
        omega
      · intro c hc
        rcases List.mem_append.mp hc with hc | hc
        · exact hall c hc
        · rw [List.mem_singleton.mp hc]
          exact hdig
      · intro _
        cases ds with
        | nil => exact absurd rfl hne
        | cons a as => exact hhead h0

theorem sprintf_llu_spec (n : Nat) :
    decimal_value (sprintf_llu n) = n ∧ (∀ c ∈ sprintf_llu n, is_decimal_digit c) ∧
    (n ≠ 0 → (sprintf_llu n).head? ≠ some '0') := by
  obtain ⟨ds, hds, hval, hall, _, hhead⟩ := toDigitsCore_spec (n + 1) n [] (Nat.lt_succ_self n)
  have : sprintf_llu n = ds := by
    unfold sprintf_llu Nat.toDigits
    rw [hds, List.append_nil]
  rw [this]
  exact ⟨hval, hall, hhead⟩

/-- The tenths printed are the integer nearest to ten times the value: they differ from it
by at most one half. -/
theorem tenths_nearest (x : double) :
    2 * (x.num * 10) ≤ (2 * tenths x + 1) * 2 ^ x.shift ∧
    2 * tenths x * 2 ^ x.shift ≤ 2 * (x.num * 10) + 2 ^ x.shift := by
  have hP : 0 < 2 ^ x.shift := Nat.pow_pos (by norm_num)
  have hdm := Nat.div_add_mod (x.num * 10) (2 ^ x.shift)
  have hr := Nat.mod_lt (x.num * 10) hP
  unfold tenths
  simp only []
  generalize x.num * 10 / 2 ^ x.shift = q at *
  generalize x.num * 10 % 2 ^ x.shift = r at *
  generalize x.num * 10 = N at *
  generalize 2 ^ x.shift = P at *
  have e1 : (2 * (q + 1) + 1) * P = 2 * (P * q) + 3 * P := by ring
  have e2 : 2 * (q + 1) * P = 2 * (P * q) + 2 * P := by ring
  have e3 : (2 * q + 1) * P = 2 * (P * q) + P := by ring
  have e4 : 2 * q * P = 2 * (P * q) := by ring
  split
  · rw [e1, e2]
    constructor <;> omega
  · rw [e3, e4]
    constructor <;> omega

theorem sprintf_1f_of_nat (n : Nat) :
    sprintf_1f ⟨n, 0⟩ = sprintf_llu n ++ ['.', '0'] := by
  have ht : tenths ⟨n, 0⟩ = n * 10 := by
    unfold tenths
    simp [Nat.mod_one]
  unfold sprintf_1f
  rw [ht, Nat.mul_div_cancel _ (by norm_num), Nat.mul_mod_left, List.append_assoc]
  rfl

/-! ## C15 -/

theorem human_readable_size_off (size : Nat) : human_readable_size size 0 = sprintf_llu size := by
  unfold human_readable_size
  rw [if_neg (by simp)]

theorem human_readable_size_on (size : Nat) (human : Int) (hs : size < 2 ^ 64)
    (hh : human ≠ 0) :
    ∃ k, k ≤ 6 ∧ ∃ c, units.get? k = some c ∧ c ∈ units ∧
      human_loop 7 (double_of_u64 size) 0 = (⟨(double_of_u64 size).num, 10 * k⟩, k) ∧
      human_readable_size size human
        = sprintf_1f ⟨(double_of_u64 size).num, 10 * k⟩ ++ [c] ∧
      (∀ j < k, 1024 ^ (j + 1) ≤ (double_of_u64 size).num) ∧
      (double_of_u64 size).num < 1024 ^ (k + 1) := by
  obtain ⟨k, hk, hres, hall, hlt⟩ := human_loop_u64 size hs
  obtain ⟨c, hc, hget, hmem⟩ := sprintf_unit_of_le k hk
  refine ⟨k, hk, c, hget, hmem, hres, ?_, hall, hlt⟩
  unfold human_readable_size
  rw [if_pos hh]
  simp only [hres, hc]

/-- C15. With human mode off `human_readable_size` renders a size as its plain decimal
numeral: digits only, denoting the size, without a leading zero (1536 gives `1536`). With
human mode on, for an unsigned 64-bit size, it divides the value (the size converted to
`double`, exact below `2 ^ 53`) by 1024 as long as the value is at least 1024, `k` times in
all, and prints the scaled value rounded to one decimal place followed by the unit symbol of
index `k`: 1536 gives `1.5K`, and a size below 1024 is printed as the size itself with `.0`
and the unit `B`. -/
theorem C15_human_readable_size :
    (∀ size : Nat,
      human_readable_size size 0 = sprintf_llu size ∧
      decimal_value (human_readable_size size 0) = size ∧
      (∀ c ∈ human_readable_size size 0, is_decimal_digit c) ∧
      (size ≠ 0 → (human_readable_size size 0).head? ≠ some '0')) ∧
    human_readable_size 1536 0 = ['1', '5', '3', '6'] ∧
    (∀ (size : Nat) (human : Int), size < 2 ^ 64 → human ≠ 0 →
      ∃ k, k ≤ 6 ∧ ∃ c, units.get? k = some c ∧
        human_readable_size size human
          = sprintf_1f ⟨(double_of_u64 size).num, 10 * k⟩ ++ [c] ∧
        (∀ j < k, 1024 ^ (j + 1) ≤ (double_of_u64 size).num) ∧
        (double_of_u64 size).num < 1024 ^ (k + 1)) ∧
    (∀ size : Nat, size < 2 ^ 53 → double_of_u64 size = ⟨size, 0⟩) ∧
    (∀ x : double,
      sprintf_1f x = sprintf_llu (tenths x / 10) ++ ['.'] ++ [Nat.digitChar (tenths x % 10)] ∧
      2 * (x.num * 10) ≤ (2 * tenths x + 1) * 2 ^ x.shift ∧
      2 * tenths x * 2 ^ x.shift ≤ 2 * (x.num * 10) + 2 ^ x.shift) ∧
    human_readable_size 1536 1 = ['1', '.', '5', 'K'] ∧
    (∀ (size : Nat) (human : Int), size < 1024 → human ≠ 0 →
      human_readable_size size human = sprintf_llu size ++ ['.', '0', 'B']) := by
  refine ⟨?_, by decide, ?_, double_of_u64_exact, ?_, by decide, ?_⟩
  · intro size
    rw [human_readable_size_off]
    obtain ⟨h1, h2, h3⟩ := sprintf_llu_spec size
    exact ⟨rfl, h1, h2, h3⟩
  · intro size human hs hh
    obtain ⟨k, hk, c, hget, _, _, hout, hall, hlt⟩ := human_readable_size_on size human hs hh
    exact ⟨k, hk, c, hget, hout, hall, hlt⟩
  · intro x
    exact ⟨rfl, tenths_nearest x⟩
  · intro size human hs hh
    have hs64 : size < 2 ^ 64 := lt_trans hs (by norm_num)
    have hs53 : size < 2 ^ 53 := lt_trans hs (by norm_num)
    obtain ⟨k, _, c, hget, _, _, hout, hall, _⟩ := human_readable_size_on size human hs64 hh
    have hnum : (double_of_u64 size).num = size := by rw [double_of_u64_exact size hs53]
    have hk0 : k = 0 := by
      by_contra hne
      have := hall 0 (Nat.pos_of_ne_zero hne)
      rw [hnum] at this
      omega
    subst hk0
    have hc : c = 'B' := by
      have : units.get? 0 = some 'B' := rfl
      rw [this] at hget
      exact (Option.some.inj hget).symm
    rw [hout, hnum, hc, Nat.mul_zero, sprintf_1f_of_nat, List.append_assoc]
    rfl

theorem C15_human_readable_size_witness :
    (1536 : Nat) < 2 ^ 64 ∧ (1 : Int) ≠ 0 ∧
    (∃ k, k ≤ 6 ∧ ∃ c, units.get? k = some c ∧
      human_readable_size 1536 1
        = sprintf_1f ⟨(double_of_u64 1536).num, 10 * k⟩ ++ [c] ∧
      (∀ j < k, 1024 ^ (j + 1) ≤ (double_of_u64 1536).num) ∧
      (double_of_u64 1536).num < 1024 ^ (k + 1)) ∧
    (512 : Nat) < 1024 ∧
    human_readable_size 512 1 = sprintf_llu 512 ++ ['.', '0', 'B'] ∧
    human_readable_size 512 1 = ['5', '1', '2', '.', '0', 'B'] ∧
    (1536 : Nat) < 2 ^ 53 ∧ double_of_u64 1536 = ⟨1536, 0⟩ ∧
    human_readable_size 18446744073709551615 1 = ['1', '6', '.', '0', 'E'] :=
  ⟨by decide, by decide, C15_human_readable_size.2.2.1 1536 1 (by decide) (by decide),
   by decide, C15_human_readable_size.2.2.2.2.2.2 512 1 (by decide) (by decide), by decide,
   by decide, C15_human_readable_size.2.2.2.1 1536 (by decide), by decide⟩

/-! ## C18 -/

/-- C18. For every unsigned 64-bit size, the loop of `human_readable_size` performs at most
6 divisions by 1024: it ends with `unit ≤ 6`, having divided the start value exactly `unit`
times, and with a value below 1024, so it is the test `dsize >= 1024` that ends it and not
the guard `unit < 7`; the symbol printed is therefore one of `B K M G T P E` (the 7 bytes of
`units`), never the terminating NUL at index 7. -/
theorem C18_unit_index (size : Nat) (hs : size < 2 ^ 64) :
    (human_loop 7 (double_of_u64 size) 0).2 ≤ 6 ∧
    (human_loop 7 (double_of_u64 size) 0).1
      = ⟨(double_of_u64 size).num, 10 * (human_loop 7 (double_of_u64 size) 0).2⟩ ∧
    (human_loop 7 (double_of_u64 size) 0).1.ge_1024 = false ∧
    units.length = 7 ∧
    (∃ c, c ∈ units ∧ units.get? (human_loop 7 (double_of_u64 size) 0).2 = some c ∧
      ∀ human : Int, human ≠ 0 →
        human_readable_size size human
          = sprintf_1f (human_loop 7 (double_of_u64 size) 0).1 ++ [c]) := by
  obtain ⟨k, hk, c, hget, hmem, hres, _, _, hlt⟩ :=
    human_readable_size_on size 1 hs (by decide)
  rw [hres]
  refine ⟨hk, rfl, ?_, rfl, c, hmem, hget, ?_⟩
  · simp only [double.ge_1024, decide_eq_false_iff_not, not_le]
    have hpow : 1024 * 2 ^ (10 * k) = 1024 ^ (k + 1) := by
      have h10 : (2 : Nat) ^ 10 = 1024 := by norm_num
      rw [Nat.pow_mul, h10, Nat.pow_succ, Nat.mul_comm]
    rw [hpow]
    exact hlt
  · intro human hh
    obtain ⟨k', _, c', hget', _, hres', hout', _, _⟩ :=
      human_readable_size_on size human hs hh
    rw [hres] at hres'
    have hkk : k = k' := (Prod.mk.inj hres').2
    subst hkk
    rw [hget] at hget'
    rw [hout', Option.some.inj hget']

theorem C18_unit_index_witness :
    (18446744073709551615 : Nat) < 2 ^ 64 ∧
    (human_loop 7 (double_of_u64 18446744073709551615) 0).2 ≤ 6 ∧
    (human_loop 7 (double_of_u64 18446744073709551615) 0).2 = 6 ∧
    (double_of_u64 18446744073709551615).num = 2 ^ 64 :=
  ⟨by decide, (C18_unit_index 18446744073709551615 (by decide)).1, by decide, by decide⟩

/-! ## A path that does not fit the buffer -/

/-- When `parent/name` is longer than `MAX_PATH - 1` bytes, `snprintf` cuts it and the
walker hands the cut path to `lstat` and to the classifier: below a parent path of 4090
bytes the name `ab.py` is cut to `ab.p`, which is not a text extension. -/
theorem full_path_cut_example :
    full_path (List.replicate 4090 'd') ['a', 'b', '.', 'p', 'y']
      = List.replicate 4090 'd' ++ '/' :: ['a', 'b', '.', 'p'] ∧
    is_text_file (full_path (List.replicate 4090 'd') ['a', 'b', '.', 'p', 'y']) = false ∧
    is_text_file ['a', 'b', '.', 'p', 'y'] = true := by
  have hcut : full_path (List.replicate 4090 'd') ['a', 'b', '.', 'p', 'y']
      = List.replicate 4090 'd' ++ '/' :: ['a', 'b', '.', 'p'] := by
    unfold full_path MAX_PATH
    rw [List.take_append_eq_append_take, List.length_replicate,
      List.take_of_length_le (by rw [List.length_replicate]; norm_num)]
    rfl
  have hnul : nul_free (List.replicate 4090 'd') := by
    intro c hc
    rw [List.eq_of_mem_replicate hc]
    decide
  refine ⟨hcut, ?_, by decide⟩
  rw [hcut, is_text_file_join _ _ hnul (by decide)]
  decide

end Fst
